import Mathlib

/-!
# o-lap: overlap removal by greedy nearest-pair fusion

A shallow embedding of the clustering core of `o-lap.cpp`, `Atom.h`, `Atom.cpp` and
`Point.cpp`.  A `double` is modelled by an exact rational number, a `QString` by a
`String`, a `std::vector` by a `List`, `size_t` and `unsigned long` by `Nat`.
The C library function `sqrt` and the global table `atomtypes` are carried in an
environment `Env`; every theorem that does not say otherwise holds for every
environment, in particular for every function standing for `sqrt`.
A `std::map<int,std::vector<Atom>>` is the list of its entries in ascending key order,
`QString::toDouble` is a parameter of `atoms2bins`, and the output streams are the lists of
what is written to them.
-/

namespace OLap

/-! ## Point.cpp -/

/-- A point of 3D space (`Point.h` declares the three `double` members `x`, `y`, `z`). -/
structure Point where
  x : ℚ
  y : ℚ
  z : ℚ
deriving DecidableEq

namespace Point

/-- The value-initialised point `Point()`. -/
def zero : Point := ⟨0, 0, 0⟩

/-- The `operator+` of Point.cpp (through `operator+=`). -/
def add (lhs rhs : Point) : Point := ⟨lhs.x + rhs.x, lhs.y + rhs.y, lhs.z + rhs.z⟩

/-- The `operator-` of Point.cpp (through `operator-=`). -/
def sub (lhs rhs : Point) : Point := ⟨lhs.x - rhs.x, lhs.y - rhs.y, lhs.z - rhs.z⟩

/-- The `operator/` of Point.cpp, division by a scalar. -/
def div (lhs : Point) (rhs : ℚ) : Point := ⟨lhs.x / rhs, lhs.y / rhs, lhs.z / rhs⟩

end Point

/-- The function `dot( lhs, rhs )` of Point.cpp. -/
def dot (lhs rhs : Point) : ℚ := lhs.x * rhs.x + lhs.y * rhs.y + lhs.z * rhs.z

/-! ## Atom.h, Atom.cpp -/

/-- The record `struct Atom` of Atom.h. -/
structure Atom where
  serial : String
  name : String
  posit : List Point
  type : String
  charge : ℚ
  mark : Bool
deriving DecidableEq

instance : Inhabited Atom := ⟨⟨"", "", [], "", 0, false⟩⟩

/-- The method `Atom::pos`: `std::accumulate` of the positions from `Point()`, divided by
their number when that number is not zero. -/
def Atom.pos (a : Atom) : Point :=
  let avg := a.posit.foldl Point.add Point.zero
  if a.posit.length ≠ 0 then avg.div (a.posit.length : ℚ) else Point.zero

/-- The method `Atom::mono`: exactly one position. -/
def Atom.mono (a : Atom) : Bool := 1 == a.posit.length

/-! ## o-lap.cpp: types and distances -/

/-- What the code takes from outside the translated functions: the C library `sqrt`
and the global `std::map<QString,int> atomtypes` (`none` is `atomtypes.end()`). -/
structure Env where
  sqrt : ℚ → ℚ
  atomtypes : String → Option Int

/-- A `QMap<QString, QVariant>` of cutoffs read through `find` and `toDouble`
(`none` is `cutmap.end()`). -/
abbrev CutMap := String → Option ℚ

/-- The function `atomtype( lhs )`, lines 104-109. -/
def atomtype (E : Env) (lhs : String) : Int :=
  match E.atomtypes lhs with
  | some c => c
  | none => 0

/-- The function `sametype( lhs, rhs, similar, charge )`, lines 111-120. -/
def sametype (E : Env) (lhs rhs : Atom) (similar : Bool) (charge : ℚ) : Bool :=
  if charge < |lhs.charge - rhs.charge| then false
  else
    match similar, E.atomtypes lhs.type, E.atomtypes rhs.type with
    | true, some lp, some rp => lp == rp
    | _, _, _ => lhs.type == rhs.type

/-- The function `sqrdist( lhs, rhs )`, lines 122-128. -/
def sqrdist (E : Env) (lhs rhs : Atom) : ℚ :=
  let pos := lhs.pos.sub rhs.pos
  let dist := E.sqrt (dot pos pos)
  let dist := if lhs.mono && rhs.mono then dist * 2 else dist
  if (lhs.type == "C.ar" || lhs.type == "N.ar") && decide (138 / 100 < dist)
  then 4 * dist else dist

/-- The function `distance( lhs, rhs )`, lines 131-137. -/
def distance (E : Env) (lhs rhs : Atom) : ℚ :=
  let pos := lhs.pos.sub rhs.pos
  let dist := E.sqrt (dot pos pos)
  if lhs.mono && rhs.mono then dist * 2 else dist

/-- The function `sdist( lhs, rhs )`, lines 140-144. -/
def sdist (lhs rhs : Atom) : ℚ :=
  let pos := lhs.pos.sub rhs.pos
  dot pos pos

/-! ## o-lap.cpp: `internal_merge` -/

/-- The constant `99999999.0` that fills the distance matrix. -/
def sentinel : ℚ := 99999999

/-- The inner `for ( col = row + 1; col < atoms.size(); ++col )` loop of lines 274-278. -/
def fill_row (E : Env) (atoms : List Atom) (similar : Bool) (chargediff : ℚ) (row : Nat)
    (distmat : List ℚ) : List ℚ :=
  (List.range' (row + 1) (atoms.length - (row + 1))).foldl
    (fun dm col =>
      if sametype E (atoms.getD row default) (atoms.getD col default) similar chargediff then
        dm.set (row * atoms.length + col)
          (distance E (atoms.getD row default) (atoms.getD col default))
      else dm)
    distmat

/-- Lines 272-279: the flat `size * size` matrix, filled with the sentinel and then
overwritten at `row * size + col` for the same-type pairs `row < col`. -/
def distmat (E : Env) (atoms : List Atom) (similar : Bool) (chargediff : ℚ) : List ℚ :=
  (List.range (atoms.length - 1)).foldl
    (fun dm row => fill_row E atoms similar chargediff row dm)
    (List.replicate (atoms.length * atoms.length) sentinel)

/-- The scan of `std::min_element` after its first element: `smallest` moves to `i`
only when the element there is strictly smaller. -/
def min_element_from (smallest : Nat) (best : ℚ) : Nat → List ℚ → Nat × ℚ
  | _, [] => (smallest, best)
  | i, x :: xs =>
    if x < best then min_element_from i x (i + 1) xs
    else min_element_from smallest best (i + 1) xs

/-- The call `std::min_element( begin, end )` as the pair (`std::distance( begin, nearest )`,
`*nearest`).  The loop of `internal_merge` never scans an empty matrix. -/
def min_element : List ℚ → Nat × ℚ
  | [] => (0, sentinel)
  | x :: xs => min_element_from 0 x 1 xs

/-- Lines 283-299: the limit for the pair whose acceptor has type `acceptor` and whose
donor has type `donor`. -/
def resolve_limit (cutoff : ℚ) (cutmap : CutMap) (acceptor donor : String) : ℚ :=
  let limit := cutoff
  let limit :=
    match cutmap acceptor with
    | some limit2 =>
      -- `if ( limit2 < limit ) limit = limit2;` and then `limit = it.value().toDouble();`
      (fun (_ : ℚ) => limit2) (if limit2 < limit then limit2 else limit)
    | none => limit
  match cutmap donor with
  | some limit2 => if limit2 < limit then limit2 else limit
  | none => limit

/-- Lines 303-310: the record at index `ito` absorbs the positions of the record at index
`ifrom` and takes its charge when that is strictly larger in magnitude.  For `ito = ifrom`
(the nearest entry is position 0 of the matrix) the C++ `insert` reads from the vector it
grows; the model appends the list to itself, and line 312 erases that record in any case. -/
def absorb (atoms : List Atom) (ito ifrom : Nat) : List Atom :=
  let acc := atoms.getD ito default
  let atoms :=
    atoms.set ito { acc with posit := acc.posit ++ (atoms.getD ifrom default).posit }
  let toc := (atoms.getD ito default).charge
  let frc := (atoms.getD ifrom default).charge
  if |toc| < |frc| then atoms.set ito { atoms.getD ito default with charge := frc }
  else atoms

/-- Lines 303-312: the absorption, then `atoms.erase( begin(atoms) + ifrom )`. -/
def fuse (atoms : List Atom) (ito ifrom : Nat) : List Atom :=
  (absorb atoms ito ifrom).eraseIdx ifrom

/-- The position `pos` and the value `best` of the nearest entry (lines 272-282). -/
def nearest (E : Env) (atoms : List Atom) (similar : Bool) (chargediff : ℚ) : Nat × ℚ :=
  min_element (distmat E atoms similar chargediff)

/-- The limit of lines 283-299 for the nearest entry of the bin. -/
def round_limit (E : Env) (atoms : List Atom) (cutoff : ℚ) (similar : Bool) (chargediff : ℚ)
    (cutmap : CutMap) : ℚ :=
  let pos := (nearest E atoms similar chargediff).1
  resolve_limit cutoff cutmap (atoms.getD (pos / atoms.length) default).type
    (atoms.getD (pos % atoms.length) default).type

/-- One pass through the body of the `while` loop (lines 272-312): `none` is the `break`,
`some` the bin after the fusion. -/
def merge_round (E : Env) (atoms : List Atom) (cutoff : ℚ) (similar : Bool) (chargediff : ℚ)
    (cutmap : CutMap) : Option (List Atom) :=
  let pos := (nearest E atoms similar chargediff).1
  let best := (nearest E atoms similar chargediff).2
  let limit := round_limit E atoms cutoff similar chargediff cutmap
  if limit < best then none
  else some (fuse atoms (pos / atoms.length) (pos % atoms.length))

/-- The `while ( 1 < atoms.size() )` loop, run for at most `fuel` passes. -/
def merge_loop (E : Env) (cutoff : ℚ) (similar : Bool) (chargediff : ℚ) (cutmap : CutMap) :
    Nat → List Atom → List Atom
  | 0, atoms => atoms
  | fuel + 1, atoms =>
    if 1 < atoms.length then
      match merge_round E atoms cutoff similar chargediff cutmap with
      | none => atoms
      | some atoms' => merge_loop E cutoff similar chargediff cutmap fuel atoms'
    else atoms

/-- The number of fusions the loop performs within `fuel` passes. -/
def merge_count (E : Env) (cutoff : ℚ) (similar : Bool) (chargediff : ℚ) (cutmap : CutMap) :
    Nat → List Atom → Nat
  | 0, _ => 0
  | fuel + 1, atoms =>
    if 1 < atoms.length then
      match merge_round E atoms cutoff similar chargediff cutmap with
      | none => 0
      | some atoms' => merge_count E cutoff similar chargediff cutmap fuel atoms' + 1
    else 0

/-- The bin when the `while` loop has ended: each pass that does not stop erases one
record, so `atoms.length` passes are enough (`merge_loop_fuel`). -/
def converged (E : Env) (atoms : List Atom) (cutoff : ℚ) (similar : Bool) (chargediff : ℚ)
    (cutmap : CutMap) : List Atom :=
  merge_loop E cutoff similar chargediff cutmap atoms.length atoms

/-- The predicate of the first `remove_if` (lines 315-321). -/
def small_neutral (cmin : Nat) (nibthreshold : ℚ) (x : Atom) : Bool :=
  decide (x.posit.length < cmin) && decide (|x.charge| ≤ nibthreshold)

/-- The predicate of the second `remove_if` (lines 322-328). -/
def small_charged (cminchr : Nat) (nibthreshold : ℚ) (x : Atom) : Bool :=
  decide (x.posit.length < cminchr) && decide (nibthreshold < |x.charge|)

/-- The function `internal_merge( atoms, cmin, cminchr, nibthreshold, cutoff, similar,
chargediff, cutmap )`: the value of `atoms` on return. -/
def internal_merge (E : Env) (atoms : List Atom) (cmin cminchr : Nat) (nibthreshold cutoff : ℚ)
    (similar : Bool) (chargediff : ℚ) (cutmap : CutMap) : List Atom :=
  let atoms := converged E atoms cutoff similar chargediff cutmap
  let atoms := atoms.filter (fun x => !small_neutral cmin nibthreshold x)
  atoms.filter (fun x => !small_charged cminchr nibthreshold x)

/-- The value that lines 272-279 leave at position `p` of the matrix (`distmat_getElem?`):
the distance of the pair (`p / size`, `p % size`) when `p / size < p % size` and the pair
passes `sametype`, the sentinel otherwise. -/
def entry (E : Env) (atoms : List Atom) (similar : Bool) (chargediff : ℚ) (p : Nat) : ℚ :=
  if p / atoms.length < p % atoms.length ∧
      sametype E (atoms.getD (p / atoms.length) default) (atoms.getD (p % atoms.length) default)
        similar chargediff = true
  then distance E (atoms.getD (p / atoms.length) default) (atoms.getD (p % atoms.length) default)
  else sentinel

/-- The loop has ended on `atoms`: at most one record is left or the round breaks. -/
def stable (E : Env) (atoms : List Atom) (cutoff : ℚ) (similar : Bool) (chargediff : ℚ)
    (cutmap : CutMap) : Prop :=
  atoms.length ≤ 1 ∨ merge_round E atoms cutoff similar chargediff cutmap = none

/-! ## Qt text functions and `std::map` -/

/-- Splitting of a character list at every `sep`, empty parts kept. -/
def splitChars (sep : Char) : List Char → List (List Char)
  | [] => [[]]
  | c :: cs =>
    if c = sep then [] :: splitChars sep cs
    else
      match splitChars sep cs with
      | [] => [[c]]
      | w :: ws => (c :: w) :: ws

/-- The call `QString::split( sep )` with a one-character separator, empty parts kept. -/
def split (sep : Char) (s : String) : List String :=
  (splitChars sep s.data).map String.mk

/-- The call `QString::split( sep, Qt::SkipEmptyParts )`. -/
def split_skip_empty (sep : Char) (s : String) : List String :=
  (split sep s).filter (fun w => w ≠ "")

/-- The call `QString::toULong()` on the text of a key field: the value of a non-empty run of
decimal digits that fits 64 bits, and 0 (the failure value) for every other text, a text with a
minus sign included. -/
def toULong (s : String) : Nat :=
  if s.data ≠ [] ∧ s.data.all Char.isDigit = true then
    let v := s.data.foldl (fun n c => 10 * n + (c.toNat - '0'.toNat)) 0
    if v < 2 ^ 64 then v else 0
  else 0

/-- The text `QString( "%1_%2_%3" ).arg(tcat).arg(acount).arg(name)` of line 401. -/
def identity_key (tcat : Int) (acount : Nat) (name : String) : String :=
  toString tcat ++ "_" ++ toString acount ++ "_" ++ name

/-- A `std::map<int,std::vector<Atom>>`: the entries in the order of iteration. -/
abbrev Bins := List (Int × List Atom)

/-- The lookup `atomcats.find( k )`, `none` when the key is absent (where `at` throws). -/
def bins_at (atomcats : Bins) (k : Int) : Option (List Atom) :=
  match atomcats with
  | [] => none
  | (k', v) :: rest => if k' = k then some v else bins_at rest k

/-- Insertion of a new entry at its place in the ascending order of the keys. -/
def bins_insert (atomcats : Bins) (k : Int) (v : List Atom) : Bins :=
  match atomcats with
  | [] => [(k, v)]
  | (k', v') :: rest =>
    if k < k' then (k, v) :: (k', v') :: rest else (k', v') :: bins_insert rest k v

/-- Replacement of the vector stored under the key `k`. -/
def bins_update (atomcats : Bins) (k : Int) (v : List Atom) : Bins :=
  match atomcats with
  | [] => []
  | (k', v') :: rest =>
    if k' = k then (k', v) :: rest else (k', v') :: bins_update rest k v

/-- The statement `atomcats[k].emplace_back( a )`: `operator[]` creates the empty vector when
the key is absent. -/
def bins_emplace_back (atomcats : Bins) (k : Int) (a : Atom) : Bins :=
  match bins_at atomcats k with
  | some v => bins_update atomcats k (v ++ [a])
  | none => bins_insert atomcats k [a]

/-! ## o-lap.cpp: `atoms2bins` -/

/-- Lines 382-395: the type and the charge after the NIB step. -/
def nib_reclassify (usenib nibneutral : Bool) (nibthreshold : ℚ) (type : String) (charge : ℚ) :
    String × ℚ :=
  if usenib then
    if charge < -nibthreshold then ("O.3", charge)
    else if charge > nibthreshold then ("N.3", charge)
    else
      let charge := if nibneutral then 0 else charge
      let type := if type != "C.ar" then "C.3" else type
      (type, charge)
  else (type, charge)

/-- The body of the loop of `atoms2bins` (lines 378-405) for the row `atom`; `toDouble` stands
for `QString::toDouble`. -/
def atoms2bins_row (E : Env) (toDouble : String → ℚ) (usenib nibneutral : Bool)
    (nibthreshold : ℚ) (deletelist : List String) (atomcats : Bins) (atom : List String) : Bins :=
  if atom.length = 9 then
    let tc := nib_reclassify usenib nibneutral nibthreshold (atom.getD 5 "")
      (toDouble (atom.getD 8 ""))
    if !deletelist.contains tc.1 then
      let tcat := atomtype E tc.1
      let acount := ((bins_at atomcats tcat).getD []).length
      bins_emplace_back atomcats tcat
        ⟨atom.getD 0 "", identity_key tcat acount (atom.getD 1 ""),
          [⟨toDouble (atom.getD 2 ""), toDouble (atom.getD 3 ""), toDouble (atom.getD 4 "")⟩],
          tc.1, tc.2, false⟩
    else atomcats
  else atomcats

/-- The function `atoms2bins( atoms, usenib, nibneutral, nibthreshold, deletelist )`,
lines 372-408. -/
def atoms2bins (E : Env) (toDouble : String → ℚ) (atoms : List (List String))
    (usenib nibneutral : Bool) (nibthreshold : ℚ) (deletelist : List String) : Bins :=
  atoms.foldl (atoms2bins_row E toDouble usenib nibneutral nibthreshold deletelist) []

/-- The type and the charge that lines 380-395 give the row. -/
def row_final (toDouble : String → ℚ) (usenib nibneutral : Bool) (nibthreshold : ℚ)
    (row : List String) : String × ℚ :=
  nib_reclassify usenib nibneutral nibthreshold (row.getD 5 "") (toDouble (row.getD 8 ""))

/-- The rows of the specification of the binner: nine fields, and a final type that is not in
the delete-set. -/
def row_selected (toDouble : String → ℚ) (usenib nibneutral : Bool) (nibthreshold : ℚ)
    (deletelist : List String) (row : List String) : Bool :=
  decide (row.length = 9) &&
    !deletelist.contains (row_final toDouble usenib nibneutral nibthreshold row).1

/-- The record of the specification of the binner for a selected row placed at index `i` of
the bin `tcat`. -/
def record_of_row (toDouble : String → ℚ) (usenib nibneutral : Bool) (nibthreshold : ℚ)
    (tcat : Int) (i : Nat) (row : List String) : Atom :=
  ⟨row.getD 0 "", identity_key tcat i (row.getD 1 ""),
    [⟨toDouble (row.getD 2 ""), toDouble (row.getD 3 ""), toDouble (row.getD 4 "")⟩],
    (row_final toDouble usenib nibneutral nibthreshold row).1,
    (row_final toDouble usenib nibneutral nibthreshold row).2, false⟩

/-- The bin `c` of the specification of the binner: the selected rows whose final type has
category `c`, in input order, each numbered by its place among them. -/
def bin_spec (E : Env) (toDouble : String → ℚ) (usenib nibneutral : Bool) (nibthreshold : ℚ)
    (deletelist : List String) (c : Int) (rows : List (List String)) : List Atom :=
  (rows.filter (fun row =>
      row_selected toDouble usenib nibneutral nibthreshold deletelist row &&
        decide (atomtype E (row_final toDouble usenib nibneutral nibthreshold row).1 = c))).mapIdx
    (fun i row => record_of_row toDouble usenib nibneutral nibthreshold c i row)

/-! ## o-lap.cpp: `bins2abc` -/

/-- Lines 421-426: the squared limit of the row. -/
def row_maxdist (cutoff : ℚ) (cutmap : CutMap) (type : String) : ℚ :=
  match cutmap type with
  | some v => v * v
  | none => cutoff * cutoff

/-- Lines 428-436: what the pair (`row`, `col`) writes to the stream, a line made of the two
names and the weight, or nothing. -/
def abc_line (E : Env) (acat : List Atom) (cutoff : ℚ) (similar : Bool) (chargediff : ℚ)
    (cutmap : CutMap) (row col : Nat) : List (String × String × ℚ) :=
  if sametype E (acat.getD row default) (acat.getD col default) similar chargediff then
    let d := row_maxdist cutoff cutmap (acat.getD row default).type
      - sdist (acat.getD row default) (acat.getD col default)
    if 0 < d then [((acat.getD row default).name, (acat.getD col default).name, d)] else []
  else []

/-- Lines 420-438: the lines written for one bin. -/
def bin2abc (E : Env) (acat : List Atom) (cutoff : ℚ) (similar : Bool) (chargediff : ℚ)
    (cutmap : CutMap) : List (String × String × ℚ) :=
  (List.range (acat.length - 1)).flatMap (fun row =>
    (List.range' (row + 1) (acat.length - (row + 1))).flatMap (fun col =>
      abc_line E acat cutoff similar chargediff cutmap row col))

/-- The function `bins2abc( ostr, atomcats, cutoff, similar, chargediff, cutmap )`,
lines 414-440: the lines written to `ostr`, in order. -/
def bins2abc (E : Env) (atomcats : Bins) (cutoff : ℚ) (similar : Bool) (chargediff : ℚ)
    (cutmap : CutMap) : List (String × String × ℚ) :=
  atomcats.flatMap (fun cat => bin2abc E cat.2 cutoff similar chargediff cutmap)

/-- The pairs (`row`, `col`) that the two loops of lines 420 and 427 visit in a bin of `n`
records, in the order of the visit. -/
def index_pairs (n : Nat) : List (Nat × Nat) :=
  (List.range (n - 1)).flatMap (fun row =>
    (List.range' (row + 1) (n - (row + 1))).map (fun col => (row, col)))

/-! ## o-lap.cpp: `mcl2atoms` -/

/-- The conversion of an `unsigned long` to the `int` key of the map (lines 176, 183). -/
def int_of_ulong (n : Nat) : Int := Int.bmod (n : Int) (2 ^ 32)

/-- The conversion of the `int` key of the map to `unsigned long` (line 209). -/
def ulong_of_int (k : Int) : Nat := (k % (2 ^ 64 : Int)).toNat

/-- Lines 172-174 and 179-181: the key is split at the underscores and its first two fields
are read with `toULong`; `none` when there is no second field. -/
def resolve (word : String) : Option (Nat × Nat) :=
  match split '_' word with
  | a :: b :: _ => some (toULong a, toULong b)
  | _ => none

/-- The record `atomcats.at( tnum )[ anum ]`; `none` when `at` throws or the index is outside
the vector. -/
def bins_get (atomcats : Bins) (tnum anum : Nat) : Option Atom :=
  match bins_at atomcats (int_of_ulong tnum) with
  | some v => v[anum]?
  | none => none

/-- Assignment through the reference `atomcats.at( tnum )[ anum ]`. -/
def bins_set (atomcats : Bins) (tnum anum : Nat) (x : Atom) : Bins :=
  match bins_at atomcats (int_of_ulong tnum) with
  | some v => bins_update atomcats (int_of_ulong tnum) (v.set anum x)
  | none => atomcats

/-- The variables of `mcl2atoms`: the bins, the set `used`, the counter `serial` and the
records printed to `ostr`, each with the serial it was printed under. -/
structure MclState where
  atomcats : Bins
  used : List (Nat × Nat)
  serial : Nat
  ostr : List (Nat × Atom)
deriving DecidableEq

/-- The statements `++serial; print( ostr, x, serial );`. -/
def mcl_print (st : MclState) (x : Atom) : MclState :=
  { st with serial := st.serial + 1, ostr := st.ostr ++ [(st.serial + 1, x)] }

/-- Lines 179-187, the body of the loop over the donors of a group with acceptor
(`tnum`, `anum`).  The charge of the donor is read after the insertion, which leaves every
charge as it was. -/
def mcl_absorb (tnum anum : Nat) (st : MclState) (w : String) : Option MclState :=
  match resolve w with
  | none => none
  | some (wtnum, wanum) =>
    match bins_get st.atomcats wtnum wanum, bins_get st.atomcats tnum anum with
    | some frm, some acc =>
      let acc := { acc with posit := acc.posit ++ frm.posit }
      let acc := if |acc.charge| < |frm.charge| then { acc with charge := frm.charge } else acc
      some { st with atomcats := bins_set st.atomcats tnum anum acc
                     used := st.used.insert (wtnum, wanum) }
    | _, _ => none

/-- The loop of lines 178-188 over the donors. -/
def mcl_absorb_all (tnum anum : Nat) : MclState → List String → Option MclState
  | st, [] => some st
  | st, w :: ws =>
    match mcl_absorb tnum anum st w with
    | none => none
    | some st' => mcl_absorb_all tnum anum st' ws

/-- Lines 189-201: the acceptor is printed when the size and charge test keeps it. -/
def mcl_emit (cmin cminchr : Nat) (nibthreshold : ℚ) (st : MclState) (acc : Atom) : MclState :=
  if |acc.charge| ≤ nibthreshold then
    if cmin ≤ acc.posit.length then mcl_print st acc else st
  else
    if cminchr ≤ acc.posit.length then mcl_print st acc else st

/-- Lines 171-202, the words of one line of the cluster file: the first key is the acceptor,
the others are its donors; `none` when a key does not resolve to a record. -/
def mcl_words (cmin cminchr : Nat) (nibthreshold : ℚ) (st : MclState) (words : List String) :
    Option MclState :=
  match words with
  | [] => some st
  | w0 :: ws =>
    match resolve w0 with
    | none => none
    | some (tnum, anum) =>
      match bins_get st.atomcats tnum anum with
      | none => none
      | some _ =>
        match mcl_absorb_all tnum anum { st with used := st.used.insert (tnum, anum) } ws with
        | none => none
        | some st' =>
          match bins_get st'.atomcats tnum anum with
          | none => none
          | some acc => some (mcl_emit cmin cminchr nibthreshold st' acc)

/-- Lines 165-202 for one line of the cluster file, split at the tabs. -/
def mcl_group (cmin cminchr : Nat) (nibthreshold : ℚ) (st : MclState) (line : String) :
    Option MclState :=
  mcl_words cmin cminchr nibthreshold st (split_skip_empty '\t' line)

/-- The loop of line 165 over the lines of the cluster file. -/
def mcl_groups (cmin cminchr : Nat) (nibthreshold : ℚ) : MclState → List String → Option MclState
  | st, [] => some st
  | st, line :: lines =>
    match mcl_group cmin cminchr nibthreshold st line with
    | none => none
    | some st' => mcl_groups cmin cminchr nibthreshold st' lines

/-- Lines 210-225 for one bin: the records whose place is not in `used`. -/
def mcl_flush_bin (cmin cminchr : Nat) (nibthreshold : ℚ) (tnum : Nat) (acat : List Atom)
    (st : MclState) : MclState :=
  (List.range acat.length).foldl
    (fun st anum =>
      if (tnum, anum) ∈ st.used then st
      else if |(acat.getD anum default).charge| ≤ nibthreshold then
        if cmin < 2 then mcl_print st (acat.getD anum default) else st
      else
        if cminchr ≤ 2 then mcl_print st (acat.getD anum default) else st)
    st

/-- Lines 207-228: the records that no group names. -/
def mcl_flush (cmin cminchr : Nat) (nibthreshold : ℚ) (st : MclState) : MclState :=
  if cmin < 2 then
    st.atomcats.foldl
      (fun st' cat => mcl_flush_bin cmin cminchr nibthreshold (ulong_of_int cat.1) cat.2 st') st
  else st

/-- The function `mcl2atoms` (lines 150-238) on the lines of the cluster file: the state
when the model is written out, `none` when a key does not resolve to a record.  With no line
at all nothing is processed and nothing is written. -/
def mcl2atoms (lines : List String) (atomcats : Bins) (cmin cminchr : Nat) (nibthreshold : ℚ) :
    Option MclState :=
  if 0 < lines.length then
    match mcl_groups cmin cminchr nibthreshold ⟨atomcats, [], 0, []⟩ lines with
    | none => none
    | some st => some (mcl_flush cmin cminchr nibthreshold st)
  else some ⟨atomcats, [], 0, []⟩

/-- The charge that line 187 leaves after the donors' charges `frcs` have been met in order,
starting from the acceptor's charge `toc`. -/
def extreme_charge (toc : ℚ) (frcs : List ℚ) : ℚ :=
  frcs.foldl (fun toc frc => if |toc| < |frc| then frc else toc) toc

/-! ## Concrete data used by the examples -/

/-- An environment whose `sqrt` is exact on the squares of rationals and whose
`atomtypes` table is empty. -/
def exactEnv : Env := ⟨Rat.sqrt, fun _ => none⟩

/-- The empty cutoff table. -/
def noCut : CutMap := fun _ => none

/-- A record with one position on the x axis. -/
def atomAt (name type : String) (x charge : ℚ) : Atom :=
  ⟨"1", name, [⟨x, 0, 0⟩], type, charge, false⟩

/-- A cutoff table with the one entry N.3 -> 5. -/
def wideCut : CutMap := fun t => if t = "N.3" then some 5 else none

/-- Two C.3 records one unit apart, then two N.3 records 1.5 apart, all with one position and
no charge. -/
def mixedBin : List Atom :=
  [atomAt "a" "C.3" 0 0, atomAt "b" "C.3" 1 0, atomAt "c" "N.3" 10 0,
    atomAt "d" "N.3" (23 / 2) 0]

/-- A cutoff table with the one entry O.3 -> 1. -/
def tightCut : CutMap := fun t => if t = "O.3" then some 1 else none

/-- Two O.3 records of charge -0.5 one unit apart, then two uncharged C.3 records 1.5 apart,
all with one position. -/
def chargedBin : List Atom :=
  [atomAt "a" "O.3" 0 (-1 / 2), atomAt "b" "O.3" 1 (-1 / 2), atomAt "c" "C.3" 10 0,
    atomAt "d" "C.3" (23 / 2) 0]

/-- A stand-in for `QString::toDouble` on the texts of the examples. -/
def exampleDouble : String → ℚ :=
  fun s => if s = "1.5" then 3 / 2 else if s = "-0.5" then -1 / 2 else 0

/-- A nine-field row with the given id, name, x coordinate, type and charge. -/
def rowOf (id name x type charge : String) : List String :=
  [id, name, x, "0", "0", type, "1", "LIG", charge]

/-- An environment whose table gives C.3 the category -1. -/
def negEnv : Env := ⟨Rat.sqrt, fun t => if t = "C.3" then some (-1) else none⟩

/-- An environment whose table puts C.3 and C.2 in the category 1. -/
def similarEnv : Env := ⟨Rat.sqrt, fun t => if t = "C.3" ∨ t = "C.2" then some 1 else none⟩

/-- A cutoff table with the entries C.3 -> 2 and C.2 -> 1. -/
def pairCut : CutMap :=
  fun t => if t = "C.3" then some 2 else if t = "C.2" then some 1 else none

/-- One bin, of category 1, with a C.3 record and a C.2 record 1.5 apart. -/
def similarBins : Bins :=
  [(1, [⟨"1", "1_0_A", [⟨0, 0, 0⟩], "C.3", 0, false⟩,
        ⟨"2", "1_1_B", [⟨3 / 2, 0, 0⟩], "C.2", 0, false⟩])]

/-- One bin, of category 0, with two C.3 records of charges 0.1 and -0.2. -/
def importBins : Bins :=
  [(0, [⟨"1", "0_0_C1", [⟨0, 0, 0⟩], "C.3", 1 / 10, false⟩,
        ⟨"2", "0_1_C2", [⟨1 / 2, 0, 0⟩], "C.3", -1 / 5, false⟩])]

/-- The acceptor of the example group: the first record of `importBins`. -/
def importAcceptor : Atom := ⟨"1", "0_0_C1", [⟨0, 0, 0⟩], "C.3", 1 / 10, false⟩

/-- The donors of the example group, each with its key, its place and its record: the second
record of `importBins`. -/
def importDonors : List (String × (Nat × Nat) × Atom) :=
  [("0_1_C2", (0, 1), ⟨"2", "0_1_C2", [⟨1 / 2, 0, 0⟩], "C.3", -1 / 5, false⟩)]

/-- A square root rounded down to two decimals: the largest `k / 100` with `k ≤ 200` whose
square is at most `x`. -/
def floorSqrt (x : ℚ) : ℚ :=
  (Nat.findGreatest (fun k : Nat => ((k : ℚ) / 100) * ((k : ℚ) / 100) ≤ x) 200 : ℚ) / 100

/-- An environment with the rounded square root and an empty `atomtypes` table. -/
def floorEnv : Env := ⟨floorSqrt, fun _ => none⟩

/-- Three C.3 records with one position each, at (0, 0, 0), (0.55, 0, 0) and
(0.275, 0.12, 0): the rounded distances are 0.55, 0.3 and 0.3. -/
def triangleBin : List Atom :=
  [⟨"1", "a", [⟨0, 0, 0⟩], "C.3", 0, false⟩,
   ⟨"2", "b", [⟨11 / 20, 0, 0⟩], "C.3", 0, false⟩,
   ⟨"3", "c", [⟨11 / 40, 3 / 25, 0⟩], "C.3", 0, false⟩]

/-- A C.3 record and an N.3 record one unit apart, both with one position and no charge. -/
def strangerBin : List Atom := [atomAt "a" "C.3" 0 0, atomAt "b" "N.3" 1 0]

/-- Two C.3 records one unit apart whose charges, 0 and 0.5, differ by more than 0.2. -/
def splitBin : List Atom := [atomAt "a" "C.3" 0 0, atomAt "b" "C.3" 1 (1 / 2)]

/-- A cutoff table with the one entry C.3 -> 1.1. -/
def entryCut : CutMap := fun t => if t = "C.3" then some (11 / 10) else none

/-- Two single-position C.3 records 0.4 apart, with no charge. -/
def closeBin : List Atom := [atomAt "a" "C.3" 0 0, atomAt "b" "C.3" (2 / 5) 0]

/-- Two nine-field rows of type C.3 with no charge, 1.5 apart on the x axis. -/
def conserveRows : List (List String) :=
  [rowOf "1" "C1" "0" "C.3" "0", rowOf "2" "C2" "1.5" "C.3" "0"]

/-- The bin that `atoms2bins` makes of `conserveRows`. -/
def conserveBin : Int × List Atom :=
  (0, [⟨"1", "0_0_C1", [⟨0, 0, 0⟩], "C.3", 0, false⟩,
       ⟨"2", "0_1_C2", [⟨3 / 2, 0, 0⟩], "C.3", 0, false⟩])

/-- One bin, of category 0, with three C.3 records of charges 0.1, -0.2 and 0. -/
def groupBins : Bins :=
  [(0, [⟨"1", "0_0_C1", [⟨0, 0, 0⟩], "C.3", 1 / 10, false⟩,
        ⟨"2", "0_1_C2", [⟨1 / 2, 0, 0⟩], "C.3", -1 / 5, false⟩,
        ⟨"3", "0_2_C3", [⟨5, 0, 0⟩], "C.3", 0, false⟩])]

/-- The state of `mcl2atoms` on `groupBins` after the line `0_2_C3` of a cluster file. -/
def groupState : MclState :=
  ⟨groupBins, [(0, 2)], 1, [(1, ⟨"3", "0_2_C3", [⟨5, 0, 0⟩], "C.3", 0, false⟩)]⟩

/-- One bin, of category 0, with an uncharged C.3 record and a C.3 record of charge -0.5. -/
def flushBins : Bins :=
  [(0, [⟨"1", "0_0_C1", [⟨0, 0, 0⟩], "C.3", 0, false⟩,
        ⟨"2", "0_1_C2", [⟨5, 0, 0⟩], "C.3", -1 / 2, false⟩])]

/-- Two single-position records of type C.ar, 1.5 apart. -/
def ringBin : List Atom := [atomAt "a" "C.ar" 0 0, atomAt "b" "C.ar" (3 / 2) 0]

/-- A record of type C.ar that holds two positions, with its centroid at the origin. -/
def grownRing : Atom := ⟨"1", "a", [⟨-1 / 2, 0, 0⟩, ⟨1 / 2, 0, 0⟩], "C.ar", 0, false⟩

/-- Two single-position records of type C.3, one unit apart. -/
def pairBin : List Atom := [atomAt "a" "C.3" 0 0, atomAt "b" "C.3" 1 0]


/-! ## The size and charge filter (lines 315-328) -/

theorem converged_single (E : Env) (a : Atom) (cutoff : ℚ) (similar : Bool) (chargediff : ℚ)
    (cutmap : CutMap) : converged E [a] cutoff similar chargediff cutmap = [a] := by
  simp [converged, merge_loop]

/-- C1 as stated fails: with `cmin = 2`, `cminchr = 1` and the negative threshold `-1`, a bin
holding one zero-charge single-position atom comes back unchanged, because `|0| ≤ -1` is
false and the atom is filtered as a charged one. -/
theorem filter_law_negative_threshold :
    internal_merge exactEnv [atomAt "a" "C.3" 0 0] 2 1 (-1) (11 / 10) false (1 / 5) noCut
      = [atomAt "a" "C.3" 0 0] := by
  with_unfolding_all decide

/-- C1 (amended): the result of `internal_merge` is the converged list filtered, in order, by
the negation of "(position count < cmin and |charge| ≤ nibthreshold) or (position count <
cminchr and |charge| > nibthreshold)"; and when the threshold is not negative, a bin of one
zero-charge single-position atom with `cmin = 2` yields the empty list. -/
theorem filter_law (E : Env) (atoms : List Atom) (cmin cminchr : Nat)
    (nibthreshold cutoff : ℚ) (similar : Bool) (chargediff : ℚ) (cutmap : CutMap) :
    internal_merge E atoms cmin cminchr nibthreshold cutoff similar chargediff cutmap
      = (converged E atoms cutoff similar chargediff cutmap).filter
          (fun x => !decide ((x.posit.length < cmin ∧ |x.charge| ≤ nibthreshold) ∨
                             (x.posit.length < cminchr ∧ nibthreshold < |x.charge|)))
    ∧ (∀ a : Atom, a.posit.length = 1 → a.charge = 0 → 0 ≤ nibthreshold →
        internal_merge E [a] 2 cminchr nibthreshold cutoff similar chargediff cutmap = []) := by
  constructor
  · simp only [internal_merge, List.filter_filter]
    congr 1
    funext x
    simp only [small_neutral, small_charged]
    by_cases h1 : x.posit.length < cmin <;> by_cases h2 : |x.charge| ≤ nibthreshold <;>
      by_cases h3 : x.posit.length < cminchr <;> by_cases h4 : nibthreshold < |x.charge| <;>
      simp [h1, h2, h3, h4]
  · intro a hlen hch hnib
    simp [internal_merge, converged_single, small_neutral, hlen, hch, hnib]

theorem filter_law_witness :
    (atomAt "a" "C.3" 0 0).posit.length = 1 ∧ (atomAt "a" "C.3" 0 0).charge = 0 ∧
    (0 : ℚ) ≤ 1 / 5 ∧
    internal_merge exactEnv [atomAt "a" "C.3" 0 0] 2 1 (1 / 5) (11 / 10) false (1 / 5) noCut
      = [] :=
  ⟨rfl, rfl, by norm_num,
    (filter_law exactEnv [atomAt "a" "C.3" 0 0] 2 1 (1 / 5) (11 / 10) false (1 / 5) noCut).2
      (atomAt "a" "C.3" 0 0) rfl rfl (by norm_num)⟩

/-! ## The cutoff policy (lines 283-299) -/

/-- C2: the limit is `base` when the donor's type has no entry or an entry not smaller than
`base`, and the donor's entry otherwise, where `base` is the acceptor type's entry when there
is one (smaller or larger than the default) and the default radius when there is none; the
limit of a round is this value for the types at `pos / size` and `pos % size`. -/
theorem cutoff_policy_net_rule (cutoff : ℚ) (cutmap : CutMap) (acceptor donor : String) :
    resolve_limit cutoff cutmap acceptor donor
      = (match cutmap donor with
         | none => (cutmap acceptor).getD cutoff
         | some d => if d < (cutmap acceptor).getD cutoff then d
                     else (cutmap acceptor).getD cutoff)
    ∧ ∀ (E : Env) (atoms : List Atom) (similar : Bool) (chargediff : ℚ),
        round_limit E atoms cutoff similar chargediff cutmap
          = resolve_limit cutoff cutmap
              (atoms.getD ((nearest E atoms similar chargediff).1 / atoms.length) default).type
              (atoms.getD ((nearest E atoms similar chargediff).1 % atoms.length) default).type := by
  refine ⟨?_, fun _ _ _ _ => rfl⟩
  unfold resolve_limit
  cases cutmap acceptor <;> cases cutmap donor <;> simp

/-! ## The threshold test (line 301) -/

/-- C3 as stated fails: in `pairBin` the nearest selection distance is 2, the limit is 2, and
the round fuses the pair instead of stopping. -/
theorem strict_threshold_fuses_on_equality :
    (nearest exactEnv pairBin false (1 / 5)).2 = 2 ∧
    round_limit exactEnv pairBin 2 false (1 / 5) noCut = 2 ∧
    merge_round exactEnv pairBin 2 false (1 / 5) noCut
      = some [⟨"1", "a", [⟨0, 0, 0⟩, ⟨1, 0, 0⟩], "C.3", 0, false⟩] := by
  with_unfolding_all decide

/-- C3 (amended): a round stops exactly when the limit is strictly less than the nearest
selection distance, and fuses the nearest entry exactly when the nearest selection distance
is less than or equal to the limit. -/
theorem threshold_not_strict (E : Env) (atoms : List Atom) (cutoff : ℚ) (similar : Bool)
    (chargediff : ℚ) (cutmap : CutMap) :
    (merge_round E atoms cutoff similar chargediff cutmap = none
      ↔ round_limit E atoms cutoff similar chargediff cutmap
          < (nearest E atoms similar chargediff).2)
    ∧ (merge_round E atoms cutoff similar chargediff cutmap
        = some (fuse atoms ((nearest E atoms similar chargediff).1 / atoms.length)
            ((nearest E atoms similar chargediff).1 % atoms.length))
      ↔ (nearest E atoms similar chargediff).2
          ≤ round_limit E atoms cutoff similar chargediff cutmap) := by
  unfold merge_round
  by_cases h : round_limit E atoms cutoff similar chargediff cutmap
      < (nearest E atoms similar chargediff).2
  · simp [h]
  · simp [h, not_lt.mp h]


/-! ## One fusion (lines 303-312) -/

theorem getD_set_self (l : List Atom) (i : Nat) (x : Atom) (h : i < l.length) :
    (l.set i x).getD i default = x := by
  simp [List.getElem?_set, h]

theorem getD_set_other (l : List Atom) (i j : Nat) (x : Atom) (h : i ≠ j) :
    (l.set i x).getD j default = l.getD j default := by
  simp [List.getElem?_set, h]

theorem absorb_getD_acceptor (atoms : List Atom) (ito ifrom : Nat) (h2 : ito < atoms.length) :
    (absorb atoms ito ifrom).getD ito default
      = { atoms.getD ito default with
          posit := (atoms.getD ito default).posit ++ (atoms.getD ifrom default).posit
          charge :=
            if |(atoms.getD ito default).charge| < |(atoms.getD ifrom default).charge|
            then (atoms.getD ifrom default).charge else (atoms.getD ito default).charge } := by
  unfold absorb
  simp only [getD_set_self atoms ito _ h2]
  by_cases hne : ito = ifrom
  · subst hne
    simp only [getD_set_self atoms ito _ h2, lt_irrefl, if_false]
  · simp only [getD_set_other atoms ito ifrom _ hne]
    by_cases hc : |(atoms.getD ito default).charge| < |(atoms.getD ifrom default).charge|
    · rw [if_pos hc, if_pos hc, getD_set_self _ _ _ (by simpa using h2)]
    · rw [if_neg hc, if_neg hc, getD_set_self atoms _ _ h2]

theorem absorb_getD_other (atoms : List Atom) (ito ifrom k : Nat) (h : ito ≠ k) :
    (absorb atoms ito ifrom).getD k default = atoms.getD k default := by
  unfold absorb
  simp only []
  split_ifs <;> simp only [getD_set_other _ ito k _ h]

theorem length_absorb (atoms : List Atom) (ito ifrom : Nat) :
    (absorb atoms ito ifrom).length = atoms.length := by
  unfold absorb
  simp only []
  split_ifs <;> simp

theorem fuse_getD_acceptor (atoms : List Atom) (ito ifrom : Nat) (h1 : ito < ifrom)
    (h2 : ito < atoms.length) :
    (fuse atoms ito ifrom).getD ito default
      = { atoms.getD ito default with
          posit := (atoms.getD ito default).posit ++ (atoms.getD ifrom default).posit
          charge :=
            if |(atoms.getD ito default).charge| < |(atoms.getD ifrom default).charge|
            then (atoms.getD ifrom default).charge else (atoms.getD ito default).charge } := by
  rw [← absorb_getD_acceptor atoms ito ifrom h2]
  unfold fuse
  simp [List.getElem?_eraseIdx, h1]

theorem length_fuse (atoms : List Atom) (ito ifrom : Nat) (h : ifrom < atoms.length) :
    (fuse atoms ito ifrom).length = atoms.length - 1 := by
  unfold fuse
  rw [List.length_eraseIdx, length_absorb, if_pos h]

/-- C6: in a fusion with acceptor index `ito` and donor index `ifrom`, the acceptor's new
charge is the donor's charge if that is strictly larger in magnitude and the acceptor's previous
charge otherwise; its magnitude is the maximum of the two magnitudes; on a tie the acceptor's
charge is kept; and for `ito < ifrom` this is the charge of the record at `ito` after the donor
has been erased. -/
theorem charge_law (atoms : List Atom) (ito ifrom : Nat) (h2 : ito < atoms.length) :
    ((absorb atoms ito ifrom).getD ito default).charge
      = (if |(atoms.getD ifrom default).charge| > |(atoms.getD ito default).charge|
         then (atoms.getD ifrom default).charge else (atoms.getD ito default).charge)
    ∧ |((absorb atoms ito ifrom).getD ito default).charge|
      = max |(atoms.getD ito default).charge| |(atoms.getD ifrom default).charge|
    ∧ (|(atoms.getD ito default).charge| = |(atoms.getD ifrom default).charge| →
        ((absorb atoms ito ifrom).getD ito default).charge = (atoms.getD ito default).charge)
    ∧ (ito < ifrom →
        (fuse atoms ito ifrom).getD ito default = (absorb atoms ito ifrom).getD ito default) := by
  refine ⟨?_, ?_, ?_, ?_⟩
  · rw [absorb_getD_acceptor atoms ito ifrom h2]
  · rw [absorb_getD_acceptor atoms ito ifrom h2]
    show |ite _ _ _| = _
    split_ifs with hc
    · exact (max_eq_right (le_of_lt hc)).symm
    · exact (max_eq_left (not_lt.mp hc)).symm
  · intro heq
    rw [absorb_getD_acceptor atoms ito ifrom h2]
    show ite _ _ _ = _
    rw [if_neg (by rw [heq]; exact lt_irrefl _)]
  · intro h1
    rw [fuse_getD_acceptor atoms ito ifrom h1 h2, absorb_getD_acceptor atoms ito ifrom h2]

theorem charge_law_witness :
    0 < [atomAt "a" "O.3" 0 (1 / 2), atomAt "b" "O.3" 1 (-1 / 2)].length ∧
    ((absorb [atomAt "a" "O.3" 0 (1 / 2), atomAt "b" "O.3" 1 (-1 / 2)] 0 1).getD 0
      default).charge = 1 / 2 ∧
    (fuse [atomAt "a" "O.3" 0 (1 / 2), atomAt "b" "O.3" 1 (-1 / 2)] 0 1).getD 0 default
      = (absorb [atomAt "a" "O.3" 0 (1 / 2), atomAt "b" "O.3" 1 (-1 / 2)] 0 1).getD 0 default :=
  ⟨by decide,
    (charge_law [atomAt "a" "O.3" 0 (1 / 2), atomAt "b" "O.3" 1 (-1 / 2)] 0 1
      (by decide)).2.2.1 (by with_unfolding_all decide),
    (charge_law [atomAt "a" "O.3" 0 (1 / 2), atomAt "b" "O.3" 1 (-1 / 2)] 0 1
      (by decide)).2.2.2 (by decide)⟩


/-! ## The centroid (`Atom::pos`) -/

theorem foldl_add (ps : List Point) (q : Point) :
    ps.foldl Point.add q
      = ⟨q.x + (ps.map Point.x).sum, q.y + (ps.map Point.y).sum, q.z + (ps.map Point.z).sum⟩ := by
  induction ps generalizing q with
  | nil => simp
  | cons p ps ih =>
    simp only [List.foldl_cons, ih, List.map_cons, List.sum_cons, Point.add, add_assoc]

theorem pos_eq_mean (a : Atom) (h : a.posit ≠ []) :
    a.pos = ⟨(a.posit.map Point.x).sum / a.posit.length,
             (a.posit.map Point.y).sum / a.posit.length,
             (a.posit.map Point.z).sum / a.posit.length⟩ := by
  have hl : a.posit.length ≠ 0 := by simpa using h
  simp [Atom.pos, foldl_add, Point.zero, Point.div, hl]

/-- C7: for a record with a non-empty position list, `Atom::pos` is the component-wise sum of
the positions divided by their number; it is the same for every permutation of the list; and
after the acceptor at `ito`, with `n` positions and centroid `a`, has absorbed the donor at
`ifrom`, with `m` positions and centroid `d`, its centroid is `(n * a + m * d) / (n + m)`. -/
theorem centroid_law (a : Atom) (h : a.posit ≠ []) :
    a.pos = ⟨(a.posit.map Point.x).sum / a.posit.length,
             (a.posit.map Point.y).sum / a.posit.length,
             (a.posit.map Point.z).sum / a.posit.length⟩
    ∧ (∀ b : Atom, b.posit.Perm a.posit → b.pos = a.pos)
    ∧ (∀ (atoms : List Atom) (ito ifrom : Nat), ito < ifrom → ito < atoms.length →
        atoms.getD ito default = a →
        ((fuse atoms ito ifrom).getD ito default).pos
          = ⟨((a.posit.length : ℚ) * a.pos.x
                + ((atoms.getD ifrom default).posit.length : ℚ) * (atoms.getD ifrom default).pos.x)
              / ((a.posit.length : ℚ) + ((atoms.getD ifrom default).posit.length : ℚ)),
             ((a.posit.length : ℚ) * a.pos.y
                + ((atoms.getD ifrom default).posit.length : ℚ) * (atoms.getD ifrom default).pos.y)
              / ((a.posit.length : ℚ) + ((atoms.getD ifrom default).posit.length : ℚ)),
             ((a.posit.length : ℚ) * a.pos.z
                + ((atoms.getD ifrom default).posit.length : ℚ) * (atoms.getD ifrom default).pos.z)
              / ((a.posit.length : ℚ) + ((atoms.getD ifrom default).posit.length : ℚ))⟩) := by
  have hl : a.posit.length ≠ 0 := by simpa using h
  have hq : (a.posit.length : ℚ) ≠ 0 := by exact_mod_cast hl
  refine ⟨pos_eq_mean a h, ?_, ?_⟩
  · intro b hp
    have hb : b.posit ≠ [] := fun hb => h (by simpa [hb] using hp.symm)
    rw [pos_eq_mean a h, pos_eq_mean b hb, (hp.map Point.x).sum_eq, (hp.map Point.y).sum_eq,
      (hp.map Point.z).sum_eq, hp.length_eq]
  · intro atoms ito ifrom h1 h2 ha
    rw [fuse_getD_acceptor atoms ito ifrom h1 h2, ha]
    generalize atoms.getD ifrom default = d
    rw [pos_eq_mean _ (by simp [h]), pos_eq_mean a h]
    simp only [List.map_append, List.sum_append, List.length_append, Nat.cast_add]
    by_cases hd : d.posit = []
    · simp [Atom.pos, hd, Point.zero, mul_div_cancel₀ _ hq]
    · have hm : (d.posit.length : ℚ) ≠ 0 := by
        have : d.posit.length ≠ 0 := by simpa using hd
        exact_mod_cast this
      rw [pos_eq_mean d hd]
      simp only [mul_div_cancel₀ _ hq, mul_div_cancel₀ _ hm]

theorem centroid_law_witness :
    (atomAt "a" "C.3" 0 0).posit ≠ [] ∧
    (atomAt "a" "C.3" 0 0).pos = ⟨0, 0, 0⟩ ∧
    ((fuse pairBin 0 1).getD 0 default).pos = ⟨1 / 2, 0, 0⟩ :=
  ⟨by decide,
    by simpa [atomAt] using (centroid_law (atomAt "a" "C.3" 0 0) (by decide)).1,
    by
      have h := (centroid_law (atomAt "a" "C.3" 0 0) (by decide)).2.2 pairBin 0 1
        (by decide) (by decide) rfl
      rw [h]
      with_unfolding_all decide⟩


/-! ## The distances -/

/-- C8: `distance` is twice the Euclidean distance of the centroids when both records hold
exactly one position, and that Euclidean distance itself when one of them holds two or more;
two single-position records whose centroids are 0.5 apart have distance 1; and a record with
a position that has absorbed a record with a position is not doubled any more. -/
theorem monatomic_doubling (E : Env) (a b : Atom) :
    (a.posit.length = 1 ∧ b.posit.length = 1 →
      distance E a b = 2 * E.sqrt (dot (a.pos.sub b.pos) (a.pos.sub b.pos)))
    ∧ (2 ≤ a.posit.length ∨ 2 ≤ b.posit.length →
      distance E a b = E.sqrt (dot (a.pos.sub b.pos) (a.pos.sub b.pos)))
    ∧ (a.posit.length = 1 ∧ b.posit.length = 1 →
      E.sqrt (dot (a.pos.sub b.pos) (a.pos.sub b.pos)) = 1 / 2 → distance E a b = 1)
    ∧ (∀ (atoms : List Atom) (ito ifrom : Nat), ito < ifrom → ito < atoms.length →
        atoms.getD ito default = a → a.posit ≠ [] → (atoms.getD ifrom default).posit ≠ [] →
        distance E ((fuse atoms ito ifrom).getD ito default) b
          = E.sqrt (dot (((fuse atoms ito ifrom).getD ito default).pos.sub b.pos)
              (((fuse atoms ito ifrom).getD ito default).pos.sub b.pos))) := by
  have two : ∀ x : Atom, 2 ≤ x.posit.length → x.mono = false := by
    intro x hx
    simp only [Atom.mono, beq_eq_false_iff_ne, ne_eq]
    omega
  refine ⟨?_, ?_, ?_, ?_⟩
  · rintro ⟨ha, hb⟩
    simp [distance, Atom.mono, ha, hb, mul_comm]
  · intro h
    rcases h with h | h
    · simp [distance, two a h]
    · simp [distance, two b h]
  · rintro ⟨ha, hb⟩ hs
    simp only [distance, Atom.mono, ha, hb, hs]
    norm_num
  · intro atoms ito ifrom h1 h2 ha hne hd
    have hlen : 2 ≤ ((fuse atoms ito ifrom).getD ito default).posit.length := by
      rw [fuse_getD_acceptor atoms ito ifrom h1 h2, ha]
      have e1 : 0 < a.posit.length := List.length_pos.mpr hne
      have e2 : 0 < (atoms.getD ifrom default).posit.length := List.length_pos.mpr hd
      simp only [List.length_append]
      omega
    unfold distance
    simp only [two _ hlen, Bool.false_and, Bool.false_eq_true, if_false]

theorem monatomic_doubling_witness :
    distance exactEnv (atomAt "a" "C.3" 0 0) (atomAt "b" "C.3" (1 / 2) 0) = 1 :=
  (monatomic_doubling exactEnv (atomAt "a" "C.3" 0 0) (atomAt "b" "C.3" (1 / 2) 0)).2.2.1
    ⟨rfl, rfl⟩ (by with_unfolding_all decide)

/-- C10 as stated fails: for two single-position records of type C.ar whose centroids are 1.5
apart, `sqrdist` is 12 (doubled to 3, then multiplied by 4), not 6. -/
theorem aromatic_divergence_monatomic :
    (atomAt "a" "C.ar" 0 0).type = "C.ar" ∧ (atomAt "b" "C.ar" (3 / 2) 0).type = "C.ar" ∧
    exactEnv.sqrt (dot ((atomAt "a" "C.ar" 0 0).pos.sub (atomAt "b" "C.ar" (3 / 2) 0).pos)
      ((atomAt "a" "C.ar" 0 0).pos.sub (atomAt "b" "C.ar" (3 / 2) 0).pos)) = 3 / 2 ∧
    sqrdist exactEnv (atomAt "a" "C.ar" 0 0) (atomAt "b" "C.ar" (3 / 2) 0) = 12 ∧
    sqrdist exactEnv (atomAt "a" "C.ar" 0 0) (atomAt "b" "C.ar" (3 / 2) 0) ≠ 6 := by
  with_unfolding_all decide

/-- C10 (amended): for two records of type C.ar whose centroids are 1.5 apart, `sdist` is 2.25
and `sqrdist` is 6 unless both records hold exactly one position, in which case it is 12. -/
theorem aromatic_divergence (E : Env) (a b : Atom) (ha : a.type = "C.ar")
    (_hb : b.type = "C.ar")
    (hd : dot (a.pos.sub b.pos) (a.pos.sub b.pos) = 9 / 4) (hs : E.sqrt (9 / 4) = 3 / 2) :
    sdist a b = 9 / 4
    ∧ sqrdist E a b = (if a.posit.length = 1 ∧ b.posit.length = 1 then 12 else 6) := by
  refine ⟨hd, ?_⟩
  by_cases hm : a.posit.length = 1 ∧ b.posit.length = 1
  · simp only [sqrdist, hd, hs, ha, Atom.mono, hm.1, hm.2, if_pos hm]
    norm_num
  · have hm2 : ((1 == a.posit.length) && (1 == b.posit.length)) = false := by
      rw [Bool.and_eq_false_iff]
      rcases not_and_or.mp hm with h | h
      · left; simp only [beq_eq_false_iff_ne, ne_eq]; exact fun e => h e.symm
      · right; simp only [beq_eq_false_iff_ne, ne_eq]; exact fun e => h e.symm
    simp only [sqrdist, hd, hs, ha, Atom.mono, hm2, if_neg hm]
    norm_num

theorem aromatic_divergence_witness :
    grownRing.type = "C.ar" ∧ (atomAt "b" "C.ar" (3 / 2) 0).type = "C.ar" ∧
    dot (grownRing.pos.sub (atomAt "b" "C.ar" (3 / 2) 0).pos)
      (grownRing.pos.sub (atomAt "b" "C.ar" (3 / 2) 0).pos) = 9 / 4 ∧
    exactEnv.sqrt (9 / 4) = 3 / 2 ∧
    sdist grownRing (atomAt "b" "C.ar" (3 / 2) 0) = 9 / 4 ∧
    sqrdist exactEnv grownRing (atomAt "b" "C.ar" (3 / 2) 0) = 6 :=
  ⟨rfl, rfl, by with_unfolding_all decide, by with_unfolding_all decide,
    aromatic_divergence exactEnv grownRing (atomAt "b" "C.ar" (3 / 2) 0) rfl rfl
      (by with_unfolding_all decide) (by with_unfolding_all decide)⟩


/-! ## `std::min_element` -/

theorem min_element_from_spec (xs : List ℚ) :
    ∀ (s : Nat) (b : ℚ) (i : Nat),
      (min_element_from s b i xs = (s, b) ∧ ∀ (k : Nat) (x : ℚ), xs[k]? = some x → b ≤ x)
      ∨ (∃ k : Nat, xs[k]? = some (min_element_from s b i xs).2
          ∧ (min_element_from s b i xs).1 = i + k
          ∧ (min_element_from s b i xs).2 < b
          ∧ (∀ (j : Nat) (x : ℚ), xs[j]? = some x → j < k → (min_element_from s b i xs).2 < x)
          ∧ (∀ (j : Nat) (x : ℚ), xs[j]? = some x → (min_element_from s b i xs).2 ≤ x)) := by
  induction xs with
  | nil => intro s b i; left; simp [min_element_from]
  | cons x xs ih =>
    intro s b i
    by_cases hx : x < b
    · have hr : min_element_from s b i (x :: xs) = min_element_from i x (i + 1) xs := by
        simp [min_element_from, hx]
      rw [hr]
      right
      rcases ih i x (i + 1) with ⟨he, hall⟩ | ⟨k, hk, hpos, hlt, hfirst, hall⟩
      · refine ⟨0, by simp [he], by simp [he], by simpa [he] using hx, ?_, ?_⟩
        · intro j y _ hj; omega
        · intro j y hy
          rw [he]
          cases j with
          | zero => simp at hy; simp [hy]
          | succ j => exact hall j y (by simpa using hy)
      · refine ⟨k + 1, by simpa using hk, by omega, lt_trans hlt hx, ?_, ?_⟩
        · intro j y hy hj
          cases j with
          | zero => simp at hy; rw [← hy]; exact hlt
          | succ j => exact hfirst j y (by simpa using hy) (by omega)
        · intro j y hy
          cases j with
          | zero => simp at hy; rw [← hy]; exact le_of_lt hlt
          | succ j => exact hall j y (by simpa using hy)
    · have hr : min_element_from s b i (x :: xs) = min_element_from s b (i + 1) xs := by
        simp [min_element_from, hx]
      rw [hr]
      rcases ih s b (i + 1) with ⟨he, hall⟩ | ⟨k, hk, hpos, hlt, hfirst, hall⟩
      · left
        refine ⟨he, ?_⟩
        intro j y hy
        cases j with
        | zero => simp at hy; rw [← hy]; exact not_lt.mp hx
        | succ j => exact hall j y (by simpa using hy)
      · right
        refine ⟨k + 1, by simpa using hk, by omega, hlt, ?_, ?_⟩
        · intro j y hy hj
          cases j with
          | zero => simp at hy; rw [← hy]; exact lt_of_lt_of_le hlt (not_lt.mp hx)
          | succ j => exact hfirst j y (by simpa using hy) (by omega)
        · intro j y hy
          cases j with
          | zero => simp at hy; rw [← hy]; exact le_of_lt (lt_of_lt_of_le hlt (not_lt.mp hx))
          | succ j => exact hall j y (by simpa using hy)

/-- Specification of `std::min_element` on a non-empty range: the position is in the range, the value is the
element there, no element is smaller, and every element before the position is strictly larger
(the first of the smallest elements is returned). -/
theorem min_element_spec (l : List ℚ) (h : l ≠ []) :
    l[(min_element l).1]? = some (min_element l).2
    ∧ (∀ (j : Nat) (x : ℚ), l[j]? = some x → (min_element l).2 ≤ x)
    ∧ (∀ (j : Nat) (x : ℚ), l[j]? = some x → j < (min_element l).1 → (min_element l).2 < x) := by
  cases l with
  | nil => exact absurd rfl h
  | cons x xs =>
    have hr : min_element (x :: xs) = min_element_from 0 x 1 xs := rfl
    rw [hr]
    rcases min_element_from_spec xs 0 x 1 with ⟨he, hall⟩ | ⟨k, hk, hpos, hlt, hfirst, hall⟩
    · rw [he]
      refine ⟨by simp, ?_, ?_⟩
      · intro j y hy
        cases j with
        | zero => simp at hy; simp [hy]
        | succ j => exact hall j y (by simpa using hy)
      · intro j y _ hj
        simp at hj
    · refine ⟨?_, ?_, ?_⟩
      · rw [hpos, Nat.add_comm]; simpa using hk
      · intro j y hy
        cases j with
        | zero => simp at hy; rw [← hy]; exact le_of_lt hlt
        | succ j => exact hall j y (by simpa using hy)
      · intro j y hy hj
        cases j with
        | zero => simp at hy; rw [← hy]; exact hlt
        | succ j => exact hfirst j y (by simpa using hy) (by omega)

theorem min_element_lt_length (l : List ℚ) (h : l ≠ []) : (min_element l).1 < l.length := by
  have := (min_element_spec l h).1
  by_contra hc
  rw [List.getElem?_eq_none (not_lt.mp hc)] at this
  exact absurd this (by simp)


/-! ## The distance matrix (lines 272-279) -/

theorem foldl_set_range' (f : Nat → Bool) (g : Nat → ℚ) (base s : Nat) (p : Nat) :
    ∀ (m : Nat) (dm : List ℚ),
      ((List.range' s m).foldl
          (fun dm col => if f col = true then dm.set (base + col) (g col) else dm) dm)[p]?
        = if base + s ≤ p ∧ p < base + s + m ∧ f (p - base) = true
          then (dm[p]?).map (fun _ => g (p - base)) else dm[p]? := by
  intro m
  induction m with
  | zero =>
    intro dm
    have : ¬ (base + s ≤ p ∧ p < base + s + 0 ∧ f (p - base) = true) := by omega
    rw [if_neg this]
    rfl
  | succ m ih =>
    intro dm
    rw [List.range'_1_concat, List.foldl_append, List.foldl_cons, List.foldl_nil]
    by_cases hf : f (s + m) = true
    · rw [if_pos hf, List.getElem?_set', ih dm]
      by_cases hp : base + (s + m) = p
      · have e : p - base = s + m := by omega
        have c1 : ¬ (base + s ≤ p ∧ p < base + s + m ∧ f (p - base) = true) := by omega
        have c2 : base + s ≤ p ∧ p < base + s + (m + 1) ∧ f (p - base) = true :=
          ⟨by omega, by omega, by rw [e]; exact hf⟩
        rw [if_pos hp, if_neg c1, if_pos c2, e]
        cases dm[p]? <;> rfl
      · rw [if_neg hp]
        by_cases c1 : base + s ≤ p ∧ p < base + s + m ∧ f (p - base) = true
        · have c2 : base + s ≤ p ∧ p < base + s + (m + 1) ∧ f (p - base) = true :=
            ⟨c1.1, by omega, c1.2.2⟩
          rw [if_pos c1, if_pos c2]
        · have c2 : ¬ (base + s ≤ p ∧ p < base + s + (m + 1) ∧ f (p - base) = true) := by
            rintro ⟨h1, h2, h3⟩
            exact c1 ⟨h1, by omega, h3⟩
          rw [if_neg c1, if_neg c2]
    · rw [if_neg hf, ih dm]
      by_cases c1 : base + s ≤ p ∧ p < base + s + m ∧ f (p - base) = true
      · have c2 : base + s ≤ p ∧ p < base + s + (m + 1) ∧ f (p - base) = true :=
          ⟨c1.1, by omega, c1.2.2⟩
        rw [if_pos c1, if_pos c2]
      · have c2 : ¬ (base + s ≤ p ∧ p < base + s + (m + 1) ∧ f (p - base) = true) := by
          rintro ⟨h1, h2, h3⟩
          by_cases hp : p = base + (s + m)
          · have e : p - base = s + m := by omega
            rw [e] at h3
            exact hf h3
          · exact c1 ⟨h1, by omega, h3⟩
        rw [if_neg c1, if_neg c2]

theorem div_mod_of_eq (n row col p : Nat) (hcol : col < n) (hp : row * n + col = p) :
    p / n = row ∧ p % n = col := by
  subst hp
  have hn : 0 < n := by omega
  constructor
  · rw [Nat.add_comm, Nat.add_mul_div_right _ _ hn, Nat.div_eq_of_lt hcol, Nat.zero_add]
  · rw [Nat.add_comm, Nat.add_mul_mod_self_right, Nat.mod_eq_of_lt hcol]

theorem fill_row_getElem? (E : Env) (atoms : List Atom) (similar : Bool) (chargediff : ℚ)
    (row : Nat) (hrow : row + 1 ≤ atoms.length) (dm : List ℚ) (p : Nat) :
    (fill_row E atoms similar chargediff row dm)[p]?
      = if p / atoms.length = row ∧ row < p % atoms.length ∧
            sametype E (atoms.getD row default) (atoms.getD (p % atoms.length) default)
              similar chargediff = true
        then (dm[p]?).map
          (fun _ => distance E (atoms.getD row default) (atoms.getD (p % atoms.length) default))
        else dm[p]? := by
  have hn : 0 < atoms.length := by omega
  unfold fill_row
  rw [foldl_set_range'
    (fun col => sametype E (atoms.getD row default) (atoms.getD col default) similar chargediff)
    (fun col => distance E (atoms.getD row default) (atoms.getD col default))
    (row * atoms.length) (row + 1) p]
  by_cases hc : row * atoms.length + (row + 1) ≤ p ∧
      p < row * atoms.length + (row + 1) + (atoms.length - (row + 1))
  · have hcol : p - row * atoms.length < atoms.length := by omega
    obtain ⟨hd, hm⟩ := div_mod_of_eq atoms.length row (p - row * atoms.length) p hcol (by omega)
    have hlt : row < p % atoms.length := by omega
    have hlt2 : row < p - row * atoms.length := by omega
    simp only [hc.1, hc.2, hd, hm, hlt2, true_and]
  · have hc2 : ¬ (p / atoms.length = row ∧ row < p % atoms.length) := by
      rintro ⟨hd, hlt⟩
      apply hc
      have e := Nat.div_add_mod' p atoms.length
      rw [hd] at e
      have := Nat.mod_lt p hn
      omega
    have g1 : ¬ (row * atoms.length + (row + 1) ≤ p ∧
        p < row * atoms.length + (row + 1) + (atoms.length - (row + 1)) ∧
        sametype E (atoms.getD row default) (atoms.getD (p - row * atoms.length) default)
          similar chargediff = true) := fun h => hc ⟨h.1, h.2.1⟩
    have g2 : ¬ (p / atoms.length = row ∧ row < p % atoms.length ∧
        sametype E (atoms.getD row default) (atoms.getD (p % atoms.length) default)
          similar chargediff = true) := fun h => hc2 ⟨h.1, h.2.1⟩
    rw [if_neg g1, if_neg g2]

theorem rows_getElem? (E : Env) (atoms : List Atom) (similar : Bool) (chargediff : ℚ)
    (init : List ℚ) (p : Nat) :
    ∀ k : Nat, k + 1 ≤ atoms.length →
      ((List.range k).foldl (fun dm row => fill_row E atoms similar chargediff row dm) init)[p]?
        = if p / atoms.length < k ∧ p / atoms.length < p % atoms.length ∧
              sametype E (atoms.getD (p / atoms.length) default)
                (atoms.getD (p % atoms.length) default) similar chargediff = true
          then (init[p]?).map
            (fun _ => distance E (atoms.getD (p / atoms.length) default)
              (atoms.getD (p % atoms.length) default))
          else init[p]? := by
  intro k
  induction k with
  | zero => intro _; simp
  | succ k ih =>
    intro hk
    rw [List.range_succ, List.foldl_append, List.foldl_cons, List.foldl_nil,
      fill_row_getElem? E atoms similar chargediff k (by omega), ih (by omega)]
    by_cases hd : p / atoms.length = k
    · have c1 : ¬ (p / atoms.length < k ∧ p / atoms.length < p % atoms.length ∧
          sametype E (atoms.getD (p / atoms.length) default)
            (atoms.getD (p % atoms.length) default) similar chargediff = true) := by omega
      rw [if_neg c1]
      subst hd
      by_cases c2 : p / atoms.length < p % atoms.length ∧
          sametype E (atoms.getD (p / atoms.length) default)
            (atoms.getD (p % atoms.length) default) similar chargediff = true
      · rw [if_pos ⟨rfl, c2⟩, if_pos ⟨Nat.lt_succ_self _, c2⟩]
      · rw [if_neg (fun h => c2 h.2), if_neg (fun h => c2 h.2)]
    · have c1 : ¬ (p / atoms.length = k ∧ k < p % atoms.length ∧
          sametype E (atoms.getD k default)
            (atoms.getD (p % atoms.length) default) similar chargediff = true) :=
        fun h => hd h.1
      rw [if_neg c1]
      by_cases c2 : p / atoms.length < k ∧ p / atoms.length < p % atoms.length ∧
          sametype E (atoms.getD (p / atoms.length) default)
            (atoms.getD (p % atoms.length) default) similar chargediff = true
      · rw [if_pos c2, if_pos ⟨by omega, c2.2⟩]
      · rw [if_neg c2, if_neg (fun h => c2 ⟨by omega, h.2⟩)]

/-- The matrix of a round, entry by entry: position `p` holds `distance` of the records at
`p / size` and `p % size` when `p / size < p % size` and they pass `sametype`, and the sentinel
otherwise. -/
theorem distmat_getElem? (E : Env) (atoms : List Atom) (similar : Bool) (chargediff : ℚ)
    (p : Nat) :
    (distmat E atoms similar chargediff)[p]?
      = if p < atoms.length * atoms.length then some (entry E atoms similar chargediff p)
        else none := by
  unfold distmat
  cases hn : atoms.length with
  | zero => simp
  | succ n =>
    rw [← hn]
    rw [rows_getElem? E atoms similar chargediff _ p (atoms.length - 1) (by omega),
      List.getElem?_replicate]
    by_cases hp : p < atoms.length * atoms.length
    · have hdiv : p / atoms.length < atoms.length := Nat.div_lt_of_lt_mul hp
      have hmod : p % atoms.length < atoms.length := Nat.mod_lt p (by omega)
      rw [if_pos hp, if_pos hp]
      unfold entry
      by_cases c : p / atoms.length < p % atoms.length ∧
          sametype E (atoms.getD (p / atoms.length) default)
            (atoms.getD (p % atoms.length) default) similar chargediff = true
      · rw [if_pos c, if_pos ⟨by omega, c⟩]; rfl
      · rw [if_neg c, if_neg (fun h => c h.2)]
    · rw [if_neg hp, if_neg hp]
      split_ifs <;> rfl

theorem length_distmat (E : Env) (atoms : List Atom) (similar : Bool) (chargediff : ℚ) :
    (distmat E atoms similar chargediff).length = atoms.length * atoms.length := by
  have h1 := distmat_getElem? E atoms similar chargediff (atoms.length * atoms.length)
  have h2 : ∀ p, p < atoms.length * atoms.length →
      p < (distmat E atoms similar chargediff).length := by
    intro p hp
    have h := distmat_getElem? E atoms similar chargediff p
    rw [if_pos hp] at h
    by_contra hc
    rw [List.getElem?_eq_none (not_lt.mp hc)] at h
    exact absurd h (by simp)
  rw [if_neg (lt_irrefl _)] at h1
  have h3 := List.getElem?_eq_none_iff.mp h1
  rcases Nat.eq_zero_or_pos (atoms.length * atoms.length) with h0 | hpos
  · rw [h0] at h3 ⊢
    omega
  · have := h2 (atoms.length * atoms.length - 1) (by omega)
    omega


/-! ## The nearest entry (lines 280-282) -/

theorem distmat_ne_nil (E : Env) (atoms : List Atom) (similar : Bool) (chargediff : ℚ)
    (h : 0 < atoms.length) : distmat E atoms similar chargediff ≠ [] := by
  intro hc
  have := length_distmat E atoms similar chargediff
  rw [hc] at this
  have : 0 < atoms.length * atoms.length := Nat.mul_pos h h
  simp_all

theorem nearest_pos_lt (E : Env) (atoms : List Atom) (similar : Bool) (chargediff : ℚ)
    (h : 0 < atoms.length) :
    (nearest E atoms similar chargediff).1 < atoms.length * atoms.length := by
  have := min_element_lt_length _ (distmat_ne_nil E atoms similar chargediff h)
  rwa [length_distmat] at this

theorem nearest_eq_entry (E : Env) (atoms : List Atom) (similar : Bool) (chargediff : ℚ)
    (h : 0 < atoms.length) :
    (nearest E atoms similar chargediff).2
      = entry E atoms similar chargediff (nearest E atoms similar chargediff).1 := by
  have h1 := (min_element_spec _ (distmat_ne_nil E atoms similar chargediff h)).1
  have hlt := nearest_pos_lt E atoms similar chargediff h
  unfold nearest at hlt ⊢
  rw [distmat_getElem?, if_pos hlt] at h1
  exact (Option.some.inj h1).symm

theorem nearest_le_entry (E : Env) (atoms : List Atom) (similar : Bool) (chargediff : ℚ)
    (p : Nat) (hp : p < atoms.length * atoms.length) :
    (nearest E atoms similar chargediff).2 ≤ entry E atoms similar chargediff p := by
  have hn : 0 < atoms.length := by
    rcases Nat.eq_zero_or_pos atoms.length with h0 | h0
    · rw [h0] at hp; omega
    · exact h0
  have h1 := (min_element_spec _ (distmat_ne_nil E atoms similar chargediff hn)).2.1 p
    (entry E atoms similar chargediff p)
  exact h1 (by rw [distmat_getElem?, if_pos hp])

theorem nearest_lt_entry (E : Env) (atoms : List Atom) (similar : Bool) (chargediff : ℚ)
    (p : Nat) (hp : p < (nearest E atoms similar chargediff).1) (hn : 0 < atoms.length) :
    (nearest E atoms similar chargediff).2 < entry E atoms similar chargediff p := by
  have hlt := nearest_pos_lt E atoms similar chargediff hn
  have h1 := (min_element_spec _ (distmat_ne_nil E atoms similar chargediff hn)).2.2 p
    (entry E atoms similar chargediff p)
  exact h1 (by rw [distmat_getElem?, if_pos (by omega)]) hp

theorem entry_pair (E : Env) (atoms : List Atom) (similar : Bool) (chargediff : ℚ)
    (row col : Nat) (h1 : row < col) (h2 : col < atoms.length) :
    entry E atoms similar chargediff (row * atoms.length + col)
      = if sametype E (atoms.getD row default) (atoms.getD col default) similar chargediff = true
        then distance E (atoms.getD row default) (atoms.getD col default) else sentinel := by
  obtain ⟨hd, hm⟩ := div_mod_of_eq atoms.length row col _ h2 rfl
  unfold entry
  rw [hd, hm]
  simp only [h1, true_and]

theorem pair_lt_sq (n row col : Nat) (h1 : row < col) (h2 : col < n) : row * n + col < n * n := by
  have : row * n + n ≤ n * n := by
    have : (row + 1) * n ≤ n * n := Nat.mul_le_mul_right n (by omega)
    rwa [Nat.add_mul, Nat.one_mul] at this
  omega

theorem nearest_le_sentinel (E : Env) (atoms : List Atom) (similar : Bool) (chargediff : ℚ)
    (h : 0 < atoms.length) : (nearest E atoms similar chargediff).2 ≤ sentinel := by
  have h1 := nearest_le_entry E atoms similar chargediff 0 (Nat.mul_pos h h)
  have h2 : entry E atoms similar chargediff 0 = sentinel := by
    unfold entry
    simp
  rwa [h2] at h1

theorem nearest_le_distance (E : Env) (atoms : List Atom) (similar : Bool) (chargediff : ℚ)
    (row col : Nat) (h1 : row < col) (h2 : col < atoms.length)
    (hs : sametype E (atoms.getD row default) (atoms.getD col default) similar chargediff = true) :
    (nearest E atoms similar chargediff).2
      ≤ distance E (atoms.getD row default) (atoms.getD col default) := by
  have h := nearest_le_entry E atoms similar chargediff (row * atoms.length + col)
    (pair_lt_sq _ _ _ h1 h2)
  rwa [entry_pair E atoms similar chargediff row col h1 h2, if_pos hs] at h

/-! ## The loop (lines 271-313) -/

theorem merge_round_length (E : Env) (atoms atoms' : List Atom) (cutoff : ℚ) (similar : Bool)
    (chargediff : ℚ) (cutmap : CutMap) (hn : 0 < atoms.length)
    (h : merge_round E atoms cutoff similar chargediff cutmap = some atoms') :
    atoms'.length = atoms.length - 1 := by
  unfold merge_round at h
  simp only [] at h
  split_ifs at h
  rw [← Option.some.inj h]
  exact length_fuse _ _ _ (Nat.mod_lt _ hn)

theorem merge_loop_stable (E : Env) (cutoff : ℚ) (similar : Bool) (chargediff : ℚ)
    (cutmap : CutMap) :
    ∀ (fuel : Nat) (atoms : List Atom), atoms.length ≤ fuel + 1 →
      stable E (merge_loop E cutoff similar chargediff cutmap fuel atoms) cutoff similar
        chargediff cutmap := by
  intro fuel
  induction fuel with
  | zero => intro atoms h; left; simpa [merge_loop] using h
  | succ fuel ih =>
    intro atoms h
    unfold merge_loop
    by_cases h1 : 1 < atoms.length
    · rw [if_pos h1]
      cases hr : merge_round E atoms cutoff similar chargediff cutmap with
      | none => right; exact hr
      | some atoms' =>
        have := merge_round_length E atoms atoms' cutoff similar chargediff cutmap (by omega) hr
        exact ih atoms' (by omega)
    · rw [if_neg h1]; left; omega

theorem merge_loop_of_stable (E : Env) (cutoff : ℚ) (similar : Bool) (chargediff : ℚ)
    (cutmap : CutMap) (atoms : List Atom)
    (h : stable E atoms cutoff similar chargediff cutmap) (fuel : Nat) :
    merge_loop E cutoff similar chargediff cutmap fuel atoms = atoms
    ∧ merge_count E cutoff similar chargediff cutmap fuel atoms = 0 := by
  cases fuel with
  | zero => exact ⟨rfl, rfl⟩
  | succ fuel =>
    unfold merge_loop merge_count
    rcases h with h | h
    · rw [if_neg (by omega), if_neg (by omega)]; exact ⟨rfl, rfl⟩
    · rw [h]; constructor <;> split_ifs <;> rfl

/-- Fuel: every number of passes from `atoms.length - 1` on gives the same bin, so the value
`converged` is the bin at the end of the `while` loop. -/
theorem merge_loop_fuel (E : Env) (cutoff : ℚ) (similar : Bool) (chargediff : ℚ)
    (cutmap : CutMap) :
    ∀ (fuel : Nat) (atoms : List Atom), atoms.length ≤ fuel + 1 →
      merge_loop E cutoff similar chargediff cutmap fuel atoms
        = converged E atoms cutoff similar chargediff cutmap := by
  have key : ∀ (f1 f2 : Nat) (atoms : List Atom), atoms.length ≤ f1 + 1 →
      atoms.length ≤ f2 + 1 →
      merge_loop E cutoff similar chargediff cutmap f1 atoms
        = merge_loop E cutoff similar chargediff cutmap f2 atoms := by
    intro f1
    induction f1 with
    | zero =>
      intro f2 atoms h1 _
      have hs : stable E atoms cutoff similar chargediff cutmap := Or.inl (by omega)
      rw [(merge_loop_of_stable E cutoff similar chargediff cutmap atoms hs 0).1,
        (merge_loop_of_stable E cutoff similar chargediff cutmap atoms hs f2).1]
    | succ f1 ih =>
      intro f2 atoms h1 h2
      cases f2 with
      | zero =>
        have hs : stable E atoms cutoff similar chargediff cutmap := Or.inl (by omega)
        rw [(merge_loop_of_stable E cutoff similar chargediff cutmap atoms hs 0).1,
          (merge_loop_of_stable E cutoff similar chargediff cutmap atoms hs (f1 + 1)).1]
      | succ f2 =>
        unfold merge_loop
        by_cases hl : 1 < atoms.length
        · rw [if_pos hl, if_pos hl]
          cases hr : merge_round E atoms cutoff similar chargediff cutmap with
          | none => rfl
          | some atoms' =>
            have := merge_round_length E atoms atoms' cutoff similar chargediff cutmap
              (by omega) hr
            exact ih f2 atoms' (by omega) (by omega)
        · rw [if_neg hl, if_neg hl]
  intro fuel atoms h
  exact key fuel atoms.length atoms h (by omega)

theorem converged_stable (E : Env) (atoms : List Atom) (cutoff : ℚ) (similar : Bool)
    (chargediff : ℚ) (cutmap : CutMap) :
    stable E (converged E atoms cutoff similar chargediff cutmap) cutoff similar chargediff
      cutmap :=
  merge_loop_stable E cutoff similar chargediff cutmap atoms.length atoms (by omega)


/-! ## Convergence -/

theorem pairwise_nearest (E : Env) (atoms : List Atom) (similar : Bool) (chargediff : ℚ) :
    atoms.Pairwise (fun a b => sametype E a b similar chargediff = true →
      (nearest E atoms similar chargediff).2 ≤ distance E a b) := by
  rw [List.pairwise_iff_getElem]
  intro i j hi hj hij hs
  have h := nearest_le_distance E atoms similar chargediff i j hij hj
  rw [List.getD_eq_getElem atoms default hi, List.getD_eq_getElem atoms default hj] at h
  exact h hs

theorem round_limit_lt_of_break (E : Env) (atoms : List Atom) (cutoff : ℚ) (similar : Bool)
    (chargediff : ℚ) (cutmap : CutMap)
    (h : merge_round E atoms cutoff similar chargediff cutmap = none) :
    round_limit E atoms cutoff similar chargediff cutmap
      < (nearest E atoms similar chargediff).2 := by
  unfold merge_round at h
  simp only [] at h
  split_ifs at h with hlt
  exact hlt

theorem internal_merge_sublist (E : Env) (atoms : List Atom) (cmin cminchr : Nat)
    (nibthreshold cutoff : ℚ) (similar : Bool) (chargediff : ℚ) (cutmap : CutMap) :
    (internal_merge E atoms cmin cminchr nibthreshold cutoff similar chargediff cutmap).Sublist
      (converged E atoms cutoff similar chargediff cutmap) := by
  unfold internal_merge
  exact (List.filter_sublist _).trans (List.filter_sublist _)

/-- C4 as stated fails: `mixedBin` comes back unchanged, because the nearest pair (the two C.3
records, distance 2) is over its limit 1.1, and yet the two N.3 records pass `sametype` and
have distance 3, below the limit 5 that the policy resolves for them. -/
theorem cutoff_convergence_blocked_pair :
    internal_merge exactEnv mixedBin 1 1 (1 / 5) (11 / 10) false (1 / 5) wideCut = mixedBin ∧
    sametype exactEnv (mixedBin.getD 2 default) (mixedBin.getD 3 default) false (1 / 5) = true ∧
    distance exactEnv (mixedBin.getD 2 default) (mixedBin.getD 3 default) = 3 ∧
    resolve_limit (11 / 10) wideCut (mixedBin.getD 2 default).type
      (mixedBin.getD 3 default).type = 5 := by
  with_unfolding_all decide

/-- C4 (amended): in the list returned by `internal_merge`, every pair of records (i < j)
either fails `sametype` or has a distance strictly greater than the limit resolved in the last
round of the loop, the limit of the nearest entry of the converged bin; the pair's own limit is
not looked at. -/
theorem cutoff_convergence (E : Env) (atoms : List Atom) (cmin cminchr : Nat)
    (nibthreshold cutoff : ℚ) (similar : Bool) (chargediff : ℚ) (cutmap : CutMap) :
    (internal_merge E atoms cmin cminchr nibthreshold cutoff similar chargediff cutmap).Pairwise
      (fun a b => sametype E a b similar chargediff = false ∨
        round_limit E (converged E atoms cutoff similar chargediff cutmap) cutoff similar
          chargediff cutmap < distance E a b) := by
  apply List.Pairwise.sublist
    (internal_merge_sublist E atoms cmin cminchr nibthreshold cutoff similar chargediff cutmap)
  rcases converged_stable E atoms cutoff similar chargediff cutmap with h | h
  · rw [List.pairwise_iff_getElem]
    intro i j hi hj hij
    omega
  · have hlt := round_limit_lt_of_break E _ cutoff similar chargediff cutmap h
    refine (pairwise_nearest E _ similar chargediff).imp ?_
    intro a b hab
    cases hs : sametype E a b similar chargediff with
    | false => left; rfl
    | true => right; exact lt_of_lt_of_le hlt (hab hs)

/-! ## Idempotence -/

theorem resolve_limit_empty (cutoff : ℚ) (cutmap : CutMap) (h : ∀ t, cutmap t = none)
    (acceptor donor : String) : resolve_limit cutoff cutmap acceptor donor = cutoff := by
  unfold resolve_limit
  simp [h]

theorem stable_sublist_uniform (E : Env) (L R : List Atom) (cutoff : ℚ) (similar : Bool)
    (chargediff : ℚ) (cutmap : CutMap) (hcut : ∀ t, cutmap t = none) (hsub : R.Sublist L)
    (hL : stable E L cutoff similar chargediff cutmap) :
    stable E R cutoff similar chargediff cutmap := by
  by_cases hR : R.length ≤ 1
  · left; exact hR
  · right
    have hlen := hsub.length_le
    have hRn : 0 < R.length := by omega
    rcases hL with hL | hL
    · omega
    · have hlt := round_limit_lt_of_break E L cutoff similar chargediff cutmap hL
      unfold round_limit at hlt
      rw [resolve_limit_empty cutoff cutmap hcut] at hlt
      have hsent : cutoff < sentinel :=
        lt_of_lt_of_le hlt (nearest_le_sentinel E L similar chargediff (by omega))
      have hpw := (pairwise_nearest E L similar chargediff).sublist hsub
      rw [List.pairwise_iff_getElem] at hpw
      have hgoal : round_limit E R cutoff similar chargediff cutmap
          < (nearest E R similar chargediff).2 := by
        unfold round_limit
        rw [resolve_limit_empty cutoff cutmap hcut, nearest_eq_entry E R similar chargediff hRn]
        have hp := nearest_pos_lt E R similar chargediff hRn
        generalize (nearest E R similar chargediff).1 = p at hp ⊢
        unfold entry
        split_ifs with hc
        · have hj : p % R.length < R.length := Nat.mod_lt _ hRn
          have hi : p / R.length < R.length := by omega
          have hs := hc.2
          rw [List.getD_eq_getElem R default hi, List.getD_eq_getElem R default hj] at hs ⊢
          exact lt_of_lt_of_le hlt (hpw _ _ hi hj hc.1 hs)
        · exact hsent
      unfold merge_round
      simp only [hgoal, if_true]

theorem filter_fixed (E : Env) (atoms : List Atom) (cmin cminchr : Nat)
    (nibthreshold cutoff : ℚ) (similar : Bool) (chargediff : ℚ) (cutmap : CutMap)
    (hs : stable E
      (internal_merge E atoms cmin cminchr nibthreshold cutoff similar chargediff cutmap)
      cutoff similar chargediff cutmap) :
    internal_merge E
        (internal_merge E atoms cmin cminchr nibthreshold cutoff similar chargediff cutmap)
        cmin cminchr nibthreshold cutoff similar chargediff cutmap
      = internal_merge E atoms cmin cminchr nibthreshold cutoff similar chargediff cutmap := by
  generalize hR :
    internal_merge E atoms cmin cminchr nibthreshold cutoff similar chargediff cutmap = R at hs ⊢
  have hmem : ∀ x ∈ R, (!small_neutral cmin nibthreshold x) = true ∧
      (!small_charged cminchr nibthreshold x) = true := by
    intro x hx
    rw [← hR] at hx
    unfold internal_merge at hx
    simp only [List.mem_filter] at hx
    exact ⟨hx.1.2, hx.2⟩
  unfold internal_merge converged
  rw [(merge_loop_of_stable E cutoff similar chargediff cutmap R hs R.length).1]
  show List.filter _ (List.filter _ R) = R
  rw [List.filter_eq_self.mpr (fun x hx => (hmem x hx).1),
    List.filter_eq_self.mpr (fun x hx => (hmem x hx).2)]

/-- C5 as stated fails: on `chargedBin`, with the entry O.3 -> 1, default cutoff 3.5, `cmin = 1`
and `cminchr = 2`, the first run stops at the two O.3 records (distance 2 over the limit 1)
and then filters them out; the second run, on the two C.3 records left, fuses them. -/
theorem idempotence_broken_by_filter :
    internal_merge exactEnv chargedBin 1 2 (1 / 5) (7 / 2) false (1 / 5) tightCut
      = [atomAt "c" "C.3" 10 0, atomAt "d" "C.3" (23 / 2) 0] ∧
    merge_count exactEnv (7 / 2) false (1 / 5) tightCut 2
      [atomAt "c" "C.3" 10 0, atomAt "d" "C.3" (23 / 2) 0] = 1 ∧
    internal_merge exactEnv
        (internal_merge exactEnv chargedBin 1 2 (1 / 5) (7 / 2) false (1 / 5) tightCut)
        1 2 (1 / 5) (7 / 2) false (1 / 5) tightCut
      = [⟨"1", "c", [⟨10, 0, 0⟩, ⟨23 / 2, 0, 0⟩], "C.3", 0, false⟩] := by
  with_unfolding_all decide

/-- C5 (amended): when the cutoff table is empty, or when the filter of the first run removed
no record, applying `internal_merge` with the same configuration to the result of
`internal_merge` performs no fusion and returns that result unchanged. -/
theorem idempotence (E : Env) (atoms : List Atom) (cmin cminchr : Nat)
    (nibthreshold cutoff : ℚ) (similar : Bool) (chargediff : ℚ) (cutmap : CutMap)
    (h : (∀ t, cutmap t = none) ∨
      internal_merge E atoms cmin cminchr nibthreshold cutoff similar chargediff cutmap
        = converged E atoms cutoff similar chargediff cutmap) :
    merge_count E cutoff similar chargediff cutmap
        (internal_merge E atoms cmin cminchr nibthreshold cutoff similar chargediff
          cutmap).length
        (internal_merge E atoms cmin cminchr nibthreshold cutoff similar chargediff cutmap) = 0
    ∧ internal_merge E
        (internal_merge E atoms cmin cminchr nibthreshold cutoff similar chargediff cutmap)
        cmin cminchr nibthreshold cutoff similar chargediff cutmap
      = internal_merge E atoms cmin cminchr nibthreshold cutoff similar chargediff cutmap := by
  have hs : stable E
      (internal_merge E atoms cmin cminchr nibthreshold cutoff similar chargediff cutmap)
      cutoff similar chargediff cutmap := by
    rcases h with h | h
    · exact stable_sublist_uniform E _ _ cutoff similar chargediff cutmap h
        (internal_merge_sublist E atoms cmin cminchr nibthreshold cutoff similar chargediff
          cutmap)
        (converged_stable E atoms cutoff similar chargediff cutmap)
    · rw [h]; exact converged_stable E atoms cutoff similar chargediff cutmap
  exact ⟨(merge_loop_of_stable E cutoff similar chargediff cutmap _ hs _).2,
    filter_fixed E atoms cmin cminchr nibthreshold cutoff similar chargediff cutmap hs⟩

theorem idempotence_witness :
    (∀ t, noCut t = none) ∧
    merge_count exactEnv (11 / 10) false (1 / 5) noCut
        (internal_merge exactEnv mixedBin 1 1 (1 / 5) (11 / 10) false (1 / 5) noCut).length
        (internal_merge exactEnv mixedBin 1 1 (1 / 5) (11 / 10) false (1 / 5) noCut) = 0 ∧
    internal_merge exactEnv
        (internal_merge exactEnv mixedBin 1 1 (1 / 5) (11 / 10) false (1 / 5) noCut)
        1 1 (1 / 5) (11 / 10) false (1 / 5) noCut
      = internal_merge exactEnv mixedBin 1 1 (1 / 5) (11 / 10) false (1 / 5) noCut :=
  ⟨fun _ => rfl,
    idempotence exactEnv mixedBin 1 1 (1 / 5) (11 / 10) false (1 / 5) noCut
      (Or.inl (fun _ => rfl))⟩


/-! ## The distance of the engine -/

/-- C9 as stated fails: for the two C.ar records of `ringBin`, 1.5 apart, the nearest value of the
matrix, at position 1, is 3 (the doubled centroid distance), not 12 = 4 * 3 as `sqrdist` gives;
with the default cutoff 3.5 the pair is fused, which a distance of 12 would forbid. -/
theorem aromatic_penalty_absent :
    ringBin = [atomAt "a" "C.ar" 0 0, atomAt "b" "C.ar" (3 / 2) 0] ∧
    exactEnv.sqrt (dot ((atomAt "a" "C.ar" 0 0).pos.sub (atomAt "b" "C.ar" (3 / 2) 0).pos)
      ((atomAt "a" "C.ar" 0 0).pos.sub (atomAt "b" "C.ar" (3 / 2) 0).pos)) = 3 / 2 ∧
    sqrdist exactEnv (atomAt "a" "C.ar" 0 0) (atomAt "b" "C.ar" (3 / 2) 0) = 12 ∧
    nearest exactEnv ringBin false (1 / 5) = (1, 3) ∧
    internal_merge exactEnv ringBin 1 1 (1 / 5) (7 / 2) false (1 / 5) noCut
      = [⟨"1", "a", [⟨0, 0, 0⟩, ⟨3 / 2, 0, 0⟩], "C.ar", 0, false⟩] := by
  refine ⟨rfl, ?_, ?_, ?_, ?_⟩ <;> with_unfolding_all decide

/-- C9 (amended): for every pair of records (row < col) of a bin, aromatic or not, the value the
greedy engine enters in its matrix is `distance` of the pair (the centroid distance, doubled
when both hold one position, with no factor 4) when the pair passes `sametype` and the sentinel
otherwise; the nearest value is one of these entries and is not larger than the `distance` of
any pair passing `sametype`; and it is this value that is compared with the limit. -/
theorem engine_distance (E : Env) (atoms : List Atom) (similar : Bool) (chargediff : ℚ)
    (row col : Nat) (h1 : row < col) (h2 : col < atoms.length) :
    (distmat E atoms similar chargediff)[row * atoms.length + col]?
      = some (if sametype E (atoms.getD row default) (atoms.getD col default) similar
                chargediff = true
              then distance E (atoms.getD row default) (atoms.getD col default) else sentinel)
    ∧ (sametype E (atoms.getD row default) (atoms.getD col default) similar chargediff = true →
        (nearest E atoms similar chargediff).2
          ≤ distance E (atoms.getD row default) (atoms.getD col default))
    ∧ (nearest E atoms similar chargediff).2
        = entry E atoms similar chargediff (nearest E atoms similar chargediff).1
    ∧ (∀ (cutoff : ℚ) (cutmap : CutMap),
        merge_round E atoms cutoff similar chargediff cutmap = none
          ↔ round_limit E atoms cutoff similar chargediff cutmap
              < entry E atoms similar chargediff (nearest E atoms similar chargediff).1) := by
  have hn : 0 < atoms.length := by omega
  refine ⟨?_, nearest_le_distance E atoms similar chargediff row col h1 h2,
    nearest_eq_entry E atoms similar chargediff hn, ?_⟩
  · rw [distmat_getElem?, if_pos (pair_lt_sq _ _ _ h1 h2),
      entry_pair E atoms similar chargediff row col h1 h2]
  · intro cutoff cutmap
    rw [← nearest_eq_entry E atoms similar chargediff hn]
    unfold merge_round
    by_cases h : round_limit E atoms cutoff similar chargediff cutmap
        < (nearest E atoms similar chargediff).2
    · simp [h]
    · simp [h]

theorem engine_distance_witness :
    (0 : Nat) < 1 ∧ 1 < ringBin.length ∧
    (distmat exactEnv ringBin false (1 / 5))[0 * ringBin.length + 1]?
      = some (if sametype exactEnv (ringBin.getD 0 default) (ringBin.getD 1 default) false
                (1 / 5) = true
              then distance exactEnv (ringBin.getD 0 default) (ringBin.getD 1 default)
              else sentinel) :=
  ⟨by decide, by decide,
    (engine_distance exactEnv ringBin false (1 / 5) 0 1 (by decide) (by decide)).1⟩


/-! ## The same-type predicate (lines 111-120) -/

/-- C12: without the similar flag, `sametype` holds exactly when the two types are equal and the
charge difference is at most the tolerance (a difference equal to the tolerance is accepted). -/
theorem sametype_plain (E : Env) (a b : Atom) (tol : ℚ) :
    sametype E a b false tol = true ↔ a.type = b.type ∧ |a.charge - b.charge| ≤ tol := by
  unfold sametype
  by_cases h : tol < |a.charge - b.charge|
  · simp [h]
  · simp [h, not_lt.mp h]

/-- C13 as stated fails: with an empty table the labels C.3 and C.2 both have category 0 under
`atomtype` and the charges are equal, yet `sametype` with the similar flag rejects the pair. -/
theorem sametype_similar_absent_labels :
    atomtype exactEnv "C.3" = atomtype exactEnv "C.2" ∧
    |(atomAt "a" "C.3" 0 0).charge - (atomAt "b" "C.2" 0 0).charge| ≤ (1 / 5 : ℚ) ∧
    sametype exactEnv (atomAt "a" "C.3" 0 0) (atomAt "b" "C.2" 0 0) true (1 / 5) = false := by
  refine ⟨rfl, ?_, ?_⟩ <;> with_unfolding_all decide

/-- C13 (amended): with the similar flag, `sametype` holds exactly when the charge difference is
at most the tolerance and either both labels are in the table with the same category id, or one
of them is absent from the table and the two labels are equal. -/
theorem sametype_similar (E : Env) (a b : Atom) (tol : ℚ) :
    sametype E a b true tol = true ↔
      |a.charge - b.charge| ≤ tol ∧
      ((∃ l r, E.atomtypes a.type = some l ∧ E.atomtypes b.type = some r ∧ l = r) ∨
       ((E.atomtypes a.type = none ∨ E.atomtypes b.type = none) ∧ a.type = b.type)) := by
  unfold sametype
  by_cases h : tol < |a.charge - b.charge|
  · simp [h]
  · cases hl : E.atomtypes a.type <;> cases hr : E.atomtypes b.type <;>
      simp [h, not_lt.mp h]

/-! ## The binner (lines 372-408) -/

/-- C15: with NIB enabled and threshold `t`, a row of type `ty` and charge `q` gets (O.3, q) if
`q < -t`, otherwise (N.3, q) if `q > t`, otherwise the type C.ar if `ty` is C.ar and C.3 if not,
with charge 0 under the flatten option and `q` without it; with NIB disabled it keeps
(`ty`, `q`); and these are the type and charge of the record `atoms2bins` builds for a
nine-field row that is not deleted. -/
theorem nib_reclassification (nibneutral : Bool) (t : ℚ) (ty : String) (q : ℚ) :
    nib_reclassify true nibneutral t ty q
      = (if q < -t then ("O.3", q)
         else if q > t then ("N.3", q)
         else (if ty = "C.ar" then "C.ar" else "C.3", if nibneutral = true then 0 else q))
    ∧ nib_reclassify false nibneutral t ty q = (ty, q)
    ∧ (∀ (E : Env) (toDouble : String → ℚ) (usenib : Bool) (deletelist : List String)
        (row : List String), row.length = 9 → row.getD 5 "" = ty → toDouble (row.getD 8 "") = q →
        (nib_reclassify usenib nibneutral t ty q).1 ∉ deletelist →
        ∃ r : Atom, atoms2bins E toDouble [row] usenib nibneutral t deletelist
            = [(atomtype E (nib_reclassify usenib nibneutral t ty q).1, [r])]
          ∧ r.type = (nib_reclassify usenib nibneutral t ty q).1
          ∧ r.charge = (nib_reclassify usenib nibneutral t ty q).2) := by
  refine ⟨?_, ?_, ?_⟩
  · unfold nib_reclassify
    by_cases h1 : q < -t
    · simp [h1]
    · by_cases h2 : q > t
      · simp [h1, h2]
      · by_cases h3 : ty = "C.ar"
        · simp [h1, h2, h3]
        · simp [h1, h2, h3]
  · simp [nib_reclassify]
  · intro E toDouble usenib deletelist row hlen hty hq hdel
    refine ⟨⟨row.getD 0 "",
      identity_key (atomtype E (nib_reclassify usenib nibneutral t ty q).1) 0 (row.getD 1 ""),
      [⟨toDouble (row.getD 2 ""), toDouble (row.getD 3 ""), toDouble (row.getD 4 "")⟩],
      (nib_reclassify usenib nibneutral t ty q).1, (nib_reclassify usenib nibneutral t ty q).2,
      false⟩, ?_, rfl, rfl⟩
    have hc : deletelist.contains (nib_reclassify usenib nibneutral t ty q).1 = false := by
      simpa using hdel
    simp only [atoms2bins, List.foldl_cons, List.foldl_nil, atoms2bins_row, hlen, if_true, hty,
      hq, hc, Bool.not_false, bins_at, bins_emplace_back, bins_insert]
    rfl

theorem nib_reclassification_witness :
    (rowOf "1" "C1" "0" "C.2" "-0.5").length = 9 ∧
    ∃ r : Atom, atoms2bins exactEnv exampleDouble [rowOf "1" "C1" "0" "C.2" "-0.5"] true true
          (1 / 5) []
        = [(atomtype exactEnv (nib_reclassify true true (1 / 5) "C.2" (-1 / 2)).1, [r])]
      ∧ r.type = (nib_reclassify true true (1 / 5) "C.2" (-1 / 2)).1
      ∧ r.charge = (nib_reclassify true true (1 / 5) "C.2" (-1 / 2)).2 :=
  ⟨rfl,
    (nib_reclassification true (1 / 5) "C.2" (-1 / 2)).2.2 exactEnv exampleDouble true []
      (rowOf "1" "C1" "0" "C.2" "-0.5") rfl rfl (by with_unfolding_all decide) (by simp)⟩


/-- C16: the code at the failing input.  With the table entry C.3 -> -1, the C.3 row lands in
bin -1 under the key "-1_0_C1"; the import adapter reads the two fields of that key as (0, 0),
because `toULong` fails on "-1" and gives 0, and (0, 0) is the N.3 record of bin 0. -/
theorem identity_key_negative_category :
    atoms2bins negEnv exampleDouble
        [rowOf "1" "C1" "0" "C.3" "0", rowOf "2" "N1" "1.5" "N.3" "0"] false true (1 / 5) []
      = [(-1, [⟨"1", "-1_0_C1", [⟨0, 0, 0⟩], "C.3", 0, false⟩]),
         (0, [⟨"2", "0_0_N1", [⟨3 / 2, 0, 0⟩], "N.3", 0, false⟩])] ∧
    resolve "-1_0_C1" = some (0, 0) ∧
    bins_get [(-1, [⟨"1", "-1_0_C1", [⟨0, 0, 0⟩], "C.3", 0, false⟩]),
              (0, [⟨"2", "0_0_N1", [⟨3 / 2, 0, 0⟩], "N.3", 0, false⟩])] 0 0
      = some ⟨"2", "0_0_N1", [⟨3 / 2, 0, 0⟩], "N.3", 0, false⟩ := by
  refine ⟨?_, ?_, ?_⟩ <;> with_unfolding_all decide

/-! ## The graph export (lines 414-440) -/

/-- C17: the code at the failing input.  For a C.3 record and a C.2 record of one category,
1.5 apart, with the entries C.3 -> 2 and C.2 -> 1, the engine's limit for the pair is 1 (the
donor's smaller entry), so that `1 * 1 - 2.25` is negative; `bins2abc` uses the entry of the
row alone and writes the edge with weight `2 * 2 - 2.25`. -/
theorem export_weight_ignores_donor :
    sametype similarEnv ⟨"1", "1_0_A", [⟨0, 0, 0⟩], "C.3", 0, false⟩
      ⟨"2", "1_1_B", [⟨3 / 2, 0, 0⟩], "C.2", 0, false⟩ true (1 / 5) = true ∧
    resolve_limit (11 / 10) pairCut "C.3" "C.2" = 1 ∧
    sdist ⟨"1", "1_0_A", [⟨0, 0, 0⟩], "C.3", 0, false⟩
      ⟨"2", "1_1_B", [⟨3 / 2, 0, 0⟩], "C.2", 0, false⟩ = 9 / 4 ∧
    bins2abc similarEnv similarBins (11 / 10) true (1 / 5) pairCut
      = [("1_0_A", "1_1_B", 7 / 4)] := by
  refine ⟨?_, ?_, ?_, ?_⟩ <;> with_unfolding_all decide


/-! ## The map of bins -/

theorem bins_at_update (m : Bins) (k : Int) (v : List Atom) (k' : Int) :
    bins_at (bins_update m k v) k'
      = if k' = k then (bins_at m k).map (fun _ => v) else bins_at m k' := by
  induction m with
  | nil => simp [bins_update, bins_at]
  | cons e rest ih =>
    obtain ⟨k1, v1⟩ := e
    by_cases h1 : k1 = k
    · subst h1
      by_cases h2 : k' = k1
      · subst h2; simp [bins_update, bins_at]
      · have h3 : ¬ k1 = k' := fun h => h2 h.symm
        simp [bins_update, bins_at, h2, h3]
    · by_cases h2 : k' = k
      · subst h2
        simp only [bins_update, bins_at, if_neg h1, if_true] at ih ⊢
        exact ih
      · by_cases h3 : k1 = k'
        · simp [bins_update, bins_at, h1, h2, h3]
        · simp only [bins_update, bins_at, if_neg h1, if_neg h2, if_neg h3] at ih ⊢
          exact ih

theorem bins_at_insert (m : Bins) (k : Int) (v : List Atom) (hk : bins_at m k = none)
    (k' : Int) :
    bins_at (bins_insert m k v) k' = if k' = k then some v else bins_at m k' := by
  induction m with
  | nil =>
    by_cases h : k' = k
    · subst h; simp [bins_insert, bins_at]
    · have h' : ¬ k = k' := fun e => h e.symm
      simp [bins_insert, bins_at, h, h']
  | cons e rest ih =>
    obtain ⟨k1, v1⟩ := e
    have hne : ¬ k1 = k := by
      intro e; simp [bins_at, e] at hk
    have hrest : bins_at rest k = none := by
      simpa [bins_at, hne] using hk
    by_cases hlt : k < k1
    · by_cases h : k' = k
      · subst h; simp [bins_insert, bins_at, hlt]
      · have h' : ¬ k = k' := fun e => h e.symm
        simp [bins_insert, bins_at, hlt, h, h']
    · by_cases h3 : k1 = k'
      · have h : ¬ k' = k := fun e => hne (h3.trans e)
        subst h3
        simp [bins_insert, bins_at, hlt, h]
      · simp only [bins_insert, bins_at, if_neg hlt, if_neg h3]
        exact ih hrest

theorem bins_at_emplace_back (m : Bins) (k : Int) (a : Atom) (k' : Int) :
    bins_at (bins_emplace_back m k a) k'
      = if k' = k then some ((bins_at m k).getD [] ++ [a]) else bins_at m k' := by
  unfold bins_emplace_back
  cases h : bins_at m k with
  | none => simp [bins_at_insert m k [a] h k']
  | some v => simp [bins_at_update, h]

theorem mem_bins_insert (m : Bins) (k : Int) (v : List Atom) (x : Int × List Atom) :
    x ∈ bins_insert m k v ↔ x = (k, v) ∨ x ∈ m := by
  induction m with
  | nil => simp [bins_insert]
  | cons e rest ih =>
    obtain ⟨k1, v1⟩ := e
    by_cases hlt : k < k1
    · simp [bins_insert, hlt]
    · simp only [bins_insert, if_neg hlt, List.mem_cons, ih]
      tauto

theorem bins_at_none_iff (m : Bins) (k : Int) :
    bins_at m k = none ↔ ∀ x ∈ m, x.1 ≠ k := by
  induction m with
  | nil => simp [bins_at]
  | cons e rest ih =>
    obtain ⟨k1, v1⟩ := e
    by_cases h : k1 = k
    · simp [bins_at, h]
    · simp [bins_at, h, ih]

theorem bins_insert_sorted (m : Bins) (k : Int) (v : List Atom)
    (hs : m.Pairwise (fun x y => x.1 < y.1)) (hk : bins_at m k = none) :
    (bins_insert m k v).Pairwise (fun x y => x.1 < y.1) := by
  induction m with
  | nil => simp [bins_insert]
  | cons e rest ih =>
    obtain ⟨k1, v1⟩ := e
    have hne : k1 ≠ k := ((bins_at_none_iff _ k).mp hk) (k1, v1) (List.mem_cons_self _ _)
    have hrest : bins_at rest k = none :=
      (bins_at_none_iff _ k).mpr (fun x hx =>
        ((bins_at_none_iff _ k).mp hk) x (List.mem_cons_of_mem _ hx))
    rw [List.pairwise_cons] at hs
    by_cases hlt : k < k1
    · simp only [bins_insert, if_pos hlt]
      rw [List.pairwise_cons]
      refine ⟨?_, List.pairwise_cons.mpr hs⟩
      intro x hx
      rcases List.mem_cons.mp hx with hx | hx
      · rw [hx]; exact hlt
      · exact lt_trans hlt (hs.1 x hx)
    · simp only [bins_insert, if_neg hlt]
      rw [List.pairwise_cons]
      refine ⟨?_, ih hs.2 hrest⟩
      intro x hx
      rcases (mem_bins_insert rest k v x).mp hx with hx | hx
      · rw [hx]
        exact lt_of_le_of_ne (not_lt.mp hlt) hne
      · exact hs.1 x hx

theorem bins_update_keys (m : Bins) (k : Int) (v : List Atom) :
    (bins_update m k v).map Prod.fst = m.map Prod.fst := by
  induction m with
  | nil => rfl
  | cons e rest ih =>
    obtain ⟨k1, v1⟩ := e
    by_cases h : k1 = k
    · simp [bins_update, h]
    · simp [bins_update, h, ih]

theorem bins_update_sorted (m : Bins) (k : Int) (v : List Atom)
    (hs : m.Pairwise (fun x y => x.1 < y.1)) :
    (bins_update m k v).Pairwise (fun x y => x.1 < y.1) := by
  have h1 : (m.map Prod.fst).Pairwise (· < ·) := by
    rw [List.pairwise_map]; exact hs
  rw [← bins_update_keys m k v, List.pairwise_map] at h1
  exact h1

theorem bins_emplace_back_sorted (m : Bins) (k : Int) (a : Atom)
    (hs : m.Pairwise (fun x y => x.1 < y.1)) :
    (bins_emplace_back m k a).Pairwise (fun x y => x.1 < y.1) := by
  unfold bins_emplace_back
  cases h : bins_at m k with
  | none => exact bins_insert_sorted m k [a] hs h
  | some v => exact bins_update_sorted m k _ hs


/-! ## Selection and placement by the binner -/

theorem atoms2bins_concat (E : Env) (toDouble : String → ℚ) (rows : List (List String))
    (r : List String) (usenib nibneutral : Bool) (nibthreshold : ℚ) (deletelist : List String) :
    atoms2bins E toDouble (rows ++ [r]) usenib nibneutral nibthreshold deletelist
      = atoms2bins_row E toDouble usenib nibneutral nibthreshold deletelist
          (atoms2bins E toDouble rows usenib nibneutral nibthreshold deletelist) r := by
  simp [atoms2bins, List.foldl_append]

theorem atoms2bins_row_eq (E : Env) (toDouble : String → ℚ) (usenib nibneutral : Bool)
    (nibthreshold : ℚ) (deletelist : List String) (m : Bins) (r : List String) :
    atoms2bins_row E toDouble usenib nibneutral nibthreshold deletelist m r
      = if row_selected toDouble usenib nibneutral nibthreshold deletelist r = true then
          bins_emplace_back m
            (atomtype E (row_final toDouble usenib nibneutral nibthreshold r).1)
            (record_of_row toDouble usenib nibneutral nibthreshold
              (atomtype E (row_final toDouble usenib nibneutral nibthreshold r).1)
              ((bins_at m
                (atomtype E (row_final toDouble usenib nibneutral nibthreshold r).1)).getD
                []).length r)
        else m := by
  unfold atoms2bins_row row_selected record_of_row row_final
  by_cases h9 : r.length = 9
  · by_cases hd : deletelist.contains
        (nib_reclassify usenib nibneutral nibthreshold (r.getD 5 "")
          (toDouble (r.getD 8 ""))).1 = true
    · simp [h9, hd]
    · simp [h9, hd]
  · simp [h9]

theorem bin_spec_concat (E : Env) (toDouble : String → ℚ) (usenib nibneutral : Bool)
    (nibthreshold : ℚ) (deletelist : List String) (c : Int) (rows : List (List String))
    (r : List String) :
    bin_spec E toDouble usenib nibneutral nibthreshold deletelist c (rows ++ [r])
      = if row_selected toDouble usenib nibneutral nibthreshold deletelist r = true ∧
            atomtype E (row_final toDouble usenib nibneutral nibthreshold r).1 = c then
          bin_spec E toDouble usenib nibneutral nibthreshold deletelist c rows
            ++ [record_of_row toDouble usenib nibneutral nibthreshold c
                (bin_spec E toDouble usenib nibneutral nibthreshold deletelist c rows).length r]
        else bin_spec E toDouble usenib nibneutral nibthreshold deletelist c rows := by
  unfold bin_spec
  rw [List.filter_append]
  by_cases h : row_selected toDouble usenib nibneutral nibthreshold deletelist r = true ∧
      atomtype E (row_final toDouble usenib nibneutral nibthreshold r).1 = c
  · rw [if_pos h]
    have hf : List.filter (fun row =>
        row_selected toDouble usenib nibneutral nibthreshold deletelist row &&
          decide (atomtype E (row_final toDouble usenib nibneutral nibthreshold row).1 = c)) [r]
        = [r] := by
      simp [List.filter, h.1, h.2]
    rw [hf, List.mapIdx_concat, List.length_mapIdx]
  · rw [if_neg h]
    have hf : List.filter (fun row =>
        row_selected toDouble usenib nibneutral nibthreshold deletelist row &&
          decide (atomtype E (row_final toDouble usenib nibneutral nibthreshold row).1 = c)) [r]
        = [] := by
      simp only [List.filter_eq_nil_iff, List.mem_singleton, forall_eq, Bool.and_eq_true,
        decide_eq_true_eq]
      exact h
    rw [hf, List.append_nil]

theorem atoms2bins_at (E : Env) (toDouble : String → ℚ) (rows : List (List String))
    (usenib nibneutral : Bool) (nibthreshold : ℚ) (deletelist : List String) :
    ∀ c : Int,
      bins_at (atoms2bins E toDouble rows usenib nibneutral nibthreshold deletelist) c
        = if bin_spec E toDouble usenib nibneutral nibthreshold deletelist c rows = [] then none
          else some (bin_spec E toDouble usenib nibneutral nibthreshold deletelist c rows) := by
  induction rows using List.reverseRecOn with
  | nil => intro c; simp [atoms2bins, bins_at, bin_spec]
  | append_singleton rows r ih =>
    intro c
    have hb := bin_spec_concat E toDouble usenib nibneutral nibthreshold deletelist c rows r
    rw [atoms2bins_concat, atoms2bins_row_eq]
    by_cases hs : row_selected toDouble usenib nibneutral nibthreshold deletelist r = true
    · rw [if_pos hs, bins_at_emplace_back]
      by_cases hc : c = atomtype E (row_final toDouble usenib nibneutral nibthreshold r).1
      · rw [if_pos ⟨hs, hc.symm⟩] at hb
        rw [if_pos hc, hb, ← hc, ih c]
        by_cases he : bin_spec E toDouble usenib nibneutral nibthreshold deletelist c rows = []
        · simp [he]
        · simp [he]
      · have hc' : ¬ atomtype E (row_final toDouble usenib nibneutral nibthreshold r).1 = c :=
          fun e => hc e.symm
        rw [if_neg (fun h => hc' h.2)] at hb
        rw [if_neg hc, hb, ih c]
    · rw [if_neg (fun h => hs h.1)] at hb
      rw [if_neg hs, hb, ih c]

theorem atoms2bins_sorted (E : Env) (toDouble : String → ℚ) (rows : List (List String))
    (usenib nibneutral : Bool) (nibthreshold : ℚ) (deletelist : List String) :
    (atoms2bins E toDouble rows usenib nibneutral nibthreshold deletelist).Pairwise
      (fun x y => x.1 < y.1) := by
  induction rows using List.reverseRecOn with
  | nil => simp [atoms2bins]
  | append_singleton rows r ih =>
    rw [atoms2bins_concat, atoms2bins_row_eq]
    split_ifs
    · exact bins_emplace_back_sorted _ _ _ ih
    · exact ih

/-- C14: the bins of `atoms2bins` have pairwise distinct (ascending) keys, and for every
category `c` the bin stored under `c` is the list of records of exactly those rows that have
nine fields, a (possibly reclassified) type outside the delete-set and `atomtype` of that type
equal to `c`, in input order, the i-th of them numbered `i`; no bin is stored under `c` exactly
when there is no such row.  Rows with another field count contribute to no bin. -/
theorem binner_selection (E : Env) (toDouble : String → ℚ) (rows : List (List String))
    (usenib nibneutral : Bool) (nibthreshold : ℚ) (deletelist : List String) :
    (atoms2bins E toDouble rows usenib nibneutral nibthreshold deletelist).Pairwise
      (fun x y => x.1 < y.1)
    ∧ (∀ c : Int,
        (bins_at (atoms2bins E toDouble rows usenib nibneutral nibthreshold deletelist) c).getD []
          = bin_spec E toDouble usenib nibneutral nibthreshold deletelist c rows)
    ∧ (∀ c : Int,
        bins_at (atoms2bins E toDouble rows usenib nibneutral nibthreshold deletelist) c = none
          ↔ bin_spec E toDouble usenib nibneutral nibthreshold deletelist c rows = []) := by
  refine ⟨atoms2bins_sorted E toDouble rows usenib nibneutral nibthreshold deletelist, ?_, ?_⟩
  · intro c
    rw [atoms2bins_at]
    split_ifs with h
    · simp [h]
    · simp
  · intro c
    rw [atoms2bins_at]
    split_ifs with h
    · simp [h]
    · simp [h]


/-! ## Soundness of the exported edges -/

theorem index_pairs_mem (n : Nat) (rc : Nat × Nat) :
    rc ∈ index_pairs n ↔ rc.1 < rc.2 ∧ rc.2 < n := by
  obtain ⟨row, col⟩ := rc
  simp only [index_pairs, List.mem_flatMap, List.mem_range, List.mem_map, List.mem_range'_1,
    Prod.mk.injEq]
  constructor
  · rintro ⟨r, hr, c, hc, rfl, rfl⟩
    omega
  · rintro ⟨h1, h2⟩
    exact ⟨row, by omega, col, by omega, rfl, rfl⟩

theorem index_pairs_nodup (n : Nat) : (index_pairs n).Nodup := by
  unfold index_pairs
  rw [List.nodup_flatMap]
  refine ⟨?_, ?_⟩
  · intro row _
    refine List.Nodup.map ?_ (List.nodup_range' _ _)
    intro a b h
    exact (Prod.mk.inj h).2
  · refine List.Pairwise.imp_of_mem ?_ ((List.nodup_range (n - 1)))
    intro r1 r2 _ _ hne
    show List.Disjoint _ _
    rw [List.disjoint_left]
    intro x hx1 hx2
    simp only [List.mem_map] at hx1 hx2
    obtain ⟨c1, _, rfl⟩ := hx1
    obtain ⟨c2, _, h2⟩ := hx2
    exact hne (Prod.mk.inj h2).1.symm

theorem bin2abc_eq_pairs (E : Env) (acat : List Atom) (cutoff : ℚ) (similar : Bool)
    (chargediff : ℚ) (cutmap : CutMap) :
    bin2abc E acat cutoff similar chargediff cutmap
      = (index_pairs acat.length).flatMap
          (fun rc => abc_line E acat cutoff similar chargediff cutmap rc.1 rc.2) := by
  unfold bin2abc index_pairs
  rw [List.flatMap_assoc]
  congr 1
  funext row
  rw [List.flatMap_map]

theorem abc_line_mem (E : Env) (acat : List Atom) (cutoff : ℚ) (similar : Bool)
    (chargediff : ℚ) (cutmap : CutMap) (row col : Nat) (e : String × String × ℚ)
    (h : e ∈ abc_line E acat cutoff similar chargediff cutmap row col) :
    sametype E (acat.getD row default) (acat.getD col default) similar chargediff = true ∧
    0 < e.2.2 ∧
    e = ((acat.getD row default).name, (acat.getD col default).name,
          row_maxdist cutoff cutmap (acat.getD row default).type
            - sdist (acat.getD row default) (acat.getD col default)) := by
  unfold abc_line at h
  by_cases h1 : sametype E (acat.getD row default) (acat.getD col default) similar chargediff
      = true
  · rw [if_pos h1] at h
    by_cases h2 : 0 < row_maxdist cutoff cutmap (acat.getD row default).type
        - sdist (acat.getD row default) (acat.getD col default)
    · simp only [if_pos h2, List.mem_singleton] at h
      rw [h]
      exact ⟨h1, h2, rfl⟩
    · simp only [if_neg h2, List.not_mem_nil] at h
  · rw [if_neg h1] at h
    simp at h

/-- C18: every line `bins2abc` writes comes from one bin and two places `row < col` of that bin
whose records pass `sametype`, carries the names of those two records and a strictly positive
weight; the output is the concatenation, bin after bin, over the pairs `row < col` of the bin,
each pair visited once and writing at most one line; so no line joins records of two bins and
no pair of records has two lines. -/
theorem export_edges_sound (E : Env) (atomcats : Bins) (cutoff : ℚ) (similar : Bool)
    (chargediff : ℚ) (cutmap : CutMap) :
    (∀ e ∈ bins2abc E atomcats cutoff similar chargediff cutmap,
      ∃ cat ∈ atomcats, ∃ row col : Nat, row < col ∧ col < cat.2.length ∧
        sametype E (cat.2.getD row default) (cat.2.getD col default) similar chargediff = true ∧
        0 < e.2.2 ∧
        e = ((cat.2.getD row default).name, (cat.2.getD col default).name,
              row_maxdist cutoff cutmap (cat.2.getD row default).type
                - sdist (cat.2.getD row default) (cat.2.getD col default)))
    ∧ bins2abc E atomcats cutoff similar chargediff cutmap
        = atomcats.flatMap (fun cat =>
            (index_pairs cat.2.length).flatMap
              (fun rc => abc_line E cat.2 cutoff similar chargediff cutmap rc.1 rc.2))
    ∧ (∀ n : Nat, (index_pairs n).Nodup ∧ ∀ rc ∈ index_pairs n, rc.1 < rc.2 ∧ rc.2 < n)
    ∧ (∀ (acat : List Atom) (row col : Nat),
        (abc_line E acat cutoff similar chargediff cutmap row col).length ≤ 1) := by
  have heq : bins2abc E atomcats cutoff similar chargediff cutmap
      = atomcats.flatMap (fun cat =>
          (index_pairs cat.2.length).flatMap
            (fun rc => abc_line E cat.2 cutoff similar chargediff cutmap rc.1 rc.2)) := by
    unfold bins2abc
    congr 1
    funext cat
    exact bin2abc_eq_pairs E cat.2 cutoff similar chargediff cutmap
  refine ⟨?_, heq, ?_, ?_⟩
  · intro e he
    rw [heq] at he
    simp only [List.mem_flatMap] at he
    obtain ⟨cat, hcat, rc, hrc, hline⟩ := he
    have hp := (index_pairs_mem _ rc).mp hrc
    obtain ⟨h1, h2, h3⟩ := abc_line_mem E cat.2 cutoff similar chargediff cutmap _ _ e hline
    exact ⟨cat, hcat, rc.1, rc.2, hp.1, hp.2, h1, h2, h3⟩
  · intro n
    exact ⟨index_pairs_nodup n, fun rc hrc => (index_pairs_mem n rc).mp hrc⟩
  · intro acat row col
    unfold abc_line
    by_cases h1 : sametype E (acat.getD row default) (acat.getD col default) similar chargediff
        = true
    · rw [if_pos h1]
      by_cases h2 : 0 < row_maxdist cutoff cutmap (acat.getD row default).type
          - sdist (acat.getD row default) (acat.getD col default)
      · simp only [if_pos h2, List.length_singleton, le_refl]
      · simp only [if_neg h2, List.length_nil, Nat.zero_le]
    · rw [if_neg h1]
      simp

theorem export_edges_sound_witness :
    ∃ cat ∈ similarBins, ∃ row col : Nat, row < col ∧ col < cat.2.length ∧
      sametype similarEnv (cat.2.getD row default) (cat.2.getD col default) true (1 / 5) = true ∧
      (0 : ℚ) < (("1_0_A", "1_1_B", (7 / 4 : ℚ)) : String × String × ℚ).2.2 ∧
      (("1_0_A", "1_1_B", (7 / 4 : ℚ)) : String × String × ℚ)
        = ((cat.2.getD row default).name, (cat.2.getD col default).name,
            row_maxdist (11 / 10) pairCut (cat.2.getD row default).type
              - sdist (cat.2.getD row default) (cat.2.getD col default)) :=
  (export_edges_sound similarEnv similarBins (11 / 10) true (1 / 5) pairCut).1
    ("1_0_A", "1_1_B", 7 / 4)
    (by
      have h : bins2abc similarEnv similarBins (11 / 10) true (1 / 5) pairCut
          = [("1_0_A", "1_1_B", 7 / 4)] := by with_unfolding_all decide
      rw [h]
      exact List.mem_singleton.mpr rfl)


/-! ## The graph import (lines 150-238) -/

theorem bins_get_set (m : Bins) (t a : Nat) (x : Atom) (t' a' : Nat) :
    bins_get (bins_set m t a x) t' a'
      = if int_of_ulong t' = int_of_ulong t ∧ a' = a then (bins_get m t a).map (fun _ => x)
        else bins_get m t' a' := by
  unfold bins_set bins_get
  cases hv : bins_at m (int_of_ulong t) with
  | none =>
    by_cases hk : int_of_ulong t' = int_of_ulong t
    · simp [hk, hv]
    · simp [hk]
  | some v =>
    simp only [bins_at_update, hv, Option.map_some']
    by_cases hk : int_of_ulong t' = int_of_ulong t
    · rw [if_pos hk]
      by_cases ha : a' = a
      · subst ha
        simp only [hk, and_self, if_true, List.getElem?_set, if_true]
        by_cases hl : a' < v.length
        · simp [hl]
        · simp [hl, List.getElem?_eq_none (not_lt.mp hl)]
      · have ha' : ¬ a = a' := fun e => ha e.symm
        simp [hk, ha, ha', List.getElem?_set, hv]
    · simp [hk]

theorem extreme_charge_first_max (toc : ℚ) (frcs : List ℚ) :
    ∃ i : Nat, (toc :: frcs)[i]? = some (extreme_charge toc frcs)
      ∧ (∀ (j : Nat) (c : ℚ), (toc :: frcs)[j]? = some c → |c| ≤ |extreme_charge toc frcs|)
      ∧ (∀ (j : Nat) (c : ℚ), (toc :: frcs)[j]? = some c → j < i →
          |c| < |extreme_charge toc frcs|) := by
  induction frcs using List.reverseRecOn with
  | nil =>
    refine ⟨0, by simp [extreme_charge], ?_, ?_⟩
    · intro j c hj
      cases j with
      | zero => simp at hj; simp [extreme_charge, hj]
      | succ j => simp at hj
    · intro j c _ hj; omega
  | append_singleton frcs f ih =>
    obtain ⟨i, hi, hall, hfirst⟩ := ih
    have hstep : extreme_charge toc (frcs ++ [f])
        = if |extreme_charge toc frcs| < |f| then f else extreme_charge toc frcs := by
      simp [extreme_charge, List.foldl_append]
    have hsplit : ∀ (j : Nat) (c : ℚ), (toc :: (frcs ++ [f]))[j]? = some c →
        (toc :: frcs)[j]? = some c ∨ (j = frcs.length + 1 ∧ c = f) := by
      intro j c hj
      rw [← List.cons_append] at hj
      by_cases hlt : j < (toc :: frcs).length
      · left; rwa [List.getElem?_append_left hlt] at hj
      · right
        rw [List.getElem?_append_right (not_lt.mp hlt)] at hj
        simp only [List.length_cons] at hj hlt
        have : j - (frcs.length + 1) = 0 := by
          by_contra hne
          rw [List.getElem?_eq_none (by simp; omega)] at hj
          exact absurd hj (by simp)
        rw [this] at hj
        simp at hj
        exact ⟨by omega, hj.symm⟩
    have hilt : i < (toc :: frcs).length := by
      by_contra hc
      rw [List.getElem?_eq_none (not_lt.mp hc)] at hi
      exact absurd hi (by simp)
    by_cases hlt : |extreme_charge toc frcs| < |f|
    · rw [hstep, if_pos hlt]
      refine ⟨frcs.length + 1, ?_, ?_, ?_⟩
      · rw [← List.cons_append, List.getElem?_append_right (by simp)]
        simp
      · intro j c hj
        rcases hsplit j c hj with h | ⟨_, h⟩
        · exact le_of_lt (lt_of_le_of_lt (hall j c h) hlt)
        · rw [h]
      · intro j c hj hji
        rcases hsplit j c hj with h | ⟨h, _⟩
        · exact lt_of_le_of_lt (hall j c h) hlt
        · omega
    · rw [hstep, if_neg hlt]
      refine ⟨i, ?_, ?_, ?_⟩
      · rw [← List.cons_append, List.getElem?_append_left hilt]
        exact hi
      · intro j c hj
        rcases hsplit j c hj with h | ⟨_, h⟩
        · exact hall j c h
        · rw [h]; exact not_lt.mp hlt
      · intro j c hj hji
        rcases hsplit j c hj with h | ⟨h, _⟩
        · exact hfirst j c h hji
        · simp only [List.length_cons] at hilt
          omega


theorem mcl_absorb_all_spec (t0 a0 : Nat) :
    ∀ (donors : List (String × (Nat × Nat) × Atom)) (st : MclState) (acc0 : Atom),
      bins_get st.atomcats t0 a0 = some acc0 →
      (∀ d ∈ donors, resolve d.1 = some d.2.1 ∧
          bins_get st.atomcats d.2.1.1 d.2.1.2 = some d.2.2 ∧
          (int_of_ulong d.2.1.1, d.2.1.2) ≠ (int_of_ulong t0, a0)) →
      ∃ st' : MclState, mcl_absorb_all t0 a0 st (donors.map (fun d => d.1)) = some st' ∧
        bins_get st'.atomcats t0 a0
          = some { acc0 with
              posit := acc0.posit ++ donors.flatMap (fun d => d.2.2.posit)
              charge := extreme_charge acc0.charge (donors.map (fun d => d.2.2.charge)) } ∧
        st'.serial = st.serial ∧ st'.ostr = st.ostr := by
  intro donors
  induction donors with
  | nil =>
    intro st acc0 h0 _
    exact ⟨st, rfl, by simpa [extreme_charge] using h0, rfl, rfl⟩
  | cons d ds ih =>
    intro st acc0 h0 hd
    obtain ⟨w, ⟨wt, wa⟩, r⟩ := d
    obtain ⟨hres, hget, hne⟩ := hd _ (List.mem_cons_self _ _)
    simp only at hres hget hne
    have hstep : mcl_absorb t0 a0 st w
        = some { st with
            atomcats := bins_set st.atomcats t0 a0
              { acc0 with
                posit := acc0.posit ++ r.posit
                charge := if |acc0.charge| < |r.charge| then r.charge else acc0.charge }
            used := st.used.insert (wt, wa) } := by
      unfold mcl_absorb
      simp only [hres, hget, h0]
      by_cases hc : |acc0.charge| < |r.charge|
      · simp only [if_pos hc]
      · simp only [if_neg hc]
    have h0' : bins_get (bins_set st.atomcats t0 a0
          { acc0 with
            posit := acc0.posit ++ r.posit
            charge := if |acc0.charge| < |r.charge| then r.charge else acc0.charge }) t0 a0
        = some { acc0 with
            posit := acc0.posit ++ r.posit
            charge := if |acc0.charge| < |r.charge| then r.charge else acc0.charge } := by
      rw [bins_get_set, if_pos ⟨rfl, rfl⟩, h0]
      rfl
    have hd' : ∀ d ∈ ds, resolve d.1 = some d.2.1 ∧
        bins_get (bins_set st.atomcats t0 a0
          { acc0 with
            posit := acc0.posit ++ r.posit
            charge := if |acc0.charge| < |r.charge| then r.charge else acc0.charge })
          d.2.1.1 d.2.1.2 = some d.2.2 ∧
        (int_of_ulong d.2.1.1, d.2.1.2) ≠ (int_of_ulong t0, a0) := by
      intro d hdm
      obtain ⟨h1, h2, h3⟩ := hd d (List.mem_cons_of_mem _ hdm)
      refine ⟨h1, ?_, h3⟩
      rw [bins_get_set, if_neg (fun hh => h3 (by rw [hh.1, hh.2])), h2]
    obtain ⟨st', hrun, hacc, hser, hostr⟩ :=
      ih ({ st with
            atomcats := bins_set st.atomcats t0 a0
              { acc0 with
                posit := acc0.posit ++ r.posit
                charge := if |acc0.charge| < |r.charge| then r.charge else acc0.charge }
            used := st.used.insert (wt, wa) } : MclState) _ h0' hd'
    refine ⟨st', ?_, ?_, hser, hostr⟩
    · simp only [List.map_cons, mcl_absorb_all, hstep]
      exact hrun
    · rw [hacc]
      simp [extreme_charge, List.append_assoc]

theorem mcl_emit_ostr (cmin cminchr : Nat) (nibthreshold : ℚ) (st : MclState) (acc : Atom) :
    (mcl_emit cmin cminchr nibthreshold st acc).atomcats = st.atomcats ∧
    (mcl_emit cmin cminchr nibthreshold st acc).ostr
      = st.ostr ++
          (if (|acc.charge| ≤ nibthreshold ∧ cmin ≤ acc.posit.length) ∨
              (nibthreshold < |acc.charge| ∧ cminchr ≤ acc.posit.length)
           then [(st.serial + 1, acc)] else []) := by
  unfold mcl_emit mcl_print
  by_cases h1 : |acc.charge| ≤ nibthreshold
  · have h1' : ¬ nibthreshold < |acc.charge| := not_lt.mpr h1
    by_cases h2 : cmin ≤ acc.posit.length
    · simp [h1, h2]
    · simp [h1, h2, h1']
  · have h1' : nibthreshold < |acc.charge| := not_le.mp h1
    by_cases h2 : cminchr ≤ acc.posit.length
    · simp [h1, h2, h1']
    · simp [h1, h2]

theorem mcl_words_spec (cmin cminchr : Nat) (nibthreshold : ℚ) (st : MclState) (w0 : String)
    (p0 : Nat × Nat) (r0 : Atom) (donors : List (String × (Nat × Nat) × Atom))
    (h0 : resolve w0 = some p0) (hr0 : bins_get st.atomcats p0.1 p0.2 = some r0)
    (hd : ∀ d ∈ donors, resolve d.1 = some d.2.1 ∧
      bins_get st.atomcats d.2.1.1 d.2.1.2 = some d.2.2)
    (hnodup : ((int_of_ulong p0.1, p0.2) ::
      donors.map (fun d => (int_of_ulong d.2.1.1, d.2.1.2))).Nodup) :
    ∃ st1 : MclState,
      mcl_words cmin cminchr nibthreshold st (w0 :: donors.map (fun d => d.1))
        = some (mcl_emit cmin cminchr nibthreshold st1
            { r0 with
              posit := r0.posit ++ donors.flatMap (fun d => d.2.2.posit)
              charge := extreme_charge r0.charge (donors.map (fun d => d.2.2.charge)) }) ∧
      bins_get st1.atomcats p0.1 p0.2
        = some { r0 with
            posit := r0.posit ++ donors.flatMap (fun d => d.2.2.posit)
            charge := extreme_charge r0.charge (donors.map (fun d => d.2.2.charge)) } ∧
      st1.serial = st.serial ∧ st1.ostr = st.ostr := by
  obtain ⟨t0, a0⟩ := p0
  simp only at hr0 hnodup
  have hd' : ∀ d ∈ donors, resolve d.1 = some d.2.1 ∧
      bins_get ({ st with used := st.used.insert (t0, a0) } : MclState).atomcats
        d.2.1.1 d.2.1.2 = some d.2.2 ∧
      (int_of_ulong d.2.1.1, d.2.1.2) ≠ (int_of_ulong t0, a0) := by
    intro d hdm
    refine ⟨(hd d hdm).1, (hd d hdm).2, ?_⟩
    intro he
    have hmem : (int_of_ulong t0, a0)
        ∈ donors.map (fun d => (int_of_ulong d.2.1.1, d.2.1.2)) :=
      List.mem_map.mpr ⟨d, hdm, he⟩
    exact (List.nodup_cons.mp hnodup).1 hmem
  obtain ⟨st1, hrun, hacc, hser, hostr⟩ :=
    mcl_absorb_all_spec t0 a0 donors { st with used := st.used.insert (t0, a0) } r0 hr0 hd'
  refine ⟨st1, ?_, hacc, hser, hostr⟩
  unfold mcl_words
  simp only [h0, hr0, hrun, hacc]


theorem mcl_groups_append (cmin cminchr : Nat) (nibthreshold : ℚ) :
    ∀ (a b : List String) (st : MclState),
      mcl_groups cmin cminchr nibthreshold st (a ++ b)
        = (mcl_groups cmin cminchr nibthreshold st a).bind
            (fun s => mcl_groups cmin cminchr nibthreshold s b) := by
  intro a
  induction a with
  | nil => intro b st; simp [mcl_groups]
  | cons line lines ih =>
    intro b st
    simp only [List.cons_append, mcl_groups]
    cases mcl_group cmin cminchr nibthreshold st line with
    | none => rfl
    | some st' => exact ih b st'

theorem bins_get_congr (m : Bins) (t a t' a' : Nat)
    (h : (int_of_ulong t, a) = (int_of_ulong t', a')) : bins_get m t a = bins_get m t' a' := by
  obtain ⟨h1, h2⟩ := Prod.mk.inj h
  unfold bins_get
  rw [h1, h2]

/-- Keys that are the names of the records they resolve to: distinct keys have distinct
places. -/
theorem group_places_nodup (m : Bins) :
    ∀ G : List (String × (Nat × Nat) × Atom),
      (∀ g ∈ G, bins_get m g.2.1.1 g.2.1.2 = some g.2.2 ∧ g.2.2.name = g.1) →
      (G.map (fun g => g.1)).Nodup →
      (G.map (fun g => (int_of_ulong g.2.1.1, g.2.1.2))).Nodup := by
  intro G
  induction G with
  | nil => intro _ _; exact List.nodup_nil
  | cons g gs ih =>
    intro hG hk
    simp only [List.map_cons, List.nodup_cons] at hk ⊢
    refine ⟨?_, ih (fun x hx => hG x (List.mem_cons_of_mem _ hx)) hk.2⟩
    intro hmem
    obtain ⟨x, hx, hxe⟩ := List.mem_map.mp hmem
    have h1 := hG x (List.mem_cons_of_mem _ hx)
    have h2 := hG g (List.mem_cons_self _ _)
    have h3 := bins_get_congr m x.2.1.1 x.2.1.2 g.2.1.1 g.2.1.2 hxe
    rw [h1.1, h2.1] at h3
    have h4 : x.2.2 = g.2.2 := Option.some.inj h3
    have h5 : x.1 = g.1 := by rw [← h1.2, ← h2.2, h4]
    exact hk.1 (List.mem_map.mpr ⟨x, hx, h5⟩)

theorem mcl_absorb_frame (tnum anum : Nat) (st st' : MclState) (w : String)
    (h : mcl_absorb tnum anum st w = some st') :
    (∀ q ∈ st.used, q ∈ st'.used)
    ∧ (∀ t a : Nat, (int_of_ulong t, a) ≠ (int_of_ulong tnum, anum) →
        bins_get st'.atomcats t a = bins_get st.atomcats t a)
    ∧ st'.ostr = st.ostr := by
  unfold mcl_absorb at h
  cases hres : resolve w with
  | none => rw [hres] at h; simp at h
  | some p =>
    obtain ⟨wtnum, wanum⟩ := p
    rw [hres] at h
    simp only [] at h
    cases hf : bins_get st.atomcats wtnum wanum with
    | none => rw [hf] at h; simp at h
    | some frm =>
      cases ha : bins_get st.atomcats tnum anum with
      | none => rw [hf, ha] at h; simp at h
      | some acc =>
        rw [hf, ha] at h
        simp only [Option.some.injEq] at h
        subst h
        refine ⟨?_, ?_, rfl⟩
        · intro q hq
          exact List.mem_insert_iff.mpr (Or.inr hq)
        · intro t a hne
          simp only []
          rw [bins_get_set, if_neg (fun hh => hne (by rw [hh.1, hh.2]))]

theorem mcl_absorb_all_frame (tnum anum : Nat) :
    ∀ (ws : List String) (st st' : MclState),
      mcl_absorb_all tnum anum st ws = some st' →
      (∀ q ∈ st.used, q ∈ st'.used)
      ∧ (∀ t a : Nat, (int_of_ulong t, a) ≠ (int_of_ulong tnum, anum) →
          bins_get st'.atomcats t a = bins_get st.atomcats t a)
      ∧ st'.ostr = st.ostr := by
  intro ws
  induction ws with
  | nil =>
    intro st st' h
    simp only [mcl_absorb_all, Option.some.injEq] at h
    subst h
    exact ⟨fun q hq => hq, fun t a _ => rfl, rfl⟩
  | cons w ws ih =>
    intro st st' h
    simp only [mcl_absorb_all] at h
    cases h1 : mcl_absorb tnum anum st w with
    | none => rw [h1] at h; simp at h
    | some st1 =>
      rw [h1] at h
      simp only [] at h
      obtain ⟨a1, a2, a3⟩ := mcl_absorb_frame tnum anum st st1 w h1
      obtain ⟨b1, b2, b3⟩ := ih st1 st' h
      exact ⟨fun q hq => b1 q (a1 q hq), fun t a hne => (b2 t a hne).trans (a2 t a hne),
        b3.trans a3⟩

theorem mcl_emit_frame (cmin cminchr : Nat) (nibthreshold : ℚ) (st : MclState) (acc : Atom) :
    (mcl_emit cmin cminchr nibthreshold st acc).used = st.used
    ∧ (mcl_emit cmin cminchr nibthreshold st acc).atomcats = st.atomcats
    ∧ ∃ tail, (mcl_emit cmin cminchr nibthreshold st acc).ostr = st.ostr ++ tail := by
  unfold mcl_emit mcl_print
  split_ifs
  · exact ⟨rfl, rfl, _, rfl⟩
  · exact ⟨rfl, rfl, [], (List.append_nil _).symm⟩
  · exact ⟨rfl, rfl, _, rfl⟩
  · exact ⟨rfl, rfl, [], (List.append_nil _).symm⟩

/-- What one line of the cluster file leaves alone: the set `used` only grows, a place that
is not in `used` afterwards holds the record it held before, and `ostr` is only appended
to. -/
theorem mcl_words_frame (cmin cminchr : Nat) (nibthreshold : ℚ) (st st' : MclState)
    (words : List String) (h : mcl_words cmin cminchr nibthreshold st words = some st') :
    (∀ q ∈ st.used, q ∈ st'.used)
    ∧ (∀ t a : Nat, (∀ q ∈ st'.used, (int_of_ulong q.1, q.2) ≠ (int_of_ulong t, a)) →
        bins_get st'.atomcats t a = bins_get st.atomcats t a)
    ∧ ∃ tail, st'.ostr = st.ostr ++ tail := by
  unfold mcl_words at h
  cases words with
  | nil =>
    simp only [Option.some.injEq] at h
    subst h
    exact ⟨fun q hq => hq, fun t a _ => rfl, [], (List.append_nil _).symm⟩
  | cons w0 ws =>
    simp only [] at h
    cases hres : resolve w0 with
    | none => rw [hres] at h; simp at h
    | some p =>
      obtain ⟨tnum, anum⟩ := p
      rw [hres] at h
      simp only [] at h
      cases hg : bins_get st.atomcats tnum anum with
      | none => rw [hg] at h; simp at h
      | some r =>
        rw [hg] at h
        simp only [] at h
        cases hall : mcl_absorb_all tnum anum
            { st with used := st.used.insert (tnum, anum) } ws with
        | none => rw [hall] at h; simp at h
        | some st2 =>
          rw [hall] at h
          simp only [] at h
          cases hg2 : bins_get st2.atomcats tnum anum with
          | none => rw [hg2] at h; simp at h
          | some acc =>
            rw [hg2] at h
            simp only [Option.some.injEq] at h
            subst h
            obtain ⟨a1, a2, a3⟩ := mcl_absorb_all_frame tnum anum ws _ st2 hall
            obtain ⟨e1, e2, tail, e3⟩ := mcl_emit_frame cmin cminchr nibthreshold st2 acc
            refine ⟨?_, ?_, tail, ?_⟩
            · intro q hq
              rw [e1]
              exact a1 q (List.mem_insert_iff.mpr (Or.inr hq))
            · intro t a hun
              rw [e1] at hun
              rw [e2]
              have hin : (tnum, anum) ∈ st2.used :=
                a1 (tnum, anum) (List.mem_insert_iff.mpr (Or.inl rfl))
              exact a2 t a (fun he => hun (tnum, anum) hin he.symm)
            · rw [e3, a3]

theorem mcl_groups_frame (cmin cminchr : Nat) (nibthreshold : ℚ) :
    ∀ (lines : List String) (st st' : MclState),
      mcl_groups cmin cminchr nibthreshold st lines = some st' →
      (∀ q ∈ st.used, q ∈ st'.used)
      ∧ (∀ t a : Nat, (∀ q ∈ st'.used, (int_of_ulong q.1, q.2) ≠ (int_of_ulong t, a)) →
          bins_get st'.atomcats t a = bins_get st.atomcats t a)
      ∧ ∃ tail, st'.ostr = st.ostr ++ tail := by
  intro lines
  induction lines with
  | nil =>
    intro st st' h
    simp only [mcl_groups, Option.some.injEq] at h
    subst h
    exact ⟨fun q hq => hq, fun t a _ => rfl, [], (List.append_nil _).symm⟩
  | cons line lines ih =>
    intro st st' h
    simp only [mcl_groups] at h
    cases h1 : mcl_group cmin cminchr nibthreshold st line with
    | none => rw [h1] at h; simp at h
    | some st1 =>
      rw [h1] at h
      simp only [] at h
      obtain ⟨a1, a2, t1, a3⟩ := mcl_words_frame cmin cminchr nibthreshold st st1 _ h1
      obtain ⟨b1, b2, t2, b3⟩ := ih st1 st' h
      refine ⟨fun q hq => b1 q (a1 q hq), ?_, t1 ++ t2, ?_⟩
      · intro t a hun
        rw [b2 t a hun]
        exact a2 t a (fun q hq => hun q (b1 q hq))
      · rw [b3, a3, List.append_assoc]

theorem foldl_ostr_prefix {α : Type} (f : MclState → α → MclState)
    (hf : ∀ s x, ∃ tail, (f s x).ostr = s.ostr ++ tail) :
    ∀ (l : List α) (s : MclState), ∃ tail, (l.foldl f s).ostr = s.ostr ++ tail := by
  intro l
  induction l with
  | nil => intro s; exact ⟨[], (List.append_nil _).symm⟩
  | cons x xs ih =>
    intro s
    obtain ⟨t1, h1⟩ := hf s x
    obtain ⟨t2, h2⟩ := ih (f s x)
    exact ⟨t1 ++ t2, by rw [List.foldl_cons, h2, h1, List.append_assoc]⟩

theorem mcl_flush_ostr (cmin cminchr : Nat) (nibthreshold : ℚ) (st : MclState) :
    ∃ tail, (mcl_flush cmin cminchr nibthreshold st).ostr = st.ostr ++ tail := by
  unfold mcl_flush
  split_ifs
  · apply foldl_ostr_prefix
    intro s cat
    unfold mcl_flush_bin
    apply foldl_ostr_prefix
    intro s' anum
    simp only [mcl_print]
    split_ifs <;> first | exact ⟨[], (List.append_nil _).symm⟩ | exact ⟨_, rfl⟩
  · exact ⟨[], (List.append_nil _).symm⟩

/-- One line of the cluster file inside a run of `mcl2atoms`.  The lines `pre` before it leave
the state `st`; its keys are pairwise distinct, each is the name of the record it resolves to
in the bins given to `mcl2atoms`, and no earlier line has named that record.  Then the line is
processed, the acceptor's place holds the accumulated record, that record goes through the
size and charge test, and `mcl2atoms` goes on with the lines `post` from there. -/
theorem mcl2atoms_group (atomcats : Bins) (pre post : List String) (line : String)
    (cmin cminchr : Nat) (nibthreshold : ℚ) (st : MclState) (w0 : String)
    (p0 : Nat × Nat) (r0 : Atom) (donors : List (String × (Nat × Nat) × Atom))
    (hpre : mcl_groups cmin cminchr nibthreshold ⟨atomcats, [], 0, []⟩ pre = some st)
    (hline : split_skip_empty '\t' line = w0 :: donors.map (fun d => d.1))
    (hkeys : (w0 :: donors.map (fun d => d.1)).Nodup)
    (h0 : resolve w0 = some p0 ∧ bins_get atomcats p0.1 p0.2 = some r0 ∧ r0.name = w0 ∧
      ∀ q ∈ st.used, (int_of_ulong q.1, q.2) ≠ (int_of_ulong p0.1, p0.2))
    (hd : ∀ d ∈ donors, resolve d.1 = some d.2.1 ∧
      bins_get atomcats d.2.1.1 d.2.1.2 = some d.2.2 ∧ d.2.2.name = d.1 ∧
      ∀ q ∈ st.used, (int_of_ulong q.1, q.2) ≠ (int_of_ulong d.2.1.1, d.2.1.2)) :
    ∃ st1 : MclState,
      mcl_groups cmin cminchr nibthreshold ⟨atomcats, [], 0, []⟩ (pre ++ [line])
        = some (mcl_emit cmin cminchr nibthreshold st1
            { r0 with
              posit := r0.posit ++ donors.flatMap (fun d => d.2.2.posit)
              charge := extreme_charge r0.charge (donors.map (fun d => d.2.2.charge)) }) ∧
      bins_get st1.atomcats p0.1 p0.2
        = some { r0 with
            posit := r0.posit ++ donors.flatMap (fun d => d.2.2.posit)
            charge := extreme_charge r0.charge (donors.map (fun d => d.2.2.charge)) } ∧
      st1.serial = st.serial ∧ st1.ostr = st.ostr ∧
      mcl2atoms (pre ++ line :: post) atomcats cmin cminchr nibthreshold
        = (mcl_groups cmin cminchr nibthreshold
            (mcl_emit cmin cminchr nibthreshold st1
              { r0 with
                posit := r0.posit ++ donors.flatMap (fun d => d.2.2.posit)
                charge := extreme_charge r0.charge (donors.map (fun d => d.2.2.charge)) })
            post).map (mcl_flush cmin cminchr nibthreshold) := by
  obtain ⟨_, hfr, _⟩ := mcl_groups_frame cmin cminchr nibthreshold pre _ st hpre
  have hr0 : bins_get st.atomcats p0.1 p0.2 = some r0 := by
    rw [hfr p0.1 p0.2 h0.2.2.2]; exact h0.2.1
  have hd' : ∀ d ∈ donors, resolve d.1 = some d.2.1 ∧
      bins_get st.atomcats d.2.1.1 d.2.1.2 = some d.2.2 := by
    intro d hdm
    obtain ⟨h1, h2, _, h4⟩ := hd d hdm
    exact ⟨h1, by rw [hfr d.2.1.1 d.2.1.2 h4]; exact h2⟩
  have hnodup : ((int_of_ulong p0.1, p0.2) ::
      donors.map (fun d => (int_of_ulong d.2.1.1, d.2.1.2))).Nodup := by
    have := group_places_nodup atomcats ((w0, p0, r0) :: donors)
      (by
        intro g hg
        rcases List.mem_cons.mp hg with hg | hg
        · subst hg; exact ⟨h0.2.1, h0.2.2.1⟩
        · exact ⟨(hd g hg).2.1, (hd g hg).2.2.1⟩)
      (by simpa using hkeys)
    simpa using this
  obtain ⟨st1, hrun, hacc, hser, hostr⟩ :=
    mcl_words_spec cmin cminchr nibthreshold st w0 p0 r0 donors h0.1 hr0 hd' hnodup
  have hgroup : mcl_group cmin cminchr nibthreshold st line
      = some (mcl_emit cmin cminchr nibthreshold st1
          { r0 with
            posit := r0.posit ++ donors.flatMap (fun d => d.2.2.posit)
            charge := extreme_charge r0.charge (donors.map (fun d => d.2.2.charge)) }) := by
    unfold mcl_group
    rw [hline]
    exact hrun
  refine ⟨st1, ?_, hacc, hser, hostr, ?_⟩
  · rw [mcl_groups_append, hpre]
    simp only [Option.bind, mcl_groups, hgroup]
  · unfold mcl2atoms
    rw [if_pos (by simp), mcl_groups_append, hpre]
    simp only [Option.bind, mcl_groups, hgroup]
    cases mcl_groups cmin cminchr nibthreshold _ post <;> rfl

/-- C19: a group is a line of the cluster file given to `mcl2atoms`; its keys are pairwise
distinct, each is the identity key (the name) of the record it resolves to in the bins given
to `mcl2atoms`, and no earlier line has named that record.  Then `mcl2atoms` processes the
line, and afterwards the acceptor's place holds a record whose position list is the
concatenation of the position lists of the group's records in group order; the acceptor is
printed (under the next serial) exactly when `(|charge| ≤ nibthreshold and cmin ≤ N) or
(|charge| > nibthreshold and cminchr ≤ N)`, with the accumulated charge and the accumulated
position count `N`, which is the number of keys when every record of the group holds one
position; `mcl2atoms` goes on with the remaining lines from that state, and what it writes
out begins with the records printed so far. -/
theorem import_group (atomcats : Bins) (pre post : List String) (line : String)
    (cmin cminchr : Nat) (nibthreshold : ℚ) (st : MclState) (w0 : String)
    (p0 : Nat × Nat) (r0 : Atom) (donors : List (String × (Nat × Nat) × Atom))
    (hpre : mcl_groups cmin cminchr nibthreshold ⟨atomcats, [], 0, []⟩ pre = some st)
    (hline : split_skip_empty '\t' line = w0 :: donors.map (fun d => d.1))
    (hkeys : (w0 :: donors.map (fun d => d.1)).Nodup)
    (h0 : resolve w0 = some p0 ∧ bins_get atomcats p0.1 p0.2 = some r0 ∧ r0.name = w0 ∧
      ∀ q ∈ st.used, (int_of_ulong q.1, q.2) ≠ (int_of_ulong p0.1, p0.2))
    (hd : ∀ d ∈ donors, resolve d.1 = some d.2.1 ∧
      bins_get atomcats d.2.1.1 d.2.1.2 = some d.2.2 ∧ d.2.2.name = d.1 ∧
      ∀ q ∈ st.used, (int_of_ulong q.1, q.2) ≠ (int_of_ulong d.2.1.1, d.2.1.2)) :
    ∃ (st' : MclState) (acc : Atom),
      mcl_groups cmin cminchr nibthreshold ⟨atomcats, [], 0, []⟩ (pre ++ [line]) = some st' ∧
      bins_get st'.atomcats p0.1 p0.2 = some acc ∧
      acc.posit = r0.posit ++ donors.flatMap (fun d => d.2.2.posit) ∧
      st'.ostr = st.ostr ++
        (if (|acc.charge| ≤ nibthreshold ∧ cmin ≤ acc.posit.length) ∨
            (nibthreshold < |acc.charge| ∧ cminchr ≤ acc.posit.length)
         then [(st.serial + 1, acc)] else []) ∧
      (r0.posit.length = 1 → (∀ d ∈ donors, d.2.2.posit.length = 1) →
        acc.posit.length = donors.length + 1) ∧
      mcl2atoms (pre ++ line :: post) atomcats cmin cminchr nibthreshold
        = (mcl_groups cmin cminchr nibthreshold st' post).map
            (mcl_flush cmin cminchr nibthreshold) ∧
      (∀ out : MclState,
        mcl2atoms (pre ++ line :: post) atomcats cmin cminchr nibthreshold = some out →
        ∃ tail, out.ostr = st'.ostr ++ tail) := by
  obtain ⟨st1, hrun, hacc, hser, hostr, hfin⟩ :=
    mcl2atoms_group atomcats pre post line cmin cminchr nibthreshold st w0 p0 r0 donors
      hpre hline hkeys h0 hd
  refine ⟨_, ({ r0 with
      posit := r0.posit ++ donors.flatMap (fun d => d.2.2.posit)
      charge := extreme_charge r0.charge (donors.map (fun d => d.2.2.charge)) } : Atom),
    hrun, ?_, rfl, ?_, ?_, hfin, ?_⟩
  · rw [(mcl_emit_ostr cmin cminchr nibthreshold st1 _).1]
    exact hacc
  · rw [(mcl_emit_ostr cmin cminchr nibthreshold st1 _).2, hser, hostr]
  · intro h1 hall
    simp only [List.length_append, h1, List.length_flatMap]
    have : (List.map (List.length ∘ fun d : String × (Nat × Nat) × Atom => d.2.2.posit)
        donors).sum = donors.length := by
      clear hd hkeys hline hrun hacc hfin
      induction donors with
      | nil => rfl
      | cons d ds ih =>
        simp only [List.map_cons, List.sum_cons, List.length_cons, Function.comp]
        simp only [Function.comp] at ih
        rw [hall d (List.mem_cons_self _ _), ih (fun d hd => hall d (List.mem_cons_of_mem _ hd))]
        omega
    omega
  · intro out hout
    rw [hfin] at hout
    cases hN : mcl_groups cmin cminchr nibthreshold
        (mcl_emit cmin cminchr nibthreshold st1
          { r0 with
            posit := r0.posit ++ donors.flatMap (fun d => d.2.2.posit)
            charge := extreme_charge r0.charge (donors.map (fun d => d.2.2.charge)) })
        post with
    | none => rw [hN] at hout; simp at hout
    | some stN =>
      rw [hN] at hout
      simp only [Option.map_some', Option.some.injEq] at hout
      subst hout
      obtain ⟨_, _, t1, h1⟩ := mcl_groups_frame cmin cminchr nibthreshold post _ stN hN
      obtain ⟨t2, h2⟩ := mcl_flush_ostr cmin cminchr nibthreshold stN
      exact ⟨t1 ++ t2, by rw [h2, h1, List.append_assoc]⟩

theorem import_group_witness :
    ∃ (st' : MclState) (acc : Atom),
      mcl_groups 1 1 (1 / 5) ⟨groupBins, [], 0, []⟩ (["0_2_C3"] ++ ["0_0_C1\t0_1_C2"])
        = some st' ∧
      bins_get st'.atomcats 0 0 = some acc ∧
      acc.posit = importAcceptor.posit ++ importDonors.flatMap (fun d => d.2.2.posit) ∧
      st'.ostr = groupState.ostr ++
        (if (|acc.charge| ≤ 1 / 5 ∧ 1 ≤ acc.posit.length) ∨
            (1 / 5 < |acc.charge| ∧ 1 ≤ acc.posit.length)
         then [(groupState.serial + 1, acc)] else []) ∧
      (importAcceptor.posit.length = 1 → (∀ d ∈ importDonors, d.2.2.posit.length = 1) →
        acc.posit.length = importDonors.length + 1) ∧
      mcl2atoms (["0_2_C3"] ++ "0_0_C1\t0_1_C2" :: []) groupBins 1 1 (1 / 5)
        = (mcl_groups 1 1 (1 / 5) st' []).map (mcl_flush 1 1 (1 / 5)) ∧
      (∀ out : MclState,
        mcl2atoms (["0_2_C3"] ++ "0_0_C1\t0_1_C2" :: []) groupBins 1 1 (1 / 5) = some out →
        ∃ tail, out.ostr = st'.ostr ++ tail) :=
  import_group groupBins ["0_2_C3"] [] "0_0_C1\t0_1_C2" 1 1 (1 / 5) groupState "0_0_C1" (0, 0)
    importAcceptor importDonors
    (by with_unfolding_all decide) (by with_unfolding_all decide)
    (by with_unfolding_all decide)
    (by refine ⟨?_, ?_, ?_, ?_⟩ <;> with_unfolding_all decide)
    (by
      intro d hd
      simp only [importDonors, List.mem_singleton] at hd
      subst hd
      refine ⟨?_, ?_, ?_, ?_⟩ <;> with_unfolding_all decide)

/-- C20: a group is a line of the cluster file given to `mcl2atoms`; its keys are pairwise
distinct, each is the identity key (the name) of the record it resolves to in the bins given
to `mcl2atoms`, and no earlier line has named that record.  After `mcl2atoms` has processed
the line, the charge of the record at the acceptor's place is the charge of the first record,
in group order, whose absolute charge is the largest of the group; `mcl2atoms` goes on with
the remaining lines from that state. -/
theorem import_charge_law (atomcats : Bins) (pre post : List String) (line : String)
    (cmin cminchr : Nat) (nibthreshold : ℚ) (st : MclState) (w0 : String)
    (p0 : Nat × Nat) (r0 : Atom) (donors : List (String × (Nat × Nat) × Atom))
    (hpre : mcl_groups cmin cminchr nibthreshold ⟨atomcats, [], 0, []⟩ pre = some st)
    (hline : split_skip_empty '\t' line = w0 :: donors.map (fun d => d.1))
    (hkeys : (w0 :: donors.map (fun d => d.1)).Nodup)
    (h0 : resolve w0 = some p0 ∧ bins_get atomcats p0.1 p0.2 = some r0 ∧ r0.name = w0 ∧
      ∀ q ∈ st.used, (int_of_ulong q.1, q.2) ≠ (int_of_ulong p0.1, p0.2))
    (hd : ∀ d ∈ donors, resolve d.1 = some d.2.1 ∧
      bins_get atomcats d.2.1.1 d.2.1.2 = some d.2.2 ∧ d.2.2.name = d.1 ∧
      ∀ q ∈ st.used, (int_of_ulong q.1, q.2) ≠ (int_of_ulong d.2.1.1, d.2.1.2)) :
    ∃ (st' : MclState) (acc : Atom),
      mcl_groups cmin cminchr nibthreshold ⟨atomcats, [], 0, []⟩ (pre ++ [line]) = some st' ∧
      bins_get st'.atomcats p0.1 p0.2 = some acc ∧
      (∃ i : Nat,
        (r0.charge :: donors.map (fun d => d.2.2.charge))[i]? = some acc.charge ∧
        (∀ (j : Nat) (c : ℚ), (r0.charge :: donors.map (fun d => d.2.2.charge))[j]? = some c →
          |c| ≤ |acc.charge|) ∧
        (∀ (j : Nat) (c : ℚ), (r0.charge :: donors.map (fun d => d.2.2.charge))[j]? = some c →
          j < i → |c| < |acc.charge|)) ∧
      mcl2atoms (pre ++ line :: post) atomcats cmin cminchr nibthreshold
        = (mcl_groups cmin cminchr nibthreshold st' post).map
            (mcl_flush cmin cminchr nibthreshold) := by
  obtain ⟨st1, hrun, hacc, _, _, hfin⟩ :=
    mcl2atoms_group atomcats pre post line cmin cminchr nibthreshold st w0 p0 r0 donors
      hpre hline hkeys h0 hd
  refine ⟨_, ({ r0 with
      posit := r0.posit ++ donors.flatMap (fun d => d.2.2.posit)
      charge := extreme_charge r0.charge (donors.map (fun d => d.2.2.charge)) } : Atom),
    hrun, ?_, ?_, hfin⟩
  · rw [(mcl_emit_ostr cmin cminchr nibthreshold st1 _).1]
    exact hacc
  · exact extreme_charge_first_max r0.charge (donors.map (fun d => d.2.2.charge))

theorem import_charge_law_witness :
    ∃ (st' : MclState) (acc : Atom),
      mcl_groups 1 1 (1 / 5) ⟨groupBins, [], 0, []⟩ (["0_2_C3"] ++ ["0_0_C1\t0_1_C2"])
        = some st' ∧
      bins_get st'.atomcats 0 0 = some acc ∧
      (∃ i : Nat,
        (importAcceptor.charge :: importDonors.map (fun d => d.2.2.charge))[i]?
          = some acc.charge ∧
        (∀ (j : Nat) (c : ℚ),
          (importAcceptor.charge :: importDonors.map (fun d => d.2.2.charge))[j]? = some c →
          |c| ≤ |acc.charge|) ∧
        (∀ (j : Nat) (c : ℚ),
          (importAcceptor.charge :: importDonors.map (fun d => d.2.2.charge))[j]? = some c →
          j < i → |c| < |acc.charge|)) ∧
      mcl2atoms (["0_2_C3"] ++ "0_0_C1\t0_1_C2" :: ["0_2_C3"]) groupBins 1 1 (1 / 5)
        = (mcl_groups 1 1 (1 / 5) st' ["0_2_C3"]).map (mcl_flush 1 1 (1 / 5)) :=
  import_charge_law groupBins ["0_2_C3"] ["0_2_C3"] "0_0_C1\t0_1_C2" 1 1 (1 / 5) groupState
    "0_0_C1" (0, 0) importAcceptor importDonors
    (by with_unfolding_all decide) (by with_unfolding_all decide)
    (by with_unfolding_all decide)
    (by refine ⟨?_, ?_, ?_, ?_⟩ <;> with_unfolding_all decide)
    (by
      intro d hd
      simp only [importDonors, List.mem_singleton] at hd
      subst hd
      refine ⟨?_, ?_, ?_, ?_⟩ <;> with_unfolding_all decide)

/-- The run of `mcl2atoms` on `groupBins` for the cluster file with the lines `0_2_C3` and
`0_0_C1 0_1_C2`: the third record is printed alone, then the first with the positions of the
first and the second and with the charge -0.2 of the second. -/
theorem mcl2atoms_example :
    (mcl2atoms ["0_2_C3", "0_0_C1\t0_1_C2"] groupBins 1 1 (1 / 5)).map (fun st => st.ostr)
      = some [(1, ⟨"3", "0_2_C3", [⟨5, 0, 0⟩], "C.3", 0, false⟩),
              (2, ⟨"1", "0_0_C1", [⟨0, 0, 0⟩, ⟨1 / 2, 0, 0⟩], "C.3", -1 / 5, false⟩)] := by
  with_unfolding_all decide


/-! ## End to end: three records -/

theorem distmat_three (E : Env) (a0 a1 a2 : Atom) (similar : Bool) (chargediff : ℚ)
    (h01 : sametype E a0 a1 similar chargediff = true)
    (h02 : sametype E a0 a2 similar chargediff = true)
    (h12 : sametype E a1 a2 similar chargediff = true) :
    distmat E [a0, a1, a2] similar chargediff
      = [sentinel, distance E a0 a1, distance E a0 a2, sentinel, sentinel, distance E a1 a2,
          sentinel, sentinel, sentinel] := by
  simp [distmat, fill_row, List.range_succ, List.range', h01, h02, h12, List.replicate]

theorem distmat_two (E : Env) (a0 a1 : Atom) (similar : Bool) (chargediff : ℚ)
    (h01 : sametype E a0 a1 similar chargediff = true) :
    distmat E [a0, a1] similar chargediff
      = [sentinel, distance E a0 a1, sentinel, sentinel] := by
  simp [distmat, fill_row, List.range_succ, List.range', h01, List.replicate]


theorem pos_single (a : Atom) (p : Point) (h : a.posit = [p]) : a.pos = p := by
  simp [Atom.pos, h, Point.add, Point.zero, Point.div]

theorem pos_pair (a : Atom) (p q : Point) (h : a.posit = [p, q]) :
    a.pos = ⟨(p.x + q.x) / 2, (p.y + q.y) / 2, (p.z + q.z) / 2⟩ := by
  simp [Atom.pos, h, Point.add, Point.zero, Point.div]

theorem sametype_same (E : Env) (a b : Atom) (similar : Bool) (tol : ℚ) (ht : a.type = b.type)
    (hc : a.charge = b.charge) (htol : 0 ≤ tol) : sametype E a b similar tol = true := by
  unfold sametype
  have h0 : ¬ tol < |a.charge - b.charge| := by
    rw [hc, sub_self, abs_zero]; exact not_lt.mpr htol
  rw [if_neg h0, ht]
  cases similar <;> cases E.atomtypes b.type <;> simp

theorem dot_self_nonneg (p : Point) : 0 ≤ dot p p := by
  unfold dot
  nlinarith [mul_self_nonneg p.x, mul_self_nonneg p.y, mul_self_nonneg p.z]

theorem midpoint_bound (a b c : Point) :
    dot ((⟨(a.x + b.x) / 2, (a.y + b.y) / 2, (a.z + b.z) / 2⟩ : Point).sub c)
        ((⟨(a.x + b.x) / 2, (a.y + b.y) / 2, (a.z + b.z) / 2⟩ : Point).sub c)
      ≤ (dot (a.sub c) (a.sub c) + dot (b.sub c) (b.sub c)) / 2 := by
  have h := dot_self_nonneg (a.sub b)
  simp only [dot, Point.sub] at h ⊢
  nlinarith [h]

theorem min_element_two (e : ℚ) (h : e < sentinel) :
    min_element [sentinel, e, sentinel, sentinel] = (1, e) := by
  simp [min_element, min_element_from, h, not_lt.mpr (le_of_lt h)]

theorem min_element_three_first (x y z : ℚ) (hx : x < sentinel) (hy : x ≤ y) (hz : x ≤ z) :
    min_element [sentinel, x, y, sentinel, sentinel, z, sentinel, sentinel, sentinel]
      = (1, x) := by
  simp [min_element, min_element_from, hx, not_lt.mpr (le_of_lt hx), not_lt.mpr hy,
    not_lt.mpr hz]

theorem min_element_three_second (x y z : ℚ) (hx : x < sentinel) (hy : y < x) (hz : y ≤ z) :
    min_element [sentinel, x, y, sentinel, sentinel, z, sentinel, sentinel, sentinel]
      = (2, y) := by
  have hys : y < sentinel := lt_trans hy hx
  simp [min_element, min_element_from, hx, hy, not_lt.mpr (le_of_lt hys), not_lt.mpr hz]

theorem merge_round_fuses (E : Env) (atoms : List Atom) (cutoff : ℚ) (similar : Bool)
    (chargediff : ℚ) (cutmap : CutMap) (pos : Nat) (best : ℚ)
    (hn : nearest E atoms similar chargediff = (pos, best)) (hcut : ∀ t, cutmap t = none)
    (hb : best ≤ cutoff) :
    merge_round E atoms cutoff similar chargediff cutmap
      = some (fuse atoms (pos / atoms.length) (pos % atoms.length)) := by
  unfold merge_round round_limit
  simp only [hn, resolve_limit_empty cutoff cutmap hcut, if_neg (not_lt.mpr hb)]

theorem fuse_three_second (a0 a1 a2 : Atom) (h0 : a0.charge = 0) (h1 : a1.charge = 0) :
    fuse [a0, a1, a2] 0 1 = [{ a0 with posit := a0.posit ++ a1.posit }, a2] := by
  simp [fuse, absorb, h0, h1]

theorem fuse_three_third (a0 a1 a2 : Atom) (h0 : a0.charge = 0) (h2 : a2.charge = 0) :
    fuse [a0, a1, a2] 0 2 = [{ a0 with posit := a0.posit ++ a2.posit }, a1] := by
  simp [fuse, absorb, h0, h2]

theorem fuse_two (a0 a1 : Atom) (h0 : a0.charge = 0) (h1 : a1.charge = 0) :
    fuse [a0, a1] 0 1 = [{ a0 with posit := a0.posit ++ a1.posit }] := by
  simp [fuse, absorb, h0, h1]


theorem distance_mono (E : Env) (a b : Atom) (p q : Point) (ha : a.posit = [p])
    (hb : b.posit = [q]) : distance E a b = E.sqrt (dot (p.sub q) (p.sub q)) * 2 := by
  simp [distance, Atom.mono, ha, hb, pos_single a p ha, pos_single b q hb]

theorem dot_sub_comm (p q : Point) : dot (q.sub p) (q.sub p) = dot (p.sub q) (p.sub q) := by
  simp only [dot, Point.sub]
  ring

theorem merge_pair (E : Env) (a b : Atom) (pa pb pc : Point) (cutoff : ℚ) (similar : Bool)
    (cutmap : CutMap) (fuel : Nat) (hpa : a.posit = [pa, pb]) (hpb : b.posit = [pc])
    (ht : a.type = b.type) (hca : a.charge = 0) (hcb : b.charge = 0)
    (hcut : ∀ t, cutmap t = none) (hcs : cutoff < sentinel)
    (hd : E.sqrt
        (dot ((⟨(pa.x + pb.x) / 2, (pa.y + pb.y) / 2, (pa.z + pb.z) / 2⟩ : Point).sub pc)
          ((⟨(pa.x + pb.x) / 2, (pa.y + pb.y) / 2, (pa.z + pb.z) / 2⟩ : Point).sub pc))
      ≤ cutoff) :
    merge_loop E cutoff similar (1 / 5) cutmap (fuel + 1) [a, b]
      = [{ a with posit := [pa, pb, pc] }] := by
  have hs : sametype E a b similar (1 / 5) = true :=
    sametype_same E a b similar (1 / 5) ht (by rw [hca, hcb]) (by norm_num)
  have hmono : a.mono = false := by simp [Atom.mono, hpa]
  have hdist : distance E a b
      = E.sqrt
        (dot ((⟨(pa.x + pb.x) / 2, (pa.y + pb.y) / 2, (pa.z + pb.z) / 2⟩ : Point).sub pc)
          ((⟨(pa.x + pb.x) / 2, (pa.y + pb.y) / 2, (pa.z + pb.z) / 2⟩ : Point).sub pc)) := by
    unfold distance
    simp only [hmono, Bool.false_and, Bool.false_eq_true, if_false, pos_pair a pa pb hpa,
      pos_single b pc hpb]
  have hn : nearest E [a, b] similar (1 / 5) = (1, distance E a b) := by
    unfold nearest
    rw [distmat_two E a b similar (1 / 5) hs]
    exact min_element_two _ (by rw [hdist]; exact lt_of_le_of_lt hd hcs)
  have hr := merge_round_fuses E [a, b] cutoff similar (1 / 5) cutmap 1 (distance E a b) hn hcut
    (by rw [hdist]; exact hd)
  have hf : fuse [a, b] (1 / [a, b].length) (1 % [a, b].length)
      = [{ a with posit := [pa, pb, pc] }] := by
    have : fuse [a, b] (1 / [a, b].length) (1 % [a, b].length) = fuse [a, b] 0 1 := by
      simp
    rw [this, fuse_two a b hca hcb, hpa, hpb]
    rfl
  rw [hf] at hr
  unfold merge_loop
  simp only [List.length_cons, List.length_nil, hr]
  cases fuel <;> simp [merge_loop]


theorem floorSqrt_upper (x y : ℚ) (hy : 0 ≤ y) (hxy : x ≤ y * y) : floorSqrt x ≤ y := by
  unfold floorSqrt
  by_cases hk : Nat.findGreatest (fun k : Nat => ((k : ℚ) / 100) * ((k : ℚ) / 100) ≤ x) 200 = 0
  · rw [hk]; simpa using hy
  · have hP := Nat.findGreatest_of_ne_zero rfl hk
    simp only at hP
    by_contra hc
    have hlt := mul_self_lt_mul_self hy (not_le.mp hc)
    exact absurd (lt_of_lt_of_le hlt (le_trans hP hxy)) (lt_irrefl _)

theorem floorSqrt_lower (x : ℚ) (_hx : 0 ≤ x) (h1 : floorSqrt x ≤ 1) :
    x ≤ (floorSqrt x + 1 / 100) * (floorSqrt x + 1 / 100) := by
  unfold floorSqrt at h1 ⊢
  generalize hk :
    Nat.findGreatest (fun k : Nat => ((k : ℚ) / 100) * ((k : ℚ) / 100) ≤ x) 200 = k at h1 ⊢
  have hk100 : k ≤ 100 := by
    have : (k : ℚ) ≤ 100 := by linarith
    exact_mod_cast this
  have hnot := Nat.findGreatest_is_greatest (P := fun k : Nat =>
    ((k : ℚ) / 100) * ((k : ℚ) / 100) ≤ x) (n := 200) (k := k + 1) (by rw [hk]; omega)
    (by omega)
  simp only [not_le] at hnot
  have e : ((k + 1 : Nat) : ℚ) / 100 = (k : ℚ) / 100 + 1 / 100 := by
    push_cast; ring
  rw [e] at hnot
  exact le_of_lt hnot

/-- C11: for three single-position records of one type and zero charge whose pairwise
Euclidean distances are 0.3, 0.3 and 0.55 in any assignment to the three pairs, with an empty
cutoff table, default cutoff 1.1, charge tolerance 0.2 and `cmin = cminchr = 1`,
`internal_merge` returns exactly one record, and that record holds the three input positions.
The square root is any function that is not above `y` on arguments up to `y * y` and is within
0.01 below the root where its value is at most 1, as the real square root is. -/
theorem end_to_end_merge (E : Env) (a0 a1 a2 : Atom) (p0 p1 p2 : Point) (similar : Bool)
    (nibthreshold : ℚ) (cutmap : CutMap)
    (hup : ∀ x y : ℚ, 0 ≤ y → x ≤ y * y → E.sqrt x ≤ y)
    (hlow : ∀ x : ℚ, 0 ≤ x → E.sqrt x ≤ 1 →
      x ≤ (E.sqrt x + 1 / 100) * (E.sqrt x + 1 / 100))
    (hp0 : a0.posit = [p0]) (hp1 : a1.posit = [p1]) (hp2 : a2.posit = [p2])
    (ht1 : a1.type = a0.type) (ht2 : a2.type = a0.type)
    (hc0 : a0.charge = 0) (hc1 : a1.charge = 0) (hc2 : a2.charge = 0)
    (hcut : ∀ t, cutmap t = none)
    (hdist :
      (E.sqrt (dot (p0.sub p1) (p0.sub p1)) = 3 / 10 ∧
        E.sqrt (dot (p0.sub p2) (p0.sub p2)) = 3 / 10 ∧
        E.sqrt (dot (p1.sub p2) (p1.sub p2)) = 11 / 20) ∨
      (E.sqrt (dot (p0.sub p1) (p0.sub p1)) = 3 / 10 ∧
        E.sqrt (dot (p0.sub p2) (p0.sub p2)) = 11 / 20 ∧
        E.sqrt (dot (p1.sub p2) (p1.sub p2)) = 3 / 10) ∨
      (E.sqrt (dot (p0.sub p1) (p0.sub p1)) = 11 / 20 ∧
        E.sqrt (dot (p0.sub p2) (p0.sub p2)) = 3 / 10 ∧
        E.sqrt (dot (p1.sub p2) (p1.sub p2)) = 3 / 10)) :
    ∃ r : Atom,
      internal_merge E [a0, a1, a2] 1 1 nibthreshold (11 / 10) similar (1 / 5) cutmap = [r] ∧
      r.posit.Perm [p0, p1, p2] := by
  have hs01 : sametype E a0 a1 similar (1 / 5) = true :=
    sametype_same E a0 a1 similar (1 / 5) ht1.symm (by rw [hc0, hc1]) (by norm_num)
  have hs02 : sametype E a0 a2 similar (1 / 5) = true :=
    sametype_same E a0 a2 similar (1 / 5) ht2.symm (by rw [hc0, hc2]) (by norm_num)
  have hs12 : sametype E a1 a2 similar (1 / 5) = true :=
    sametype_same E a1 a2 similar (1 / 5) (ht1.trans ht2.symm) (by rw [hc1, hc2]) (by norm_num)
  have hsent : (11 / 10 : ℚ) < sentinel := by unfold sentinel; norm_num
  have hbound : ∀ p q : Point,
      (E.sqrt (dot (p.sub q) (p.sub q)) = 3 / 10 ∨ E.sqrt (dot (p.sub q) (p.sub q)) = 11 / 20) →
      dot (p.sub q) (p.sub q) ≤ 3136 / 10000 := by
    intro p q h
    have h1 := hlow _ (dot_self_nonneg (p.sub q)) (by rcases h with h | h <;> rw [h] <;> norm_num)
    rcases h with h | h
    · rw [h] at h1; norm_num at h1; linarith
    · rw [h] at h1; norm_num at h1; linarith
  have hmid : ∀ pa pb pc : Point, dot (pa.sub pc) (pa.sub pc) ≤ 3136 / 10000 →
      dot (pb.sub pc) (pb.sub pc) ≤ 3136 / 10000 →
      E.sqrt
        (dot ((⟨(pa.x + pb.x) / 2, (pa.y + pb.y) / 2, (pa.z + pb.z) / 2⟩ : Point).sub pc)
          ((⟨(pa.x + pb.x) / 2, (pa.y + pb.y) / 2, (pa.z + pb.z) / 2⟩ : Point).sub pc))
        ≤ 11 / 10 := by
    intro pa pb pc h1 h2
    apply hup _ _ (by norm_num)
    have := midpoint_bound pa pb pc
    norm_num
    linarith
  have hfilter : ∀ r : Atom, r.posit.length = 3 →
      List.filter (fun x => !small_charged 1 nibthreshold x)
        (List.filter (fun x => !small_neutral 1 nibthreshold x) [r]) = [r] := by
    intro r hr
    have hne : r.posit ≠ [] := by
      intro h
      rw [h] at hr
      simp at hr
    simp [small_neutral, small_charged, hne]
  have hd01 := distance_mono E a0 a1 p0 p1 hp0 hp1
  have hd02 := distance_mono E a0 a2 p0 p2 hp0 hp2
  have hd12 := distance_mono E a1 a2 p1 p2 hp1 hp2
  have hmat := distmat_three E a0 a1 a2 similar (1 / 5) hs01 hs02 hs12
  have first : E.sqrt (dot (p0.sub p1) (p0.sub p1)) = 3 / 10 →
      (E.sqrt (dot (p0.sub p2) (p0.sub p2)) = 3 / 10 ∨
        E.sqrt (dot (p0.sub p2) (p0.sub p2)) = 11 / 20) →
      (E.sqrt (dot (p1.sub p2) (p1.sub p2)) = 3 / 10 ∨
        E.sqrt (dot (p1.sub p2) (p1.sub p2)) = 11 / 20) →
      internal_merge E [a0, a1, a2] 1 1 nibthreshold (11 / 10) similar (1 / 5) cutmap
        = [{ a0 with posit := [p0, p1, p2] }] := by
    intro e01 e02 e12
    have hn : nearest E [a0, a1, a2] similar (1 / 5) = (1, 3 / 5) := by
      unfold nearest
      rw [hmat, hd01, hd02, hd12, e01]
      have : (3 / 10 : ℚ) * 2 = 3 / 5 := by norm_num
      rw [this]
      apply min_element_three_first
      · unfold sentinel; norm_num
      · rcases e02 with h | h <;> rw [h] <;> norm_num
      · rcases e12 with h | h <;> rw [h] <;> norm_num
    have hr := merge_round_fuses E [a0, a1, a2] (11 / 10) similar (1 / 5) cutmap 1 (3 / 5) hn
      hcut (by norm_num)
    have hf : fuse [a0, a1, a2] (1 / [a0, a1, a2].length) (1 % [a0, a1, a2].length)
        = [{ a0 with posit := [p0, p1] }, a2] := by
      have : fuse [a0, a1, a2] (1 / [a0, a1, a2].length) (1 % [a0, a1, a2].length)
          = fuse [a0, a1, a2] 0 1 := by simp
      rw [this, fuse_three_second a0 a1 a2 hc0 hc1, hp0, hp1]
      rfl
    rw [hf] at hr
    have hloop := merge_pair E { a0 with posit := [p0, p1] } a2 p0 p1 p2 (11 / 10) similar cutmap
      1 rfl hp2 ht2.symm hc0 hc2 hcut hsent
      (hmid p0 p1 p2 (hbound p0 p2 e02) (hbound p1 p2 e12))
    unfold internal_merge converged
    have hconv : merge_loop E (11 / 10) similar (1 / 5) cutmap [a0, a1, a2].length [a0, a1, a2]
        = [{ a0 with posit := [p0, p1, p2] }] := by
      show merge_loop E (11 / 10) similar (1 / 5) cutmap (2 + 1) [a0, a1, a2] = _
      unfold merge_loop
      simp only [List.length_cons, List.length_nil, hr]
      exact hloop
    simp only [hconv]
    exact hfilter _ rfl
  have third : E.sqrt (dot (p0.sub p1) (p0.sub p1)) = 11 / 20 →
      E.sqrt (dot (p0.sub p2) (p0.sub p2)) = 3 / 10 →
      E.sqrt (dot (p1.sub p2) (p1.sub p2)) = 3 / 10 →
      internal_merge E [a0, a1, a2] 1 1 nibthreshold (11 / 10) similar (1 / 5) cutmap
        = [{ a0 with posit := [p0, p2, p1] }] := by
    intro e01 e02 e12
    have hn : nearest E [a0, a1, a2] similar (1 / 5) = (2, 3 / 5) := by
      unfold nearest
      rw [hmat, hd01, hd02, hd12, e01, e02, e12]
      have h1 : (3 / 10 : ℚ) * 2 = 3 / 5 := by norm_num
      have h2 : (11 / 20 : ℚ) * 2 = 11 / 10 := by norm_num
      rw [h1, h2]
      apply min_element_three_second
      · unfold sentinel; norm_num
      · norm_num
      · norm_num
    have hr := merge_round_fuses E [a0, a1, a2] (11 / 10) similar (1 / 5) cutmap 2 (3 / 5) hn
      hcut (by norm_num)
    have hf : fuse [a0, a1, a2] (2 / [a0, a1, a2].length) (2 % [a0, a1, a2].length)
        = [{ a0 with posit := [p0, p2] }, a1] := by
      have : fuse [a0, a1, a2] (2 / [a0, a1, a2].length) (2 % [a0, a1, a2].length)
          = fuse [a0, a1, a2] 0 2 := by simp
      rw [this, fuse_three_third a0 a1 a2 hc0 hc2, hp0, hp2]
      rfl
    rw [hf] at hr
    have hb21 : dot (p2.sub p1) (p2.sub p1) ≤ 3136 / 10000 := by
      rw [dot_sub_comm p1 p2]
      exact hbound p1 p2 (Or.inl e12)
    have hloop := merge_pair E { a0 with posit := [p0, p2] } a1 p0 p2 p1 (11 / 10) similar cutmap
      1 rfl hp1 ht1.symm hc0 hc1 hcut hsent
      (hmid p0 p2 p1 (hbound p0 p1 (Or.inr e01)) hb21)
    unfold internal_merge converged
    have hconv : merge_loop E (11 / 10) similar (1 / 5) cutmap [a0, a1, a2].length [a0, a1, a2]
        = [{ a0 with posit := [p0, p2, p1] }] := by
      show merge_loop E (11 / 10) similar (1 / 5) cutmap (2 + 1) [a0, a1, a2] = _
      unfold merge_loop
      simp only [List.length_cons, List.length_nil, hr]
      exact hloop
    simp only [hconv]
    exact hfilter _ rfl
  rcases hdist with ⟨e01, e02, e12⟩ | ⟨e01, e02, e12⟩ | ⟨e01, e02, e12⟩
  · exact ⟨_, first e01 (Or.inl e02) (Or.inr e12), List.Perm.refl _⟩
  · exact ⟨_, first e01 (Or.inr e02) (Or.inl e12), List.Perm.refl _⟩
  · exact ⟨_, third e01 e02 e12, (List.Perm.swap p1 p2 []).cons p0⟩


theorem end_to_end_merge_witness :
    ∃ r : Atom,
      internal_merge floorEnv triangleBin 1 1 (1 / 5) (11 / 10) false (1 / 5) noCut = [r] ∧
      r.posit.Perm [⟨0, 0, 0⟩, ⟨11 / 20, 0, 0⟩, ⟨11 / 40, 3 / 25, 0⟩] :=
  end_to_end_merge floorEnv ⟨"1", "a", [⟨0, 0, 0⟩], "C.3", 0, false⟩
    ⟨"2", "b", [⟨11 / 20, 0, 0⟩], "C.3", 0, false⟩
    ⟨"3", "c", [⟨11 / 40, 3 / 25, 0⟩], "C.3", 0, false⟩
    ⟨0, 0, 0⟩ ⟨11 / 20, 0, 0⟩ ⟨11 / 40, 3 / 25, 0⟩ false (1 / 5) noCut
    floorSqrt_upper floorSqrt_lower rfl rfl rfl rfl rfl rfl rfl rfl (fun _ => rfl)
    (Or.inr (Or.inr ⟨by with_unfolding_all decide, by with_unfolding_all decide,
      by with_unfolding_all decide⟩))


/-! ## The pair of a round -/

theorem nearest_nil (E : Env) (similar : Bool) (chargediff : ℚ) :
    (nearest E [] similar chargediff).1 = 0 := by
  simp [nearest, distmat, min_element]

/-- The nearest position of a round either is position 0, the diagonal entry of record 0, or
names a pair `row < col` that passes `sametype` and whose distance is the nearest value. -/
theorem nearest_pair (E : Env) (atoms : List Atom) (similar : Bool) (chargediff : ℚ)
    (hne : (nearest E atoms similar chargediff).1 / atoms.length
      ≠ (nearest E atoms similar chargediff).1 % atoms.length) :
    (nearest E atoms similar chargediff).1 / atoms.length
        < (nearest E atoms similar chargediff).1 % atoms.length
    ∧ (nearest E atoms similar chargediff).1 % atoms.length < atoms.length
    ∧ sametype E
        (atoms.getD ((nearest E atoms similar chargediff).1 / atoms.length) default)
        (atoms.getD ((nearest E atoms similar chargediff).1 % atoms.length) default)
        similar chargediff = true
    ∧ (nearest E atoms similar chargediff).2
        = distance E
            (atoms.getD ((nearest E atoms similar chargediff).1 / atoms.length) default)
            (atoms.getD ((nearest E atoms similar chargediff).1 % atoms.length) default) := by
  rcases Nat.eq_zero_or_pos atoms.length with h0 | hn
  · exfalso
    have : atoms = [] := List.length_eq_zero.mp h0
    subst this
    apply hne
    rw [nearest_nil]
    rfl
  · have he := nearest_eq_entry E atoms similar chargediff hn
    unfold entry at he
    by_cases hc : (nearest E atoms similar chargediff).1 / atoms.length
          < (nearest E atoms similar chargediff).1 % atoms.length ∧
        sametype E
          (atoms.getD ((nearest E atoms similar chargediff).1 / atoms.length) default)
          (atoms.getD ((nearest E atoms similar chargediff).1 % atoms.length) default)
          similar chargediff = true
    · rw [if_pos hc] at he
      exact ⟨hc.1, Nat.mod_lt _ hn, hc.2, he⟩
    · exfalso
      rw [if_neg hc] at he
      rcases Nat.eq_zero_or_pos (nearest E atoms similar chargediff).1 with hp | hp
      · apply hne
        rw [hp]
        simp
      · have hlt := nearest_lt_entry E atoms similar chargediff 0 hp hn
        have h0 : entry E atoms similar chargediff 0 = sentinel := by
          unfold entry
          simp
        rw [h0, he] at hlt
        exact lt_irrefl _ hlt

theorem nearest_pair_of_lt (E : Env) (atoms : List Atom) (similar : Bool) (chargediff : ℚ)
    (hn : 0 < atoms.length) (hb : (nearest E atoms similar chargediff).2 < sentinel) :
    (nearest E atoms similar chargediff).1 / atoms.length
      ≠ (nearest E atoms similar chargediff).1 % atoms.length := by
  intro heq
  have he := nearest_eq_entry E atoms similar chargediff hn
  unfold entry at he
  rw [if_neg (fun h => absurd h.1 (by rw [heq]; exact lt_irrefl _))] at he
  rw [he] at hb
  exact lt_irrefl _ hb

theorem merge_round_some (E : Env) (atoms atoms' : List Atom) (cutoff : ℚ) (similar : Bool)
    (chargediff : ℚ) (cutmap : CutMap)
    (h : merge_round E atoms cutoff similar chargediff cutmap = some atoms') :
    atoms' = fuse atoms ((nearest E atoms similar chargediff).1 / atoms.length)
        ((nearest E atoms similar chargediff).1 % atoms.length)
    ∧ (nearest E atoms similar chargediff).2
        ≤ round_limit E atoms cutoff similar chargediff cutmap := by
  unfold merge_round at h
  simp only [] at h
  split_ifs at h with hlt
  exact ⟨(Option.some.inj h).symm, not_lt.mp hlt⟩

/-- C24: whatever the default cutoff and the cutoff table, when a round fuses the records at
`pos / size` and `pos % size` and these are two distinct places, the two records pass
`sametype` (and the acceptor comes first): a pair that fails the predicate holds the sentinel
in the matrix and is never the nearest entry, because position 0 holds the sentinel too and
comes before it. -/
theorem ineligible_never_fused (E : Env) (atoms atoms' : List Atom) (cutoff : ℚ)
    (similar : Bool) (chargediff : ℚ) (cutmap : CutMap)
    (hr : merge_round E atoms cutoff similar chargediff cutmap = some atoms')
    (hne : (nearest E atoms similar chargediff).1 / atoms.length
      ≠ (nearest E atoms similar chargediff).1 % atoms.length) :
    atoms' = fuse atoms ((nearest E atoms similar chargediff).1 / atoms.length)
        ((nearest E atoms similar chargediff).1 % atoms.length)
    ∧ (nearest E atoms similar chargediff).1 / atoms.length
        < (nearest E atoms similar chargediff).1 % atoms.length
    ∧ sametype E
        (atoms.getD ((nearest E atoms similar chargediff).1 / atoms.length) default)
        (atoms.getD ((nearest E atoms similar chargediff).1 % atoms.length) default)
        similar chargediff = true :=
  ⟨(merge_round_some E atoms atoms' cutoff similar chargediff cutmap hr).1,
    (nearest_pair E atoms similar chargediff hne).1,
    (nearest_pair E atoms similar chargediff hne).2.2.1⟩

theorem ineligible_never_fused_witness :
    [⟨"1", "a", [⟨0, 0, 0⟩, ⟨1, 0, 0⟩], "C.3", 0, false⟩]
        = fuse pairBin ((nearest exactEnv pairBin false (1 / 5)).1 / pairBin.length)
            ((nearest exactEnv pairBin false (1 / 5)).1 % pairBin.length)
    ∧ (nearest exactEnv pairBin false (1 / 5)).1 / pairBin.length
        < (nearest exactEnv pairBin false (1 / 5)).1 % pairBin.length
    ∧ sametype exactEnv
        (pairBin.getD ((nearest exactEnv pairBin false (1 / 5)).1 / pairBin.length) default)
        (pairBin.getD ((nearest exactEnv pairBin false (1 / 5)).1 % pairBin.length) default)
        false (1 / 5) = true :=
  ineligible_never_fused exactEnv pairBin _ 100000000 false (1 / 5) noCut
    (by with_unfolding_all decide) (by with_unfolding_all decide)


/-- For a round whose nearest position names two distinct places: the nearest value is the
`distance` of that pair, no pair `i < j` that passes `sametype` has a smaller `distance`, and
a pair with the same `distance` does not come before it in row-major order. -/
theorem nearest_pair_first_minimal (E : Env) (atoms : List Atom) (similar : Bool)
    (chargediff : ℚ) (i j : Nat) (hij : i < j) (hj : j < atoms.length)
    (hs : sametype E (atoms.getD i default) (atoms.getD j default) similar chargediff = true) :
    (nearest E atoms similar chargediff).2
        ≤ distance E (atoms.getD i default) (atoms.getD j default)
    ∧ (distance E (atoms.getD i default) (atoms.getD j default)
          = (nearest E atoms similar chargediff).2 →
        (nearest E atoms similar chargediff).1 ≤ i * atoms.length + j) := by
  refine ⟨nearest_le_distance E atoms similar chargediff i j hij hj hs, ?_⟩
  intro heq
  by_contra hc
  have hlt := nearest_lt_entry E atoms similar chargediff (i * atoms.length + j)
    (not_le.mp hc) (by omega)
  rw [entry_pair E atoms similar chargediff i j hij hj, if_pos hs, heq] at hlt
  exact lt_irrefl _ hlt

/-- C25: the code at the failing input.  For a C.3 record and an N.3 record with the default
cutoff 100000000, every entry of the matrix is the sentinel, the nearest position is 0, the
limit is not below the sentinel, and the round takes record 0 as acceptor and as donor: it is
erased and its position is in no record of the result. -/
theorem self_fusion_at_sentinel :
    (nearest exactEnv strangerBin false (1 / 5)).1 / strangerBin.length = 0 ∧
    (nearest exactEnv strangerBin false (1 / 5)).1 % strangerBin.length = 0 ∧
    merge_round exactEnv strangerBin 100000000 false (1 / 5) noCut
      = some [atomAt "b" "N.3" 1 0] ∧
    internal_merge exactEnv strangerBin 1 1 (1 / 5) 100000000 false (1 / 5) noCut
      = [atomAt "b" "N.3" 1 0] := by
  refine ⟨?_, ?_, ?_, ?_⟩ <;> with_unfolding_all decide

/-- C23: the code at the failing input.  In `splitBin` the one pair fails `sametype` (the
charges differ by 0.5), yet with the default cutoff 100000000 the round fuses: the nearest
position is 0, so that the fused places are (0, 0), not a pair `row < col` passing the
predicate. -/
theorem degenerate_round_selects_no_pair :
    sametype exactEnv (atomAt "a" "C.3" 0 0) (atomAt "b" "C.3" 1 (1 / 2)) false (1 / 5)
      = false ∧
    (nearest exactEnv splitBin false (1 / 5)).1 = 0 ∧
    merge_round exactEnv splitBin 100000000 false (1 / 5) noCut
      = some (fuse splitBin 0 0) ∧
    fuse splitBin 0 0 = [atomAt "b" "C.3" 1 (1 / 2)] := by
  refine ⟨?_, ?_, ?_, ?_⟩ <;> with_unfolding_all decide

/-- C22: the code at the failing input.  With `--cutoff 0.5` and the table entry C.3 -> 1.1,
the limit for two C.3 records is 1.1, not the shorter 0.5 of the help text, and two
single-position records 0.4 apart (selection distance 0.8) are fused. -/
theorem cutoff_option_overwritten :
    resolve_limit (1 / 2) entryCut "C.3" "C.3" = 11 / 10 ∧
    nearest exactEnv closeBin false (1 / 5) = (1, 4 / 5) ∧
    round_limit exactEnv closeBin (1 / 2) false (1 / 5) entryCut = 11 / 10 ∧
    internal_merge exactEnv closeBin 1 1 (1 / 5) (1 / 2) false (1 / 5) entryCut
      = [⟨"1", "a", [⟨0, 0, 0⟩, ⟨2 / 5, 0, 0⟩], "C.3", 0, false⟩] := by
  refine ⟨?_, ?_, ?_, ?_⟩ <;> with_unfolding_all decide

/-- C21: the code at the failing input.  The cluster file names the first record of
`flushBins` only.  With `cmin = 1` and `cminchr = 2` the unmentioned charged record is printed
(line 219 tests `cminchr <= 2`), although the filter of `internal_merge` drops such a record;
with `cmin = 2` and `cminchr = 1` it is not printed (line 207 tests `cmin < 2` for every
record), although the filter of `internal_merge` keeps it. -/
theorem flush_filter_differs :
    (mcl2atoms ["0_0_C1"] flushBins 1 2 (1 / 5)).map (fun st => st.ostr)
      = some [(1, ⟨"1", "0_0_C1", [⟨0, 0, 0⟩], "C.3", 0, false⟩),
              (2, ⟨"2", "0_1_C2", [⟨5, 0, 0⟩], "C.3", -1 / 2, false⟩)] ∧
    internal_merge exactEnv [⟨"2", "0_1_C2", [⟨5, 0, 0⟩], "C.3", -1 / 2, false⟩] 1 2 (1 / 5)
      (11 / 10) false (1 / 5) noCut = [] ∧
    (mcl2atoms ["0_0_C1"] flushBins 2 1 (1 / 5)).map (fun st => st.ostr) = some [] ∧
    internal_merge exactEnv [⟨"2", "0_1_C2", [⟨5, 0, 0⟩], "C.3", -1 / 2, false⟩] 2 1 (1 / 5)
      (11 / 10) false (1 / 5) noCut = [⟨"2", "0_1_C2", [⟨5, 0, 0⟩], "C.3", -1 / 2, false⟩] := by
  refine ⟨?_, ?_, ?_, ?_⟩ <;> with_unfolding_all decide


/-! ## Frame of a fusion and termination -/

theorem absorb_getElem?_other (atoms : List Atom) (ito ifrom k : Nat) (h : ito ≠ k) :
    (absorb atoms ito ifrom)[k]? = atoms[k]? := by
  unfold absorb
  simp only []
  split_ifs <;> simp only [List.getElem?_set_ne h]

theorem fuse_getElem?_before (atoms : List Atom) (ito ifrom k : Nat) (h1 : k ≠ ito)
    (h2 : k < ifrom) : (fuse atoms ito ifrom)[k]? = atoms[k]? := by
  unfold fuse
  rw [List.getElem?_eraseIdx, if_pos h2, absorb_getElem?_other atoms ito ifrom k (Ne.symm h1)]

theorem fuse_getElem?_after (atoms : List Atom) (ito ifrom k : Nat) (h1 : ito < ifrom)
    (h2 : ifrom ≤ k) : (fuse atoms ito ifrom)[k]? = atoms[k + 1]? := by
  unfold fuse
  rw [List.getElem?_eraseIdx, if_neg (by omega),
    absorb_getElem?_other atoms ito ifrom (k + 1) (by omega)]

/-- C26: when a round fuses two distinct places `row = pos / size` and `col = pos % size`, the
bin loses exactly one record; the record at `row` keeps its serial, name and type and its
position list becomes its previous list followed by the donor's list; the records before `col`
other than the acceptor stay where they are, unchanged; and the records after `col` move one
place down, unchanged, so that the donor is the one record that disappears. -/
theorem fusion_frame (E : Env) (atoms atoms' : List Atom) (cutoff : ℚ) (similar : Bool)
    (chargediff : ℚ) (cutmap : CutMap) (row col : Nat)
    (hrow : row = (nearest E atoms similar chargediff).1 / atoms.length)
    (hcol : col = (nearest E atoms similar chargediff).1 % atoms.length)
    (hr : merge_round E atoms cutoff similar chargediff cutmap = some atoms')
    (hne : row ≠ col) :
    atoms'.length + 1 = atoms.length
    ∧ (atoms'.getD row default).posit
        = (atoms.getD row default).posit ++ (atoms.getD col default).posit
    ∧ (atoms'.getD row default).type = (atoms.getD row default).type
    ∧ (atoms'.getD row default).name = (atoms.getD row default).name
    ∧ (atoms'.getD row default).serial = (atoms.getD row default).serial
    ∧ (∀ k : Nat, k ≠ row → k < col → atoms'[k]? = atoms[k]?)
    ∧ (∀ k : Nat, col ≤ k → atoms'[k]? = atoms[k + 1]?) := by
  have hp := nearest_pair E atoms similar chargediff (by rw [← hrow, ← hcol]; exact hne)
  rw [← hrow, ← hcol] at hp
  have hf := (merge_round_some E atoms atoms' cutoff similar chargediff cutmap hr).1
  rw [← hrow, ← hcol] at hf
  have hlt : row < col := hp.1
  have hcn : col < atoms.length := hp.2.1
  have hacc := fuse_getD_acceptor atoms row col hlt (by omega)
  subst hf
  refine ⟨?_, ?_, ?_, ?_, ?_, ?_, ?_⟩
  · rw [length_fuse atoms row col hcn]; omega
  · rw [hacc]
  · rw [hacc]
  · rw [hacc]
  · rw [hacc]
  · intro k h1 h2
    exact fuse_getElem?_before atoms row col k h1 h2
  · intro k h2
    exact fuse_getElem?_after atoms row col k hlt h2

theorem fusion_frame_witness :
    ([⟨"1", "a", [⟨0, 0, 0⟩, ⟨1, 0, 0⟩], "C.3", 0, false⟩] : List Atom).length + 1
      = pairBin.length
    ∧ (([⟨"1", "a", [⟨0, 0, 0⟩, ⟨1, 0, 0⟩], "C.3", 0, false⟩] : List Atom).getD 0
        default).posit = (pairBin.getD 0 default).posit ++ (pairBin.getD 1 default).posit :=
  ⟨(fusion_frame exactEnv pairBin [⟨"1", "a", [⟨0, 0, 0⟩, ⟨1, 0, 0⟩], "C.3", 0, false⟩] 2 false
      (1 / 5) noCut 0 1 (by with_unfolding_all decide) (by with_unfolding_all decide)
      (by with_unfolding_all decide) (by decide)).1,
    (fusion_frame exactEnv pairBin [⟨"1", "a", [⟨0, 0, 0⟩, ⟨1, 0, 0⟩], "C.3", 0, false⟩] 2 false
      (1 / 5) noCut 0 1 (by with_unfolding_all decide) (by with_unfolding_all decide)
      (by with_unfolding_all decide) (by decide)).2.1⟩

theorem merge_count_le (E : Env) (cutoff : ℚ) (similar : Bool) (chargediff : ℚ)
    (cutmap : CutMap) :
    ∀ (fuel : Nat) (atoms : List Atom),
      merge_count E cutoff similar chargediff cutmap fuel atoms ≤ atoms.length - 1 := by
  intro fuel
  induction fuel with
  | zero => intro atoms; simp [merge_count]
  | succ fuel ih =>
    intro atoms
    unfold merge_count
    by_cases h1 : 1 < atoms.length
    · rw [if_pos h1]
      cases hr : merge_round E atoms cutoff similar chargediff cutmap with
      | none => simp
      | some atoms' =>
        have hl := merge_round_length E atoms atoms' cutoff similar chargediff cutmap
          (by omega) hr
        have := ih atoms'
        simp only []
        omega
    · rw [if_neg h1]; omega

theorem merge_loop_length (E : Env) (cutoff : ℚ) (similar : Bool) (chargediff : ℚ)
    (cutmap : CutMap) :
    ∀ (fuel : Nat) (atoms : List Atom),
      (merge_loop E cutoff similar chargediff cutmap fuel atoms).length
        + merge_count E cutoff similar chargediff cutmap fuel atoms = atoms.length := by
  intro fuel
  induction fuel with
  | zero => intro atoms; simp [merge_count, merge_loop]
  | succ fuel ih =>
    intro atoms
    unfold merge_count merge_loop
    by_cases h1 : 1 < atoms.length
    · rw [if_pos h1, if_pos h1]
      cases hr : merge_round E atoms cutoff similar chargediff cutmap with
      | none => simp
      | some atoms' =>
        have hl := merge_round_length E atoms atoms' cutoff similar chargediff cutmap
          (by omega) hr
        have := ih atoms'
        simp only []
        omega
    · rw [if_neg h1, if_neg h1]; simp

theorem merge_count_fuel (E : Env) (cutoff : ℚ) (similar : Bool) (chargediff : ℚ)
    (cutmap : CutMap) :
    ∀ (f1 f2 : Nat) (atoms : List Atom), atoms.length ≤ f1 + 1 → atoms.length ≤ f2 + 1 →
      merge_count E cutoff similar chargediff cutmap f1 atoms
        = merge_count E cutoff similar chargediff cutmap f2 atoms := by
  intro f1
  induction f1 with
  | zero =>
    intro f2 atoms h1 _
    have hs : stable E atoms cutoff similar chargediff cutmap := Or.inl (by omega)
    rw [(merge_loop_of_stable E cutoff similar chargediff cutmap atoms hs 0).2,
      (merge_loop_of_stable E cutoff similar chargediff cutmap atoms hs f2).2]
  | succ f1 ih =>
    intro f2 atoms h1 h2
    cases f2 with
    | zero =>
      have hs : stable E atoms cutoff similar chargediff cutmap := Or.inl (by omega)
      rw [(merge_loop_of_stable E cutoff similar chargediff cutmap atoms hs 0).2,
        (merge_loop_of_stable E cutoff similar chargediff cutmap atoms hs (f1 + 1)).2]
    | succ f2 =>
      unfold merge_count
      by_cases hl : 1 < atoms.length
      · rw [if_pos hl, if_pos hl]
        cases hr : merge_round E atoms cutoff similar chargediff cutmap with
        | none => rfl
        | some atoms' =>
          have := merge_round_length E atoms atoms' cutoff similar chargediff cutmap
            (by omega) hr
          simp only []
          rw [ih f2 atoms' (by omega) (by omega)]
      · rw [if_neg hl, if_neg hl]

/-- C27: the loop performs at most `k - 1` fusions on a bin of `k` records, whatever the number
of passes allowed; from `k - 1` passes on, the bin and the number of fusions no longer depend
on the number of passes, and the bin is one on which the loop has ended (at most one record,
or a round that breaks); a round that does not break shortens the bin by exactly one record;
and the list `internal_merge` returns is not longer than the bin. -/
theorem termination (E : Env) (atoms : List Atom) (cmin cminchr : Nat)
    (nibthreshold cutoff : ℚ) (similar : Bool) (chargediff : ℚ) (cutmap : CutMap) :
    (∀ fuel : Nat,
      merge_count E cutoff similar chargediff cutmap fuel atoms ≤ atoms.length - 1)
    ∧ (∀ fuel : Nat, atoms.length ≤ fuel + 1 →
        merge_loop E cutoff similar chargediff cutmap fuel atoms
          = converged E atoms cutoff similar chargediff cutmap
        ∧ merge_count E cutoff similar chargediff cutmap fuel atoms
          = merge_count E cutoff similar chargediff cutmap atoms.length atoms)
    ∧ stable E (converged E atoms cutoff similar chargediff cutmap) cutoff similar chargediff
        cutmap
    ∧ (∀ atoms' : List Atom, 1 < atoms.length →
        merge_round E atoms cutoff similar chargediff cutmap = some atoms' →
        atoms'.length + 1 = atoms.length)
    ∧ (internal_merge E atoms cmin cminchr nibthreshold cutoff similar chargediff cutmap).length
        ≤ atoms.length := by
  refine ⟨fun fuel => merge_count_le E cutoff similar chargediff cutmap fuel atoms, ?_,
    converged_stable E atoms cutoff similar chargediff cutmap, ?_, ?_⟩
  · intro fuel h
    exact ⟨merge_loop_fuel E cutoff similar chargediff cutmap fuel atoms h,
      merge_count_fuel E cutoff similar chargediff cutmap fuel atoms.length atoms h (by omega)⟩
  · intro atoms' h1 hr
    have := merge_round_length E atoms atoms' cutoff similar chargediff cutmap (by omega) hr
    omega
  · have h1 := (internal_merge_sublist E atoms cmin cminchr nibthreshold cutoff similar
      chargediff cutmap).length_le
    have h2 := merge_loop_length E cutoff similar chargediff cutmap atoms.length atoms
    unfold converged at h1
    omega

theorem termination_witness :
    merge_loop exactEnv 2 false (1 / 5) noCut 1 pairBin
        = converged exactEnv pairBin 2 false (1 / 5) noCut
    ∧ merge_count exactEnv 2 false (1 / 5) noCut 1 pairBin
        = merge_count exactEnv 2 false (1 / 5) noCut pairBin.length pairBin :=
  (termination exactEnv pairBin 1 1 (1 / 5) 2 false (1 / 5) noCut).2.1 1 (by decide)


/-! ## Records keep their positions -/

theorem bins_at_mem (m : Bins) (k : Int) (v : List Atom) (h : bins_at m k = some v) :
    (k, v) ∈ m := by
  induction m with
  | nil => simp [bins_at] at h
  | cons e rest ih =>
    obtain ⟨k1, v1⟩ := e
    by_cases hk : k1 = k
    · simp only [bins_at, if_pos hk, Option.some.injEq] at h
      subst hk; subst h
      exact List.mem_cons_self _ _
    · simp only [bins_at, if_neg hk] at h
      exact List.mem_cons_of_mem _ (ih h)

theorem mem_bins_update (m : Bins) (k : Int) (v : List Atom) (x : Int × List Atom)
    (h : x ∈ bins_update m k v) : x ∈ m ∨ x = (k, v) := by
  induction m with
  | nil => simp [bins_update] at h
  | cons e rest ih =>
    obtain ⟨k1, v1⟩ := e
    by_cases hk : k1 = k
    · simp only [bins_update, if_pos hk, List.mem_cons] at h
      rcases h with h | h
      · right; rw [h, hk]
      · left; exact List.mem_cons_of_mem _ h
    · simp only [bins_update, if_neg hk, List.mem_cons] at h
      rcases h with h | h
      · left; rw [h]; exact List.mem_cons_self _ _
      · rcases ih h with h | h
        · left; exact List.mem_cons_of_mem _ h
        · right; exact h

theorem bins_emplace_back_single (m : Bins) (k : Int) (a : Atom)
    (hm : ∀ cat ∈ m, ∀ x ∈ cat.2, x.posit.length = 1) (ha : a.posit.length = 1) :
    ∀ cat ∈ bins_emplace_back m k a, ∀ x ∈ cat.2, x.posit.length = 1 := by
  intro cat hcat x hx
  unfold bins_emplace_back at hcat
  cases hb : bins_at m k with
  | none =>
    rw [hb] at hcat
    simp only [] at hcat
    rcases (mem_bins_insert m k [a] cat).1 hcat with h | h
    · subst h
      simp only [List.mem_singleton] at hx
      rw [hx]; exact ha
    · exact hm cat h x hx
  | some v =>
    rw [hb] at hcat
    simp only [] at hcat
    rcases mem_bins_update m k (v ++ [a]) cat hcat with h | h
    · exact hm cat h x hx
    · subst h
      simp only [List.mem_append, List.mem_singleton] at hx
      rcases hx with hx | hx
      · exact hm (k, v) (bins_at_mem m k v hb) x hx
      · rw [hx]; exact ha

theorem atoms2bins_row_single (E : Env) (toDouble : String → ℚ) (usenib nibneutral : Bool)
    (nibthreshold : ℚ) (deletelist : List String) (m : Bins) (row : List String)
    (hm : ∀ cat ∈ m, ∀ x ∈ cat.2, x.posit.length = 1) :
    ∀ cat ∈ atoms2bins_row E toDouble usenib nibneutral nibthreshold deletelist m row,
      ∀ x ∈ cat.2, x.posit.length = 1 := by
  unfold atoms2bins_row
  simp only []
  split_ifs
  · exact bins_emplace_back_single m _ _ hm rfl
  · exact hm
  · exact hm

theorem foldl_atoms2bins_single (E : Env) (toDouble : String → ℚ) (usenib nibneutral : Bool)
    (nibthreshold : ℚ) (deletelist : List String) :
    ∀ (rows : List (List String)) (m : Bins),
      (∀ cat ∈ m, ∀ x ∈ cat.2, x.posit.length = 1) →
      ∀ cat ∈ rows.foldl (atoms2bins_row E toDouble usenib nibneutral nibthreshold deletelist) m,
        ∀ x ∈ cat.2, x.posit.length = 1 := by
  intro rows
  induction rows with
  | nil => intro m hm; simpa using hm
  | cons r rows ih =>
    intro m hm
    rw [List.foldl_cons]
    exact ih _ (atoms2bins_row_single E toDouble usenib nibneutral nibthreshold deletelist m r hm)

theorem set_posit_ne_nil (l : List Atom) (i : Nat) (b : Atom)
    (hl : ∀ a ∈ l, a.posit ≠ []) (hb : i < l.length → b.posit ≠ []) :
    ∀ a ∈ l.set i b, a.posit ≠ [] := by
  intro a ha
  by_cases hi : i < l.length
  · rcases List.mem_or_eq_of_mem_set ha with h | h
    · exact hl a h
    · rw [h]; exact hb hi
  · rw [List.set_eq_of_length_le (by omega)] at ha
    exact hl a ha

theorem absorb_posit_ne_nil (atoms : List Atom) (ito ifrom : Nat)
    (h : ∀ a ∈ atoms, a.posit ≠ []) : ∀ a ∈ absorb atoms ito ifrom, a.posit ≠ [] := by
  have h1 : ∀ a ∈ atoms.set ito { atoms.getD ito default with
      posit := (atoms.getD ito default).posit ++ (atoms.getD ifrom default).posit },
      a.posit ≠ [] := by
    apply set_posit_ne_nil atoms ito _ h
    intro hi
    have hmem : atoms.getD ito default ∈ atoms := by
      rw [List.getD_eq_getElem atoms default hi]; exact List.getElem_mem hi
    have hne := h _ hmem
    exact List.append_ne_nil_of_left_ne_nil hne _
  unfold absorb
  simp only []
  split_ifs
  · apply set_posit_ne_nil _ ito _ h1
    intro hi
    have hmem : (atoms.set ito { atoms.getD ito default with
        posit := (atoms.getD ito default).posit ++ (atoms.getD ifrom default).posit }).getD ito
        default ∈ atoms.set ito { atoms.getD ito default with
        posit := (atoms.getD ito default).posit ++ (atoms.getD ifrom default).posit } := by
      rw [List.getD_eq_getElem _ default hi]; exact List.getElem_mem hi
    have hne := h1 _ hmem
    exact hne
  · exact h1

theorem fuse_posit_ne_nil (atoms : List Atom) (ito ifrom : Nat)
    (h : ∀ a ∈ atoms, a.posit ≠ []) : ∀ a ∈ fuse atoms ito ifrom, a.posit ≠ [] := by
  intro a ha
  unfold fuse at ha
  exact absorb_posit_ne_nil atoms ito ifrom h a ((List.eraseIdx_sublist _ _).subset ha)

theorem merge_loop_posit_ne_nil (E : Env) (cutoff : ℚ) (similar : Bool) (chargediff : ℚ)
    (cutmap : CutMap) :
    ∀ (fuel : Nat) (atoms : List Atom), (∀ a ∈ atoms, a.posit ≠ []) →
      ∀ a ∈ merge_loop E cutoff similar chargediff cutmap fuel atoms, a.posit ≠ [] := by
  intro fuel
  induction fuel with
  | zero => intro atoms h; simpa [merge_loop] using h
  | succ fuel ih =>
    intro atoms h
    unfold merge_loop
    by_cases h1 : 1 < atoms.length
    · rw [if_pos h1]
      cases hr : merge_round E atoms cutoff similar chargediff cutmap with
      | none => exact h
      | some atoms' =>
        simp only []
        apply ih
        rw [(merge_round_some E atoms atoms' cutoff similar chargediff cutmap hr).1]
        exact fuse_posit_ne_nil atoms _ _ h
    · rw [if_neg h1]; exact h

/-- C28: every record of every bin that `atoms2bins` returns holds exactly one position; and
when every record of a bin has a non-empty position list, so has every record of the list
that `internal_merge` returns for the bin. -/
theorem live_records_nonempty :
    (∀ (E : Env) (toDouble : String → ℚ) (rows : List (List String))
        (usenib nibneutral : Bool) (nibthreshold : ℚ) (deletelist : List String),
        ∀ cat ∈ atoms2bins E toDouble rows usenib nibneutral nibthreshold deletelist,
          ∀ x ∈ cat.2, x.posit.length = 1)
    ∧ (∀ (E : Env) (atoms : List Atom) (cmin cminchr : Nat) (nibthreshold cutoff : ℚ)
        (similar : Bool) (chargediff : ℚ) (cutmap : CutMap),
        (∀ a ∈ atoms, a.posit ≠ []) →
        ∀ a ∈ internal_merge E atoms cmin cminchr nibthreshold cutoff similar chargediff cutmap,
          a.posit ≠ []) := by
  constructor
  · intro E toDouble rows usenib nibneutral nibthreshold deletelist
    unfold atoms2bins
    exact foldl_atoms2bins_single E toDouble usenib nibneutral nibthreshold deletelist rows []
      (by simp)
  · intro E atoms cmin cminchr nibthreshold cutoff similar chargediff cutmap h a ha
    have hs := (internal_merge_sublist E atoms cmin cminchr nibthreshold cutoff similar
      chargediff cutmap).subset ha
    unfold converged at hs
    exact merge_loop_posit_ne_nil E cutoff similar chargediff cutmap atoms.length atoms h a hs

theorem live_records_nonempty_witness :
    (∀ a ∈ pairBin, a.posit ≠ [])
    ∧ ∀ a ∈ internal_merge exactEnv pairBin 1 1 (1 / 5) 2 false (1 / 5) noCut, a.posit ≠ [] :=
  ⟨by simp [pairBin, atomAt],
    live_records_nonempty.2 exactEnv pairBin 1 1 (1 / 5) 2 false (1 / 5) noCut
      (by simp [pairBin, atomAt])⟩

/-! ## Convergence under a uniform limit -/

/-- C30: when the cutoff table has no entry, every two records of the list that
`internal_merge` returns, the first before the second, that pass `sametype` have a distance
(the function `distance` of the selection) strictly greater than the default cutoff. -/
theorem uniform_convergence (E : Env) (atoms : List Atom) (cmin cminchr : Nat)
    (nibthreshold cutoff : ℚ) (similar : Bool) (chargediff : ℚ) (cutmap : CutMap)
    (hcut : ∀ t, cutmap t = none) :
    (internal_merge E atoms cmin cminchr nibthreshold cutoff similar chargediff cutmap).Pairwise
      (fun a b => sametype E a b similar chargediff = true → cutoff < distance E a b) := by
  have hsub := internal_merge_sublist E atoms cmin cminchr nibthreshold cutoff similar
    chargediff cutmap
  refine List.Pairwise.sublist hsub ?_
  rcases converged_stable E atoms cutoff similar chargediff cutmap with h | h
  · generalize converged E atoms cutoff similar chargediff cutmap = L at h
    match L, h with
    | [], _ => exact List.Pairwise.nil
    | [x], _ => exact List.pairwise_singleton _ _
    | _ :: _ :: _, h => simp at h
  · have hlt := round_limit_lt_of_break E _ cutoff similar chargediff cutmap h
    unfold round_limit at hlt
    rw [resolve_limit_empty cutoff cutmap hcut] at hlt
    exact (pairwise_nearest E _ similar chargediff).imp
      (fun {a b} hab hs => lt_of_lt_of_le hlt (hab hs))

theorem uniform_convergence_witness :
    (∀ t, noCut t = none)
    ∧ (internal_merge exactEnv mixedBin 1 1 (1 / 5) (11 / 10) false (1 / 5) noCut).Pairwise
        (fun a b => sametype exactEnv a b false (1 / 5) = true
          → (11 / 10 : ℚ) < distance exactEnv a b) :=
  ⟨fun _ => rfl,
    uniform_convergence exactEnv mixedBin 1 1 (1 / 5) (11 / 10) false (1 / 5) noCut
      (fun _ => rfl)⟩


/-! ## Conservation of the positions -/

theorem eraseIdx_set_self (l : List Atom) (y : Atom) :
    ∀ i : Nat, (l.set i y).eraseIdx i = l.eraseIdx i := by
  induction l with
  | nil => intro i; simp
  | cons x xs ih =>
    intro i
    cases i with
    | zero => simp
    | succ i => simp [ih i]

theorem eraseIdx_absorb_acceptor (atoms : List Atom) (ito ifrom : Nat) :
    (absorb atoms ito ifrom).eraseIdx ito = atoms.eraseIdx ito := by
  unfold absorb
  simp only []
  split_ifs <;> simp only [eraseIdx_set_self]

theorem flatMap_posit_eraseIdx (l : List Atom) :
    ∀ i : Nat, i < l.length →
      (l.flatMap Atom.posit).Perm
        ((l.getD i default).posit ++ (l.eraseIdx i).flatMap Atom.posit) := by
  induction l with
  | nil => intro i h; simp at h
  | cons x xs ih =>
    intro i h
    cases i with
    | zero => simp
    | succ i =>
      have hi : i < xs.length := by simpa using h
      have h1 := ih i hi
      simp only [List.flatMap_cons, List.eraseIdx_cons_succ, List.getD_cons_succ]
      exact (List.Perm.append_left x.posit h1).trans (List.perm_append_comm_assoc _ _ _)

theorem fuse_posit_perm (atoms : List Atom) (ito ifrom : Nat) (h1 : ito < ifrom)
    (h2 : ifrom < atoms.length) :
    ((fuse atoms ito ifrom).flatMap Atom.posit).Perm (atoms.flatMap Atom.posit) := by
  have hl := length_absorb atoms ito ifrom
  have hA := flatMap_posit_eraseIdx (absorb atoms ito ifrom) ifrom (by omega)
  rw [absorb_getD_other atoms ito ifrom ifrom (by omega)] at hA
  have hB := flatMap_posit_eraseIdx (absorb atoms ito ifrom) ito (by omega)
  rw [absorb_getD_acceptor atoms ito ifrom (by omega), eraseIdx_absorb_acceptor] at hB
  have hC := flatMap_posit_eraseIdx atoms ito (by omega)
  have hD : ((atoms.getD ifrom default).posit ++ atoms.flatMap Atom.posit).Perm
      (((atoms.getD ito default).posit ++ (atoms.getD ifrom default).posit)
        ++ (atoms.eraseIdx ito).flatMap Atom.posit) := by
    rw [List.append_assoc]
    exact (List.Perm.append_left _ hC).trans (List.perm_append_comm_assoc _ _ _)
  have hE := hA.symm.trans (hB.trans hD.symm)
  unfold fuse
  exact (List.perm_append_left_iff _).1 hE

theorem resolve_limit_lt_sentinel (cutoff : ℚ) (cutmap : CutMap) (acceptor donor : String)
    (hcut : cutoff < sentinel) (hmap : ∀ t v, cutmap t = some v → v < sentinel) :
    resolve_limit cutoff cutmap acceptor donor < sentinel := by
  unfold resolve_limit
  simp only []
  cases ha : cutmap acceptor with
  | none =>
    cases hd : cutmap donor with
    | none => exact hcut
    | some w =>
      simp only []
      split_ifs
      · exact hmap donor w hd
      · exact hcut
  | some v =>
    have hv := hmap acceptor v ha
    cases hd : cutmap donor with
    | none => exact hv
    | some w =>
      simp only []
      split_ifs
      · exact hmap donor w hd
      · exact hv

theorem merge_round_posit_perm (E : Env) (atoms atoms' : List Atom) (cutoff : ℚ)
    (similar : Bool) (chargediff : ℚ) (cutmap : CutMap) (hn : 0 < atoms.length)
    (hcut : cutoff < sentinel) (hmap : ∀ t v, cutmap t = some v → v < sentinel)
    (hr : merge_round E atoms cutoff similar chargediff cutmap = some atoms') :
    (atoms'.flatMap Atom.posit).Perm (atoms.flatMap Atom.posit) := by
  obtain ⟨hf, hle⟩ := merge_round_some E atoms atoms' cutoff similar chargediff cutmap hr
  have hlim : round_limit E atoms cutoff similar chargediff cutmap < sentinel := by
    unfold round_limit
    exact resolve_limit_lt_sentinel cutoff cutmap _ _ hcut hmap
  have hne := nearest_pair_of_lt E atoms similar chargediff hn (lt_of_le_of_lt hle hlim)
  have hp := nearest_pair E atoms similar chargediff hne
  rw [hf]
  exact fuse_posit_perm atoms _ _ hp.1 hp.2.1

theorem merge_loop_posit_perm (E : Env) (cutoff : ℚ) (similar : Bool) (chargediff : ℚ)
    (cutmap : CutMap) (hcut : cutoff < sentinel)
    (hmap : ∀ t v, cutmap t = some v → v < sentinel) :
    ∀ (fuel : Nat) (atoms : List Atom),
      ((merge_loop E cutoff similar chargediff cutmap fuel atoms).flatMap Atom.posit).Perm
        (atoms.flatMap Atom.posit) := by
  intro fuel
  induction fuel with
  | zero => intro atoms; simp [merge_loop]
  | succ fuel ih =>
    intro atoms
    unfold merge_loop
    by_cases h1 : 1 < atoms.length
    · rw [if_pos h1]
      cases hr : merge_round E atoms cutoff similar chargediff cutmap with
      | none => exact List.Perm.refl _
      | some atoms' =>
        simp only []
        exact (ih atoms').trans (merge_round_posit_perm E atoms atoms' cutoff similar chargediff
          cutmap (by omega) hcut hmap hr)
    · rw [if_neg h1]

theorem flatMap_posit_filter (l : List Atom) (p : Atom → Bool)
    (h : ∀ x ∈ l, p x = false → x.posit = []) :
    (l.filter p).flatMap Atom.posit = l.flatMap Atom.posit := by
  induction l with
  | nil => rfl
  | cons x xs ih =>
    have ih1 := ih (fun y hy => h y (List.mem_cons_of_mem _ hy))
    cases hp : p x with
    | true => rw [List.filter_cons_of_pos hp, List.flatMap_cons, List.flatMap_cons, ih1]
    | false =>
      rw [List.filter_cons_of_neg (by simp [hp]), List.flatMap_cons, ih1,
        h x (List.mem_cons_self _ _) hp, List.nil_append]

theorem small_neutral_nil (cmin : Nat) (nibthreshold : ℚ) (x : Atom) (hmin : cmin ≤ 1)
    (h : (!small_neutral cmin nibthreshold x) = false) : x.posit = [] := by
  unfold small_neutral at h
  simp at h
  exact List.length_eq_zero.1 (by omega)

theorem small_charged_nil (cminchr : Nat) (nibthreshold : ℚ) (x : Atom) (hmin : cminchr ≤ 1)
    (h : (!small_charged cminchr nibthreshold x) = false) : x.posit = [] := by
  unfold small_charged at h
  simp at h
  exact List.length_eq_zero.1 (by omega)

theorem filter_keeps_nonempty (l : List Atom) (cmin cminchr : Nat) (nibthreshold : ℚ)
    (hmin : cmin ≤ 1) (hminchr : cminchr ≤ 1) (hl : ∀ a ∈ l, a.posit ≠ []) :
    (l.filter (fun x => !small_neutral cmin nibthreshold x)).filter
      (fun x => !small_charged cminchr nibthreshold x) = l := by
  have h1 : l.filter (fun x => !small_neutral cmin nibthreshold x) = l := by
    rw [List.filter_eq_self]
    intro a ha
    by_contra hc
    exact hl a ha (small_neutral_nil cmin nibthreshold a hmin (by simpa using hc))
  rw [h1, List.filter_eq_self]
  intro a ha
  by_contra hc
  exact hl a ha (small_charged_nil cminchr nibthreshold a hminchr (by simpa using hc))

/-- The positions and the count for any bin: when the default cutoff and every entry of the
cutoff table are below the sentinel and `cmin <= 1` and `cminchr <= 1`, the positions of the
records returned are a permutation of the positions of the bin, and when every record of the
bin has a position the number of records returned and the number of fusions add up to the
size of the bin. -/
theorem internal_merge_conserves (E : Env) (atoms : List Atom) (cmin cminchr : Nat)
    (nibthreshold cutoff : ℚ) (similar : Bool) (chargediff : ℚ) (cutmap : CutMap)
    (hcut : cutoff < sentinel) (hmap : ∀ t v, cutmap t = some v → v < sentinel)
    (hmin : cmin ≤ 1) (hminchr : cminchr ≤ 1) :
    ((internal_merge E atoms cmin cminchr nibthreshold cutoff similar chargediff
        cutmap).flatMap Atom.posit).Perm (atoms.flatMap Atom.posit)
    ∧ ((∀ a ∈ atoms, a.posit ≠ []) →
        (internal_merge E atoms cmin cminchr nibthreshold cutoff similar chargediff
            cutmap).length
          + merge_count E cutoff similar chargediff cutmap atoms.length atoms
          = atoms.length) := by
  constructor
  · unfold internal_merge
    simp only []
    rw [flatMap_posit_filter _ _
        (fun x _ hx => small_charged_nil cminchr nibthreshold x hminchr hx),
      flatMap_posit_filter _ _
        (fun x _ hx => small_neutral_nil cmin nibthreshold x hmin hx)]
    unfold converged
    exact merge_loop_posit_perm E cutoff similar chargediff cutmap hcut hmap atoms.length atoms
  · intro hpos
    have hne := merge_loop_posit_ne_nil E cutoff similar chargediff cutmap atoms.length atoms
      hpos
    unfold internal_merge
    simp only []
    unfold converged
    rw [filter_keeps_nonempty _ cmin cminchr nibthreshold hmin hminchr hne]
    exact merge_loop_length E cutoff similar chargediff cutmap atoms.length atoms

/-- C29: for every bin that `atoms2bins` returns, when the default cutoff and every entry of
the cutoff table are below the sentinel 99999999 and `cmin <= 1` and `cminchr <= 1`, the
positions of the records that `internal_merge` returns for the bin are a permutation of the
positions of the records of the bin (none is lost and none is duplicated), and the number of
records returned is the size of the bin less the number of fusions the loop performs. -/
theorem position_conservation (E : Env) (toDouble : String → ℚ) (rows : List (List String))
    (usenib nibneutral : Bool) (deletelist : List String) (cat : Int × List Atom)
    (cmin cminchr : Nat) (nibthreshold cutoff : ℚ) (similar : Bool) (chargediff : ℚ)
    (cutmap : CutMap)
    (hcat : cat ∈ atoms2bins E toDouble rows usenib nibneutral nibthreshold deletelist)
    (hcut : cutoff < sentinel) (hmap : ∀ t v, cutmap t = some v → v < sentinel)
    (hmin : cmin ≤ 1) (hminchr : cminchr ≤ 1) :
    ((internal_merge E cat.2 cmin cminchr nibthreshold cutoff similar chargediff
        cutmap).flatMap Atom.posit).Perm (cat.2.flatMap Atom.posit)
    ∧ (internal_merge E cat.2 cmin cminchr nibthreshold cutoff similar chargediff
          cutmap).length
        + merge_count E cutoff similar chargediff cutmap cat.2.length cat.2
        = cat.2.length := by
  have hone : ∀ c ∈ atoms2bins E toDouble rows usenib nibneutral nibthreshold deletelist,
      ∀ x ∈ c.2, x.posit.length = 1 := by
    unfold atoms2bins
    exact foldl_atoms2bins_single E toDouble usenib nibneutral nibthreshold deletelist rows []
      (by simp)
  have hpos : ∀ a ∈ cat.2, a.posit ≠ [] := by
    intro a ha hnil
    have h1 := hone cat hcat a ha
    rw [hnil] at h1
    simp at h1
  have h := internal_merge_conserves E cat.2 cmin cminchr nibthreshold cutoff similar
    chargediff cutmap hcut hmap hmin hminchr
  exact ⟨h.1, h.2 hpos⟩

theorem position_conservation_witness :
    conserveBin ∈ atoms2bins exactEnv exampleDouble conserveRows false true (1 / 5) []
    ∧ (7 / 2 : ℚ) < sentinel
    ∧ (∀ t v, noCut t = some v → v < sentinel)
    ∧ ((internal_merge exactEnv conserveBin.2 1 1 (1 / 5) (7 / 2) false (1 / 5) noCut).flatMap
        Atom.posit).Perm (conserveBin.2.flatMap Atom.posit)
    ∧ (internal_merge exactEnv conserveBin.2 1 1 (1 / 5) (7 / 2) false (1 / 5) noCut).length
        + merge_count exactEnv (7 / 2) false (1 / 5) noCut conserveBin.2.length conserveBin.2
        = conserveBin.2.length :=
  ⟨by with_unfolding_all decide, by unfold sentinel; norm_num,
    fun t v h => by simp [noCut] at h,
    position_conservation exactEnv exampleDouble conserveRows false true [] conserveBin 1 1
      (1 / 5) (7 / 2) false (1 / 5) noCut (by with_unfolding_all decide)
      (by unfold sentinel; norm_num) (fun t v h => by simp [noCut] at h) (by decide)
      (by decide)⟩

end OLap
